import Mathlib

/-
Verification development for the core limit-order-book matching engine of
src/backend/src/Orderbook.cpp and src/backend/include/Orderbook.h.

Machine integers: Price, Quantity, OrderId are std::uint64_t in the source
(Usings.h).  They are modelled as Nat; where uint64 wrap-around matters
(the level-aggregate arithmetic in Orderbook::UpdateLevelData) the
arithmetic is taken modulo 2^64 explicitly (wadd / wsub below).  Prices
are only compared, never added, so no reduction is needed for them.

The Order entity, OrderModify, Trade/TradeInfo and the level-info records
are declared in headers that are not part of the provided source tree
(Order.h, OrderModify.h, Trade.h, OrderbookLevelInfos.h); they are
modelled from the spec (sections 3, 4.1, 4.4.2, 4.4.7) and from their
call sites in Orderbook.cpp.

Containers: std::map<Price, OrderPointers, greater/less> is modelled as a
price-sorted association list (descending for bids_, ascending for
asks_); the unordered_map data_ is modelled as an association list kept
sorted by key (a canonical iteration order; every result read from it in
the source is independent of the iteration order); orders_ is an
insertion-ordered association list.  The shared_ptr<Order> objects shared
between orders_ and the queues are modelled by storing OrderIds in the
queues and the order objects in the orders_ store, so a mutation through
one handle is seen through the other, exactly as for the shared heap
object in C++.
-/

namespace OB

/- Price, Quantity and OrderId (Usings.h) are all std::uint64_t; they are all
modelled as plain Nat (no type synonyms, so that arithmetic automation sees
Nat directly), with wrap-around applied where the source can overflow. -/

/-- 2^64, the modulus of the uint64 scalar types of Usings.h. -/
def W : Nat := 2 ^ 64

/-- uint64 addition (wrap-around). -/
def wadd (a b : Nat) : Nat := (a + b) % W

/-- uint64 subtraction (wrap-around). -/
def wsub (a b : Nat) : Nat := (a % W + (W - b % W)) % W

inductive Side where
  | Buy
  | Sell
  deriving DecidableEq, Repr

inductive OrderType where
  | GoodTillCancel
  | GoodForDay
  | FillAndKill
  | FillOrKill
  | Market
  deriving DecidableEq, Repr

/-- Modelled from the spec: the Order entity (spec sections 3 and 4.1; Order.h is
not under src).  Attributes id, side, type, price, initial and remaining
quantity. -/
structure Order where
  orderType : OrderType
  id : Nat
  side : Side
  price : Nat
  initialQuantity : Nat
  remainingQuantity : Nat
  deriving DecidableEq, Repr

/-- Modelled from the spec: the Order constructor Order(type, id, side, price,
quantity) used at every make_shared call site sets remaining := initial :=
quantity (spec section 3: created by Add with 0 ≤ remaining ≤ initial). -/
def mkOrder (t : OrderType) (oid : Nat) (s : Side) (p : Nat) (q : Nat) : Order :=
  { orderType := t, id := oid, side := s, price := p
    initialQuantity := q, remainingQuantity := q }

/-- Modelled from the spec: Order::Fill(q) subtracts q from remaining, requiring
q ≤ remaining (spec 4.1); every caller in MatchOrders passes the min of the two
remaining quantities, so the subtraction never truncates there. -/
def Order.fill (o : Order) (q : Nat) : Order :=
  { o with remainingQuantity := o.remainingQuantity - q }

/-- Modelled from the spec: Order::IsFilled() iff remaining == 0 (spec 4.1). -/
def Order.isFilled (o : Order) : Bool := o.remainingQuantity == 0

/-- Modelled from the spec: Order::ToGoodTillCancel(p), callable for Market
orders: sets type := GoodTillCancel and price := p (spec 4.1). -/
def Order.toGoodTillCancel (o : Order) (p : Nat) : Order :=
  { o with orderType := OrderType.GoodTillCancel, price := p }

/-- Modelled from the spec: one participant of a trade (spec 4.4.2). -/
structure TradeInfo where
  orderId : Nat
  price : Nat
  quantity : Nat
  deriving DecidableEq, Repr

/-- Modelled from the spec and the construction site (Orderbook.cpp lines
244-247): a Trade records the bid participant first, the ask participant
second. -/
structure Trade where
  bidTrade : TradeInfo
  askTrade : TradeInfo
  deriving DecidableEq, Repr

abbrev Trades := List Trade

/-- Modelled from the spec: a modify request carries id, new side, new price,
new quantity (spec 4.4.4). -/
structure OrderModify where
  orderId : Nat
  side : Side
  price : Nat
  quantity : Nat
  deriving DecidableEq, Repr

/-- Modelled from the spec: OrderModify::ToOrderPointer(type) builds a fresh
order with the stored id, side, price, quantity and the given type
(spec 4.4.4). -/
def OrderModify.toOrderPointer (m : OrderModify) (t : OrderType) : Order :=
  mkOrder t m.orderId m.side m.price m.quantity

/-- Orderbook::LevelData (Orderbook.h lines 58-67): quantity_ and count_ are
both of type Quantity (uint64). -/
structure LevelData where
  quantity : Nat
  count : Nat
  deriving DecidableEq, Repr

/-- LevelData::Action (Orderbook.h lines 62-66). -/
inductive LevelAction where
  | Add
  | Remove
  | Match
  deriving DecidableEq, Repr

abbrev DataMap := List (Nat × LevelData)

def dataLookup (d : DataMap) (p : Nat) : Option LevelData := List.lookup p d

/-- unordered_map::erase by key. -/
def dataEraseKey (p : Nat) : DataMap → DataMap
  | [] => []
  | e :: rest => if e.1 = p then rest else e :: dataEraseKey p rest

/-- Store a value at key p, keeping the canonical ascending key order. -/
def dataSet (p : Nat) (v : LevelData) : DataMap → DataMap
  | [] => [(p, v)]
  | e :: rest =>
    if p = e.1 then (p, v) :: rest
    else if p < e.1 then (p, v) :: e :: rest
    else e :: dataSet p v rest

/-- Orderbook::UpdateLevelData (Orderbook.cpp lines 135-147). data_[price]
default-constructs a {0,0} entry when absent; count_ and quantity_ are uint64,
hence the wrap-around arithmetic; the entry is erased when count_ ends up 0. -/
def UpdateLevelData (price : Nat) (quantity : Nat) (action : LevelAction)
    (d : DataMap) : DataMap :=
  let cur := (dataLookup d price).getD { quantity := 0, count := 0 }
  let cnt :=
    match action with
    | .Remove => wsub cur.count 1
    | .Add => wadd cur.count 1
    | .Match => cur.count
  let qty :=
    match action with
    | .Remove => wsub cur.quantity quantity
    | .Match => wsub cur.quantity quantity
    | .Add => wadd cur.quantity quantity
  if cnt = 0 then dataEraseKey price d
  else dataSet price { quantity := qty, count := cnt } d

abbrev OrderQueue := List Nat

abbrev Levels := List (Nat × OrderQueue)

/-- std::map operator[] followed by push_back (Orderbook.cpp lines 317-325):
append the id to the queue at p, creating the level at its sorted position when
absent.  cmpFront p q is true when p precedes q in the map's iteration order
(std::greater for bids_, std::less for asks_). -/
def levelsAppend (cmpFront : Nat → Nat → Bool) (p : Nat) (oid : Nat) :
    Levels → Levels
  | [] => [(p, [oid])]
  | e :: rest =>
    if p = e.1 then (p, e.2 ++ [oid]) :: rest
    else if cmpFront p e.1 then (p, [oid]) :: e :: rest
    else e :: levelsAppend cmpFront p oid rest

/-- list::erase at the iterator stored in orders_, then erasing the level when
its queue empties (Orderbook.cpp lines 103-115).  Under the book invariant an
id occurs at exactly one position, so erasing its first occurrence is erasing
at the stored iterator. -/
def levelsErase (p : Nat) (oid : Nat) : Levels → Levels
  | [] => []
  | e :: rest =>
    if e.1 = p then
      let q := e.2.erase oid
      if q = [] then rest else (e.1, q) :: rest
    else e :: levelsErase p oid rest

abbrev OrderStore := List (Nat × Order)

def storeLookup (st : OrderStore) (oid : Nat) : Option Order := List.lookup oid st

/-- In-place mutation of the shared order object (Fill / ToGoodTillCancel act
through the shared_ptr): replace the value stored at oid. -/
def storeSet (oid : Nat) (o : Order) : OrderStore → OrderStore
  | [] => []
  | e :: rest => if e.1 = oid then (oid, o) :: rest else e :: storeSet oid o rest

/-- unordered_map::erase by key (orders_). -/
def storeErase (oid : Nat) : OrderStore → OrderStore
  | [] => []
  | e :: rest => if e.1 = oid then rest else e :: storeErase oid rest

/-- The Orderbook state: data_, bids_, asks_, orders_ (Orderbook.h lines
86-89).  Queues hold OrderIds (the shared OrderPointers; the pointee lives in
the orders store); bids_ is sorted by descending price, asks_ ascending. -/
structure Book where
  data : DataMap
  bids : Levels
  asks : Levels
  orders : OrderStore
  deriving DecidableEq, Repr

def emptyBook : Book := { data := [], bids := [], asks := [], orders := [] }

/-- Orderbook::CanMatch (Orderbook.cpp lines 190-205). -/
def CanMatch (b : Book) (side : Side) (price : Nat) : Bool :=
  match side with
  | .Buy =>
    match b.asks with
    | [] => false
    | (bestAsk, _) :: _ => decide (price ≥ bestAsk)
  | .Sell =>
    match b.bids with
    | [] => false
    | (bestBid, _) :: _ => decide (price ≤ bestBid)

/-- The level loop of Orderbook::CanFullyFill (lines 166-180).  The
unordered_map iteration order is unspecified; the loop's result is
order-independent (it returns true exactly when the eligible levels sum to at
least the requested quantity, and the guarded subtraction never wraps), so
iterating the canonical sorted list is faithful.  threshold has been assigned
on both branches before the loop, so it is passed as a plain Price. -/
def canFullyFillLoop (side : Side) (price threshold : Nat) :
    Nat → DataMap → Bool
  | _, [] => false
  | quantity, (levelPrice, levelData) :: rest =>
    if (side == Side.Buy && decide (threshold > levelPrice)) ||
       (side == Side.Sell && decide (threshold < levelPrice)) then
      canFullyFillLoop side price threshold quantity rest
    else if (side == Side.Buy && decide (levelPrice > price)) ||
            (side == Side.Sell && decide (levelPrice < price)) then
      canFullyFillLoop side price threshold quantity rest
    else if quantity ≤ levelData.quantity then true
    else canFullyFillLoop side price threshold (quantity - levelData.quantity) rest

/-- Orderbook::CanFullyFill (Orderbook.cpp lines 152-183).  The 0 default for
threshold is unreachable: CanMatch guarantees the dereferenced side map is
non-empty. -/
def CanFullyFill (b : Book) (side : Side) (price : Nat) (quantity : Nat) : Bool :=
  if !CanMatch b side price then false
  else
    let threshold : Nat :=
      match side with
      | .Buy => match b.asks with | [] => 0 | (askPrice, _) :: _ => askPrice
      | .Sell => match b.bids with | [] => 0 | (bidPrice, _) :: _ => bidPrice
    canFullyFillLoop side price threshold quantity b.data

/-- Orderbook::CancelOrderInternal (Orderbook.cpp lines 96-118): look the order
up in orders_, erase the orders_ entry, erase the queue position (dropping the
level if it empties), then OnOrderCancelled applies UpdateLevelData with the
remaining quantity and action Remove. -/
def CancelOrderInternal (b : Book) (orderId : Nat) : Book :=
  match storeLookup b.orders orderId with
  | none => b
  | some order =>
    let st := storeErase orderId b.orders
    let b1 :=
      if order.side = Side.Sell then
        { b with orders := st, asks := levelsErase order.price orderId b.asks }
      else
        { b with orders := st, bids := levelsErase order.price orderId b.bids }
    { b1 with data := UpdateLevelData order.price order.remainingQuantity .Remove b1.data }

def levelsMeasure (l : Levels) : Nat := (l.map (fun e => e.2.length + 1)).sum

/-- The loop of Orderbook::MatchOrders (lines 215-262), written
step-recursively: each recursive call performs one head-to-head fill (the body
of the inner while, lines 226-250) or drops one emptied level together with
its data_ entry (the code after the inner while, lines 253-261; note the
data_.erase there).  The inner while exits exactly when one of the two head
queues empties, so the stepwise erasure coincides with the source's.  The
lookup-failure branch is unreachable: queue ids are always live in orders_
(the C++ dereferences the shared pointer directly).  The recursion is
structural on a fuel argument so that the definition evaluates in the kernel;
matchLoop below supplies fuel strictly greater than the number of loop steps
(every step removes either one queue element or one empty level, so it
decreases levelsMeasure bids + levelsMeasure asks: fillStep_measure_lt above
and matchLoopF_fuel below), hence the 0-fuel branch never fires. -/
def matchLoopF : Nat → Book → Trades → Trades × Book
  | 0, b, trades => (trades, b)
  | fuel + 1, b, trades =>
    match b.bids, b.asks with
    | [], _ => (trades, b)
    | _ :: _, [] => (trades, b)
    | (bidPrice, bidQ) :: restBids, (askPrice, askQ) :: restAsks =>
      if bidPrice < askPrice then (trades, b)
      else
        match bidQ, askQ with
        | [], _ =>
          matchLoopF fuel { b with bids := restBids, data := dataEraseKey bidPrice b.data } trades
        | _ :: _, [] =>
          matchLoopF fuel { b with asks := restAsks, data := dataEraseKey askPrice b.data } trades
        | bidId :: bidTail, askId :: askTail =>
          match storeLookup b.orders bidId, storeLookup b.orders askId with
          | some bid, some ask =>
            let quantity := min bid.remainingQuantity ask.remainingQuantity
            let bid' := bid.fill quantity
            let ask' := ask.fill quantity
            let bidFilled := bid'.isFilled
            let askFilled := ask'.isFilled
            let store0 := storeSet askId ask' (storeSet bidId bid' b.orders)
            let store1 := if bidFilled then storeErase bidId store0 else store0
            let store2 := if askFilled then storeErase askId store1 else store1
            let bidQ' := if bidFilled then bidTail else bidId :: bidTail
            let askQ' := if askFilled then askTail else askId :: askTail
            let t : Trade :=
              { bidTrade := { orderId := bid.id, price := bid.price, quantity := quantity }
                askTrade := { orderId := ask.id, price := ask.price, quantity := quantity } }
            let data1 := UpdateLevelData bid.price quantity
              (if bidFilled then .Remove else .Match) b.data
            let data2 := UpdateLevelData ask.price quantity
              (if askFilled then .Remove else .Match) data1
            let bids' := if bidQ' = [] then restBids else (bidPrice, bidQ') :: restBids
            let data3 := if bidQ' = [] then dataEraseKey bidPrice data2 else data2
            let asks' := if askQ' = [] then restAsks else (askPrice, askQ') :: restAsks
            let data4 := if askQ' = [] then dataEraseKey askPrice data3 else data3
            matchLoopF fuel { data := data4, bids := bids', asks := asks', orders := store2 }
              (trades ++ [t])
          | _, _ => (trades, b)

/-- The fuel supplied to matchLoopF by matchLoop. -/
def matchFuel (b : Book) : Nat := levelsMeasure b.bids + levelsMeasure b.asks + 1

/-- The loop of Orderbook::MatchOrders, with sufficient fuel. -/
def matchLoop (b : Book) (trades : Trades) : Trades × Book :=
  matchLoopF (matchFuel b) b trades

/-- Orderbook::MatchOrders (lines 210-279): the loop, then the FillAndKill
post-pass on bids_.begin()->front() and asks_.begin()->front() (lines 264-276);
the public CancelOrder called there only re-acquires the lock and delegates to
CancelOrderInternal.  The empty-queue and missing-id patterns are unreachable
under the book invariant (the C++ calls front() and dereferences directly). -/
def MatchOrders (b : Book) : Trades × Book :=
  let r := matchLoop b []
  let b1 := r.2
  let b2 :=
    match b1.bids with
    | (_, oid :: _) :: _ =>
      match storeLookup b1.orders oid with
      | some o =>
        if o.orderType = OrderType.FillAndKill then CancelOrderInternal b1 oid else b1
      | none => b1
    | _ => b1
  let b3 :=
    match b2.asks with
    | (_, oid :: _) :: _ =>
      match storeLookup b2.orders oid with
      | some o =>
        if o.orderType = OrderType.FillAndKill then CancelOrderInternal b2 oid else b2
      | none => b2
    | _ => b2
  (r.1, b3)

/-- Orderbook::AddOrder (Orderbook.cpp lines 292-332). -/
def AddOrder (b : Book) (order : Order) : Trades × Book :=
  if (storeLookup b.orders order.id).isSome then ([], b)
  else if order.orderType = OrderType.FillAndKill ∧
      CanMatch b order.side order.price = false then ([], b)
  else
    let converted : Option Order :=
      if order.orderType = OrderType.Market then
        match order.side, b.asks.getLast?, b.bids.getLast? with
        | .Buy, some (worstAsk, _), _ => some (order.toGoodTillCancel worstAsk)
        | .Sell, _, some (worstBid, _) => some (order.toGoodTillCancel worstBid)
        | _, _, _ => none
      else some order
    match converted with
    | none => ([], b)
    | some order =>
      if order.orderType = OrderType.FillOrKill ∧
          CanFullyFill b order.side order.price order.initialQuantity = false then ([], b)
      else
        let b1 :=
          if order.side = Side.Buy then
            { b with bids := levelsAppend (fun x y => decide (y < x)) order.price order.id b.bids }
          else
            { b with asks := levelsAppend (fun x y => decide (x < y)) order.price order.id b.asks }
        let b2 := { b1 with orders := b1.orders ++ [(order.id, order)] }
        let b3 := { b2 with data := UpdateLevelData order.price order.initialQuantity .Add b2.data }
        MatchOrders b3

/-- Orderbook::CancelOrder (lines 337-341): lock acquisition plus
CancelOrderInternal. -/
def CancelOrder (b : Book) (orderId : Nat) : Book :=
  CancelOrderInternal b orderId

/-- Orderbook::ModifyOrder (lines 346-361): no-op for an unknown id, otherwise
cancel then re-add a fresh order with the existing order's type and the
request's side, price and quantity. -/
def ModifyOrder (b : Book) (m : OrderModify) : Trades × Book :=
  match storeLookup b.orders m.orderId with
  | none => ([], b)
  | some existingOrder =>
    let b1 := CancelOrder b m.orderId
    AddOrder b1 (m.toOrderPointer existingOrder.orderType)

/-- Orderbook::Size (lines 366-369): the number of entries of orders_. -/
def Size (b : Book) : Nat := b.orders.length

/-- Modelled from the spec: the LevelInfo record (price, total quantity) of
OrderbookLevelInfos.h (spec 4.4.7 and 6). -/
structure LevelInfo where
  price : Nat
  quantity : Nat
  deriving DecidableEq, Repr

/-- Modelled from the spec: the snapshot output, two ordered LevelInfo
sequences (spec 4.4.7 and 6). -/
structure OrderbookLevelInfos where
  bids : List LevelInfo
  asks : List LevelInfo
  deriving DecidableEq, Repr

/-- order->GetRemainingQuantity() through the shared pointer held in a queue;
the id is always live in orders_ under the book invariant, so the 0 default is
unreachable. -/
def remainingOf (st : OrderStore) (oid : Nat) : Nat :=
  match storeLookup st oid with
  | some o => o.remainingQuantity
  | none => 0

/-- The running uint64 total of remaining quantities over one queue; this is
both the total += loop of SequentialSnapshot::Generate (lines 388-390 and
397-399) and the std::accumulate of the CreateLevelInfos lambdas. -/
def levelTotal (st : OrderStore) (q : OrderQueue) : Nat :=
  q.foldl (fun runningSum oid => wadd runningSum (remainingOf st oid)) 0

/-- Orderbook::SequentialSnapshot::Generate (lines 384-404). -/
def SequentialGenerate (st : OrderStore) (bids asks : Levels) : OrderbookLevelInfos :=
  { bids := bids.map (fun e => { price := e.1, quantity := levelTotal st e.2 })
    asks := asks.map (fun e => { price := e.1, quantity := levelTotal st e.2 }) }

/-- The CreateLevelInfos lambda shared by the concurrent strategies (lines
410-415, 445-450, 500-505). -/
def CreateLevelInfos (st : OrderStore) (price : Nat) (orders : OrderQueue) : LevelInfo :=
  { price := price, quantity := levelTotal st orders }

/-- Orderbook::AsyncSnapshot::Generate (lines 409-439): the bid side and the
ask side are reduced on two concurrent tasks, each an in-order pass applying
CreateLevelInfos per level; the futures are joined and combined. -/
def AsyncGenerate (st : OrderStore) (bids asks : Levels) : OrderbookLevelInfos :=
  { bids := bids.map (fun e => CreateLevelInfos st e.1 e.2)
    asks := asks.map (fun e => CreateLevelInfos st e.1 e.2) }

/-- The batchProcess lambda (lines 452-459): apply CreateLevelInfos to each
level of one contiguous shard. -/
def batchProcess (st : OrderStore) (batch : Levels) : List LevelInfo :=
  batch.map (fun e => CreateLevelInfos st e.1 e.2)

/-- numBatches = min(hardwareThreads, numElements) (line 464), with
hardwareThreads = max(1, hardware_concurrency) (line 463) applied by the
caller. -/
def numBatchesOf (hardwareThreads numElements : Nat) : Nat :=
  min hardwareThreads numElements

/-- The shard list built by the submit loop (lines 470-477): numBatches - 1
shards of batchSize levels each, and a last shard absorbing the leftover. -/
def shards (batchSize : Nat) : Nat → Levels → List Levels
  | 0, _ => []
  | 1, container => [container]
  | n + 2, container =>
    container.take batchSize :: shards batchSize (n + 1) (container.drop batchSize)

/-- The submitBatches lambda (lines 461-488).  hw is the value of
std::thread::hardware_concurrency() in the execution environment.  When the
container is empty, numBatches = min(max 1 hw, 0) = 0 and the source evaluates
batchSize = numElements / numBatches, a division by zero (undefined
behaviour); this is modelled as none. -/
def submitBatches (st : OrderStore) (hw : Nat) (container : Levels) :
    Option (List LevelInfo) :=
  let numElements := container.length
  let hardwareThreads := max 1 hw
  let numBatches := numBatchesOf hardwareThreads numElements
  if numBatches = 0 then none
  else
    let batchSize := numElements / numBatches
    some ((shards batchSize numBatches container).map (batchProcess st)).flatten

/-- Orderbook::ThreadPoolSnapshot::Generate (lines 444-494). -/
def ThreadPoolGenerate (st : OrderStore) (hw : Nat) (bids asks : Levels) :
    Option OrderbookLevelInfos :=
  match submitBatches st hw bids, submitBatches st hw asks with
  | some bidInfos, some askInfos => some { bids := bidInfos, asks := askInfos }
  | _, _ => none

/-- Orderbook::AsyncThreadPoolSnapshot::Generate (lines 499-534): one pool
task per level, futures collected in iteration order. -/
def AsyncThreadPoolGenerate (st : OrderStore) (bids asks : Levels) : OrderbookLevelInfos :=
  { bids := bids.map (fun e => CreateLevelInfos st e.1 e.2)
    asks := asks.map (fun e => CreateLevelInfos st e.1 e.2) }

/-- A client call on the engine.  Every AddOrder call site constructs the
order with the Order constructor, so an added order always starts with
remaining = initial. -/
inductive BookOp where
  | add (t : OrderType) (oid : Nat) (s : Side) (p : Nat) (q : Nat)
  | cancel (oid : Nat)
  | modify (m : OrderModify)
  deriving DecidableEq, Repr

def applyOp (b : Book) : BookOp → Book
  | .add t oid s p q => (AddOrder b (mkOrder t oid s p q)).2
  | .cancel oid => CancelOrder b oid
  | .modify m => (ModifyOrder b m).2

def runOps (ops : List BookOp) : Book := ops.foldl applyOp emptyBook

/-- A book state is reachable when some sequence of client calls produces it
from the empty book. -/
def Reachable (b : Book) : Prop := ∃ ops, runOps ops = b

/-- The reachable book of the conservation counterexample: Sell#1@100 q5,
Sell#2@100 q3, then Buy#3@100 q5.  The incoming bid fully fills #1; the bid
queue at 100 empties first and MatchOrders erases the whole data_ entry at 100
(lines 253-256) although #2 still rests on the ask side at that price. -/
def conservationBugBook : Book :=
  runOps [.add .GoodTillCancel 1 .Sell 100 5, .add .GoodTillCancel 2 .Sell 100 3,
    .add .GoodTillCancel 3 .Buy 100 5]

/-- The book of spec scenario 2 before the crossing sell arrives:
Buy#1@100 q5 then Buy#2@100 q5, both GoodTillCancel. -/
def priceTimeBook : Book :=
  runOps [.add .GoodTillCancel 1 .Buy 100 5, .add .GoodTillCancel 2 .Buy 100 5]

/-- A reachable book with corrupted level aggregates: after the three orders
of conservationBugBook, cancelling #2 makes UpdateLevelData wrap below zero
(count 2^64 - 1, quantity 2^64 - 3 at price 100, with no resting order
there); Sell#4@90 q1 then provides one real unit of depth. -/
def fokBugBook : Book :=
  runOps [.add .GoodTillCancel 1 .Sell 100 5, .add .GoodTillCancel 2 .Sell 100 3,
    .add .GoodTillCancel 3 .Buy 100 5, .cancel 2, .add .GoodTillCancel 4 .Sell 90 1]

/-- The claim's market-order book: asks {101 q1, 103 q2, 105 q4}. -/
def marketBook : Book :=
  runOps [.add .GoodTillCancel 1 .Sell 101 1, .add .GoodTillCancel 2 .Sell 103 2,
    .add .GoodTillCancel 3 .Sell 105 4]

/-- The reachable book of the round-trip counterexample: after the
price-time scenario (#1, #2 Buy@100, #3 Sell@100 q7) the aggregate entry at
100 is already gone (the C1 slip); cancelling #2 then wraps the uint64
counters, leaving data_ = {100 ↦ {quantity 2^64-3, count 2^64-1}} with no
resting orders at all. -/
def roundTripBugBook : Book :=
  runOps [.add .GoodTillCancel 1 .Buy 100 5, .add .GoodTillCancel 2 .Buy 100 5,
    .add .GoodTillCancel 3 .Sell 100 7, .cancel 2]

def prices (l : Levels) : List Nat := l.map Prod.fst

def allIds (l : Levels) : List Nat := (l.map Prod.snd).flatten

/-- First-occurrence priority order in a queue: queueLE q x y is true when x
occurs in q at or before the first occurrence of y (in particular whenever
x = y and x occurs in q).  With q the concatenated queue contents of one side
map (best price first by the map comparator, arrival order within each
level), queueLE is exactly the priority order in which resting orders of
that side must participate in trades. -/
def queueLE (q : List Nat) (x y : Nat) : Bool :=
  match q with
  | [] => false
  | a :: q' => if a = x then true else if a = y then false else queueLE q' x y

/-- The structural core of the book invariant: side maps sorted (bids
descending, asks ascending), no empty queue, order-index keys unique and in
bijection with the queue contents, every queue id owned by a store entry of
matching id/side/price, and every store entry located in the queue of its side
and price. -/
structure CoreInv (b : Book) : Prop where
  sortedB : (prices b.bids).Pairwise (fun x y => y < x)
  sortedA : (prices b.asks).Pairwise (fun x y => x < y)
  neB : ∀ e ∈ b.bids, e.2 ≠ []
  neA : ∀ e ∈ b.asks, e.2 ≠ []
  keysNodup : (b.orders.map Prod.fst).Nodup
  keysPerm : (b.orders.map Prod.fst).Perm (allIds b.bids ++ allIds b.asks)
  bidsOwned : ∀ e ∈ b.bids, ∀ oid ∈ e.2, ∃ v, List.lookup oid b.orders = some v ∧
    v.id = oid ∧ v.side = Side.Buy ∧ v.price = e.1
  asksOwned : ∀ e ∈ b.asks, ∀ oid ∈ e.2, ∃ v, List.lookup oid b.orders = some v ∧
    v.id = oid ∧ v.side = Side.Sell ∧ v.price = e.1
  storeOwned : ∀ e ∈ b.orders, e.2.id = e.1 ∧
    (e.2.side = Side.Buy → ∃ q, (e.2.price, q) ∈ b.bids ∧ e.1 ∈ q) ∧
    (e.2.side = Side.Sell → ∃ q, (e.2.price, q) ∈ b.asks ∧ e.1 ∈ q)

/-- The book invariant that holds between engine calls: the structural core
plus sides price-disjoint (no crossing at rest) and no resting FillAndKill
order. -/
structure SInv (b : Book) extends CoreInv b : Prop where
  nocross : ∀ bp ∈ prices b.bids, ∀ ap ∈ prices b.asks, bp < ap
  noFAKstore : ∀ e ∈ b.orders, e.2.orderType ≠ OrderType.FillAndKill

/-- The invariant maintained inside the match loop: SInv without the
no-crossing and no-FillAndKill conditions; instead, any FillAndKill order in
the store sits at the head of the best level of its side (the freshly
inserted incoming order). -/
structure LoopInv (b : Book) extends CoreInv b : Prop where
  fakHead : ∀ e ∈ b.orders, e.2.orderType = OrderType.FillAndKill →
    (∃ p t rest, b.bids = (p, e.1 :: t) :: rest) ∨
    (∃ p t rest, b.asks = (p, e.1 :: t) :: rest)

/-- The state of the book when the match loop exits: no crossing remains. -/
def ExitShape (b : Book) : Prop :=
  b.bids = [] ∨ b.asks = [] ∨
    (∃ bp bq br ap aq ar, b.bids = (bp, bq) :: br ∧ b.asks = (ap, aq) :: ar ∧ bp < ap)

theorem levelsMeasure_cons (p : Nat) (q : OrderQueue) (rest : Levels) :
    levelsMeasure ((p, q) :: rest) = q.length + 1 + levelsMeasure rest := by
  simp [levelsMeasure]

theorem fillStep_measure_lt (bidPrice askPrice : Nat) (bidId askId : Nat)
    (bidTail askTail : List Nat) (restBids restAsks : Levels) (bf af : Bool)
    (hone : bf = true ∨ af = true) :
    levelsMeasure (if (if bf = true then bidTail else bidId :: bidTail) = [] then restBids
      else (bidPrice, if bf = true then bidTail else bidId :: bidTail) :: restBids) +
    levelsMeasure (if (if af = true then askTail else askId :: askTail) = [] then restAsks
      else (askPrice, if af = true then askTail else askId :: askTail) :: restAsks) <
    levelsMeasure ((bidPrice, bidId :: bidTail) :: restBids) +
    levelsMeasure ((askPrice, askId :: askTail) :: restAsks) := by
  rcases bf <;> rcases af
  · exact absurd hone (by simp)
  · rcases askTail with _ | ⟨a, as'⟩ <;>
      simp [levelsMeasure_cons, List.cons_ne_nil]
  · rcases bidTail with _ | ⟨c, cs⟩ <;>
      simp [levelsMeasure_cons, List.cons_ne_nil]
  · rcases bidTail with _ | ⟨c, cs⟩ <;> rcases askTail with _ | ⟨a, as'⟩ <;>
      simp [levelsMeasure_cons, List.cons_ne_nil] <;> omega

/-- C1: conservation of quantity is violated by the code.  In the reachable
state conservationBugBook, order #2 rests live on the ask side at price 100
with remaining quantity 3 (so the sum of remaining quantities at that price is
3), yet the level-aggregate map data_ has no entry at price 100 at all: the
data_.erase(bidPrice) of MatchOrders removed it while the ask side still held
a live order at that price. -/
theorem claim_C1_conservation_code_bug :
    conservationBugBook.asks = [(100, [2])] ∧
    storeLookup conservationBugBook.orders 2 =
      some { orderType := .GoodTillCancel, id := 2, side := .Sell, price := 100,
             initialQuantity := 3, remainingQuantity := 3 } ∧
    dataLookup conservationBugBook.data 100 = none := by
  decide


/-- C3: FillOrKill feasibility is violated by the code.  In the reachable
state fokBugBook the entire ask side holds one unit (order #4 at 90 with
remaining 1), yet CanFullyFill reports that a Buy@100 for 10 units can be
fully filled — it sums the corrupted data_ entries left behind by the
MatchOrders data_.erase slip — so the FillOrKill order #5 is admitted, trades
only 1 unit, and rests in the book with remaining 9 instead of being an
all-or-nothing order. -/
theorem claim_C3_fok_feasibility_code_bug :
    fokBugBook.asks = [(90, [4])] ∧
    remainingOf fokBugBook.orders 4 = 1 ∧
    CanFullyFill fokBugBook .Buy 100 10 = true ∧
    (AddOrder fokBugBook (mkOrder .FillOrKill 5 .Buy 100 10)).1.length = 1 ∧
    storeLookup (AddOrder fokBugBook (mkOrder .FillOrKill 5 .Buy 100 10)).2.orders 5 =
      some { orderType := .FillOrKill, id := 5, side := .Buy, price := 100,
             initialQuantity := 10, remainingQuantity := 9 } := by
  decide

theorem shards_flatten (batchSize : Nat) :
    ∀ (k : Nat) (l : Levels), 1 ≤ k → (shards batchSize k l).flatten = l := by
  intro k
  induction k with
  | zero => intro l h; omega
  | succ n ih =>
    intro l _
    match n with
    | 0 => simp [shards]
    | m + 1 =>
      simp only [shards, List.flatten_cons]
      rw [ih (l.drop batchSize) (by omega)]
      exact List.take_append_drop _ _

theorem batchProcess_flatten (st : OrderStore) (S : List Levels) :
    (S.map (batchProcess st)).flatten = batchProcess st S.flatten := by
  induction S with
  | nil => rfl
  | cons x xs ih => simp [batchProcess, List.flatten_cons, ih]

theorem submitBatches_of_ne_nil (st : OrderStore) (hw : Nat) (container : Levels)
    (h : container ≠ []) :
    submitBatches st hw container = some (batchProcess st container) := by
  have hlen : 0 < container.length := List.length_pos.mpr h
  have hnb : ¬ numBatchesOf (max 1 hw) container.length = 0 := by
    simp only [numBatchesOf]
    omega
  have hnb1 : 1 ≤ numBatchesOf (max 1 hw) container.length := by
    simp only [numBatchesOf]
    omega
  simp only [submitBatches, numBatchesOf] at hnb ⊢
  rw [if_neg hnb]
  congr 1
  rw [batchProcess_flatten]
  rw [shards_flatten _ _ _ (by simpa [numBatchesOf] using hnb1)]

/-- C10 counterexample: the claim that numBatches is never zero when the
division numElements / numBatches is evaluated fails on an empty side: with
one hardware thread and the empty bid map, numBatches = min(1, 0) = 0 and the
source evaluates 0 / 0 (undefined behaviour; modelled as none). -/
theorem claim_C10_counterexample :
    numBatchesOf (max 1 1) ([] : Levels).length = 0 ∧
    submitBatches [] 1 ([] : Levels) = none := by
  decide

/-- C10 (amended): whenever the partitioned side holds at least one level,
numBatches = min(max(1, hw), level count) is at least 1, so the division
numElements / numBatches is well defined and the pool-partitioned reduction
returns a snapshot of that side; the divisor is zero exactly on an empty
side. -/
theorem claim_C10_numBatches_pos (st : OrderStore) (hw : Nat) (container : Levels)
    (h : container ≠ []) :
    1 ≤ numBatchesOf (max 1 hw) container.length ∧
    (submitBatches st hw container).isSome = true := by
  have hlen : 0 < container.length := List.length_pos.mpr h
  refine ⟨by simp only [numBatchesOf]; omega, ?_⟩
  rw [submitBatches_of_ne_nil st hw container h]
  rfl

/-- C10 witness: the amended statement at a one-level side with one hardware
thread. -/
theorem claim_C10_witness :
    1 ≤ numBatchesOf (max 1 1) [((100 : Nat), [(1 : Nat)])].length ∧
    (submitBatches [] 1 [((100 : Nat), [(1 : Nat)])]).isSome = true :=
  claim_C10_numBatches_pos [] 1 [(100, [1])] (by decide)

/-- C4 counterexample: the four snapshot strategies do not produce identical
results on every fixed book state: on the empty book the pool-partitioned
strategy divides by zero (modelled none) while the sequential strategy
returns the empty snapshot. -/
theorem claim_C4_counterexample :
    ¬ ThreadPoolGenerate [] 1 [] [] = some (SequentialGenerate [] [] []) := by
  decide

/-- C4 (amended): on every book state whose two sides each hold at least one
level, the four snapshot strategies produce identical OrderbookLevelInfos
(the pool-partitioned one wrapped in some), and the emitted price sequences
are exactly the side maps' key sequences in iteration order (descending for
bids, ascending for asks by the map comparators).  On a state with an empty
side the pool-partitioned strategy instead hits a division by zero. -/
theorem claim_C4_snapshot_equivalence (st : OrderStore) (hw : Nat) (bids asks : Levels)
    (hb : bids ≠ []) (ha : asks ≠ []) :
    AsyncGenerate st bids asks = SequentialGenerate st bids asks ∧
    AsyncThreadPoolGenerate st bids asks = SequentialGenerate st bids asks ∧
    ThreadPoolGenerate st hw bids asks = some (SequentialGenerate st bids asks) ∧
    (SequentialGenerate st bids asks).bids.map LevelInfo.price = bids.map Prod.fst ∧
    (SequentialGenerate st bids asks).asks.map LevelInfo.price = asks.map Prod.fst := by
  refine ⟨rfl, rfl, ?_, ?_, ?_⟩
  · simp only [ThreadPoolGenerate, submitBatches_of_ne_nil st hw bids hb,
      submitBatches_of_ne_nil st hw asks ha]
    rfl
  · simp [SequentialGenerate, List.map_map]
  · simp [SequentialGenerate, List.map_map]

/-- C4 witness: the amended equivalence at a concrete two-level book. -/
theorem claim_C4_witness :
    AsyncGenerate [(1, mkOrder .GoodTillCancel 1 .Buy 90 2), (2, mkOrder .GoodTillCancel 2 .Sell 110 3)]
        [(90, [1])] [(110, [2])] =
      SequentialGenerate [(1, mkOrder .GoodTillCancel 1 .Buy 90 2), (2, mkOrder .GoodTillCancel 2 .Sell 110 3)]
        [(90, [1])] [(110, [2])] ∧
    AsyncThreadPoolGenerate [(1, mkOrder .GoodTillCancel 1 .Buy 90 2), (2, mkOrder .GoodTillCancel 2 .Sell 110 3)]
        [(90, [1])] [(110, [2])] =
      SequentialGenerate [(1, mkOrder .GoodTillCancel 1 .Buy 90 2), (2, mkOrder .GoodTillCancel 2 .Sell 110 3)]
        [(90, [1])] [(110, [2])] ∧
    ThreadPoolGenerate [(1, mkOrder .GoodTillCancel 1 .Buy 90 2), (2, mkOrder .GoodTillCancel 2 .Sell 110 3)]
        2 [(90, [1])] [(110, [2])] =
      some (SequentialGenerate [(1, mkOrder .GoodTillCancel 1 .Buy 90 2), (2, mkOrder .GoodTillCancel 2 .Sell 110 3)]
        [(90, [1])] [(110, [2])]) ∧
    (SequentialGenerate [(1, mkOrder .GoodTillCancel 1 .Buy 90 2), (2, mkOrder .GoodTillCancel 2 .Sell 110 3)]
        [(90, [1])] [(110, [2])]).bids.map LevelInfo.price = [(90, [1])].map Prod.fst ∧
    (SequentialGenerate [(1, mkOrder .GoodTillCancel 1 .Buy 90 2), (2, mkOrder .GoodTillCancel 2 .Sell 110 3)]
        [(90, [1])] [(110, [2])]).asks.map LevelInfo.price = [(110, [2])].map Prod.fst :=
  claim_C4_snapshot_equivalence _ 2 [(90, [1])] [(110, [2])] (by decide) (by decide)

/-- C9: silent no-op atomicity.  Each of the silent-failure cases returns an
empty trade list (CancelOrder simply returns) and leaves the entire book —
side maps, order index and level aggregates — unchanged: a duplicate order id
on AddOrder; an unknown id on CancelOrder or ModifyOrder; a FillAndKill order
that cannot match the opposite best; a Market order whose opposite side is
empty; and a FillOrKill order whose CanFullyFill test fails. -/
theorem claim_C9_silent_noops (b : Book) (o : Order) (oid : Nat) (m : OrderModify) :
    ((storeLookup b.orders o.id).isSome = true → AddOrder b o = ([], b)) ∧
    (storeLookup b.orders oid = none → CancelOrder b oid = b) ∧
    (storeLookup b.orders m.orderId = none → ModifyOrder b m = ([], b)) ∧
    (o.orderType = OrderType.FillAndKill → CanMatch b o.side o.price = false →
      AddOrder b o = ([], b)) ∧
    (o.orderType = OrderType.Market → o.side = Side.Buy → b.asks = [] →
      AddOrder b o = ([], b)) ∧
    (o.orderType = OrderType.Market → o.side = Side.Sell → b.bids = [] →
      AddOrder b o = ([], b)) ∧
    (o.orderType = OrderType.FillOrKill →
      CanFullyFill b o.side o.price o.initialQuantity = false → AddOrder b o = ([], b)) := by
  refine ⟨?_, ?_, ?_, ?_, ?_, ?_, ?_⟩
  · intro h
    simp [AddOrder, h]
  · intro h
    simp [CancelOrder, CancelOrderInternal, h]
  · intro h
    simp [ModifyOrder, h]
  · intro h1 h2
    rcases hdup : (storeLookup b.orders o.id).isSome <;> simp [AddOrder, hdup, h1, h2]
  · intro h1 h2 h3
    rcases hdup : (storeLookup b.orders o.id).isSome <;> simp [AddOrder, hdup, h1, h2, h3]
  · intro h1 h2 h3
    rcases hdup : (storeLookup b.orders o.id).isSome <;> simp [AddOrder, hdup, h1, h2, h3]
  · intro h1 h2
    rcases hdup : (storeLookup b.orders o.id).isSome <;> simp [AddOrder, hdup, h1, h2]

/-- C9 witness: the seven no-op conclusions at concrete inputs.  The book
holds one resting sell #1@101 q2; the duplicate-add, unknown-cancel,
unknown-modify, uncrossable FillAndKill, Market-on-empty-opposite (both
sides) and infeasible FillOrKill cases all leave it untouched. -/
theorem claim_C9_witness :
    (AddOrder (runOps [.add .GoodTillCancel 1 .Sell 101 2])
        (mkOrder .GoodTillCancel 1 .Buy 50 1) =
      ([], runOps [.add .GoodTillCancel 1 .Sell 101 2])) ∧
    (CancelOrder (runOps [.add .GoodTillCancel 1 .Sell 101 2]) 7 =
      runOps [.add .GoodTillCancel 1 .Sell 101 2]) ∧
    (ModifyOrder (runOps [.add .GoodTillCancel 1 .Sell 101 2])
        { orderId := 7, side := .Buy, price := 100, quantity := 1 } =
      ([], runOps [.add .GoodTillCancel 1 .Sell 101 2])) ∧
    (AddOrder (runOps [.add .GoodTillCancel 1 .Sell 101 2])
        (mkOrder .FillAndKill 2 .Buy 100 1) =
      ([], runOps [.add .GoodTillCancel 1 .Sell 101 2])) ∧
    (AddOrder (runOps [.add .GoodTillCancel 1 .Sell 101 2])
        (mkOrder .Market 3 .Sell 0 1) =
      ([], runOps [.add .GoodTillCancel 1 .Sell 101 2])) ∧
    (AddOrder emptyBook (mkOrder .Market 4 .Buy 0 1) = ([], emptyBook)) ∧
    (AddOrder (runOps [.add .GoodTillCancel 1 .Sell 101 2])
        (mkOrder .FillOrKill 5 .Buy 101 5) =
      ([], runOps [.add .GoodTillCancel 1 .Sell 101 2])) := by
  refine ⟨?_, ?_, ?_, ?_, ?_, ?_, ?_⟩
  · exact (claim_C9_silent_noops _ (mkOrder .GoodTillCancel 1 .Buy 50 1) 0
      { orderId := 0, side := .Buy, price := 0, quantity := 0 }).1 (by decide)
  · exact (claim_C9_silent_noops _ (mkOrder .GoodTillCancel 1 .Buy 50 1) 7
      { orderId := 0, side := .Buy, price := 0, quantity := 0 }).2.1 (by decide)
  · exact (claim_C9_silent_noops _ (mkOrder .GoodTillCancel 1 .Buy 50 1) 0
      { orderId := 7, side := .Buy, price := 100, quantity := 1 }).2.2.1 (by decide)
  · exact (claim_C9_silent_noops _ (mkOrder .FillAndKill 2 .Buy 100 1) 0
      { orderId := 0, side := .Buy, price := 0, quantity := 0 }).2.2.2.1 (by decide) (by decide)
  · exact (claim_C9_silent_noops _ (mkOrder .Market 3 .Sell 0 1) 0
      { orderId := 0, side := .Buy, price := 0, quantity := 0 }).2.2.2.2.2.1
      (by decide) (by decide) (by decide)
  · exact (claim_C9_silent_noops emptyBook (mkOrder .Market 4 .Buy 0 1) 0
      { orderId := 0, side := .Buy, price := 0, quantity := 0 }).2.2.2.2.1
      (by decide) (by decide) (by decide)
  · exact (claim_C9_silent_noops _ (mkOrder .FillOrKill 5 .Buy 101 5) 0
      { orderId := 0, side := .Buy, price := 0, quantity := 0 }).2.2.2.2.2.2
      (by decide) (by decide)

/-- C5: Market conversion to the worst opposite price.  For every AddOrder of
a Market order: if the opposite side is empty the call returns no trades and
leaves the book unchanged; otherwise the call behaves exactly as adding the
order converted in place to GoodTillCancel pinned at the worst opposite
resting price (the last key of the opposite map, i.e. rbegin).  On the
claim's example, Buy Market #9 q10 against asks {101 q1, 103 q2, 105 q4}
produces three trades of quantities 1, 2 and 4 (total 7) and leaves #9
resting at 105 with remaining 3 as GoodTillCancel. -/
theorem claim_C5_market_conversion (b : Book) (o : Order)
    (ho : o.orderType = OrderType.Market) :
    (o.side = Side.Buy → b.asks = [] → AddOrder b o = ([], b)) ∧
    (o.side = Side.Sell → b.bids = [] → AddOrder b o = ([], b)) ∧
    (∀ p q, o.side = Side.Buy → b.asks.getLast? = some (p, q) →
      AddOrder b o = AddOrder b (o.toGoodTillCancel p)) ∧
    (∀ p q, o.side = Side.Sell → b.bids.getLast? = some (p, q) →
      AddOrder b o = AddOrder b (o.toGoodTillCancel p)) ∧
    (AddOrder marketBook (mkOrder .Market 9 .Buy 0 10)).1 =
      [{ bidTrade := { orderId := 9, price := 105, quantity := 1 }
         askTrade := { orderId := 1, price := 101, quantity := 1 } },
       { bidTrade := { orderId := 9, price := 105, quantity := 2 }
         askTrade := { orderId := 2, price := 103, quantity := 2 } },
       { bidTrade := { orderId := 9, price := 105, quantity := 4 }
         askTrade := { orderId := 3, price := 105, quantity := 4 } }] ∧
    (AddOrder marketBook (mkOrder .Market 9 .Buy 0 10)).2.bids = [(105, [9])] ∧
    (AddOrder marketBook (mkOrder .Market 9 .Buy 0 10)).2.asks = [] ∧
    (AddOrder marketBook (mkOrder .Market 9 .Buy 0 10)).2.orders =
      [(9, { orderType := .GoodTillCancel, id := 9, side := .Buy, price := 105,
             initialQuantity := 10, remainingQuantity := 3 })] := by
  refine ⟨?_, ?_, ?_, ?_, by decide, by decide, by decide, by decide⟩
  · intro hs he
    rcases hdup : (storeLookup b.orders o.id).isSome <;>
      simp [AddOrder, hdup, ho, hs, he]
  · intro hs he
    rcases hdup : (storeLookup b.orders o.id).isSome <;>
      simp [AddOrder, hdup, ho, hs, he]
  · intro p q hs hl
    rcases hdup : (storeLookup b.orders o.id).isSome <;>
      simp [AddOrder, hdup, ho, hs, hl, Order.toGoodTillCancel]
  · intro p q hs hl
    rcases hdup : (storeLookup b.orders o.id).isSome <;>
      simp [AddOrder, hdup, ho, hs, hl, Order.toGoodTillCancel]

/-- C5 witness: the conversion equation at the claim's example — adding
Buy Market #9 q10 to marketBook equals adding the same order converted to
GoodTillCancel at the worst ask 105. -/
theorem claim_C5_witness :
    AddOrder marketBook (mkOrder .Market 9 .Buy 0 10) =
      AddOrder marketBook ((mkOrder .Market 9 .Buy 0 10).toGoodTillCancel 105) :=
  (claim_C5_market_conversion marketBook (mkOrder .Market 9 .Buy 0 10) rfl).2.2.1 105 [3]
    rfl (by decide)

theorem W_pos : 0 < W := by norm_num [W]

theorem W_gt_one : 1 < W := by norm_num [W]

/-- uint64 cancellation: adding b and subtracting b returns to a when a is a
machine value. -/
theorem wsub_wadd_cancel (a b : Nat) (ha : a < W) : wsub (wadd a b) b = a := by
  have hblt : b % W < W := Nat.mod_lt _ W_pos
  have hble : b % W ≤ b := Nat.mod_le _ _
  have hdiv := Nat.mod_add_div b W
  have hmm : (a + b) % W % W = (a + b) % W := Nat.mod_mod_of_dvd _ dvd_rfl
  simp only [wadd, wsub, hmm]
  rw [Nat.mod_add_mod]
  have hw : W * (1 + b / W) = W + W * (b / W) := by ring
  have h1 : a + b + (W - b % W) = a + W * (1 + b / W) := by omega
  rw [h1, Nat.add_mul_mod_self_left]
  exact Nat.mod_eq_of_lt ha

theorem lookup_mem {α : Type} [DecidableEq α] {l : List (Nat × α)} {k : Nat} {v : α}
    (h : List.lookup k l = some v) : (k, v) ∈ l := by
  induction l with
  | nil => simp [List.lookup] at h
  | cons e es ih =>
    obtain ⟨a, b⟩ := e
    rw [List.lookup] at h
    by_cases hk : k = a
    · subst hk
      simp only [beq_self_eq_true] at h
      obtain rfl : b = v := by simpa using h
      exact List.mem_cons_self _ _
    · have hb : (k == a) = false := beq_eq_false_iff_ne.mpr hk
      rw [hb] at h
      exact List.mem_cons_of_mem _ (ih h)

theorem lookup_append_fresh {α : Type} (l : List (Nat × α)) (k : Nat) (v : α)
    (h : List.lookup k l = none) : List.lookup k (l ++ [(k, v)]) = some v := by
  induction l with
  | nil => simp [List.lookup]
  | cons e es ih =>
    obtain ⟨a, b⟩ := e
    rw [List.lookup] at h
    rw [List.cons_append, List.lookup]
    by_cases hk : k = a
    · subst hk
      simp only [beq_self_eq_true] at h
      exact Option.noConfusion h
    · have hb : (k == a) = false := beq_eq_false_iff_ne.mpr hk
      rw [hb] at h ⊢
      exact ih h

theorem storeErase_append_fresh (l : OrderStore) (k : Nat) (v : Order)
    (h : List.lookup k l = none) : storeErase k (l ++ [(k, v)]) = l := by
  induction l with
  | nil => simp [storeErase]
  | cons e es ih =>
    obtain ⟨a, b⟩ := e
    rw [List.lookup] at h
    by_cases hk : k = a
    · subst hk
      simp only [beq_self_eq_true] at h
      exact Option.noConfusion h
    · have hb : (k == a) = false := beq_eq_false_iff_ne.mpr hk
      rw [hb] at h
      rw [List.cons_append, storeErase, if_neg (fun hh => hk hh.symm)]
      rw [ih h]

theorem erase_append_self (oid : Nat) (l : List Nat) (h : oid ∉ l) :
    (l ++ [oid]).erase oid = l := by
  induction l with
  | nil => simp
  | cons x xs ih =>
    have hx : ¬ x = oid := fun hxe => h (hxe ▸ List.mem_cons_self _ _)
    rw [List.cons_append, List.erase_cons]
    simp only [beq_eq_false_iff_ne.mpr hx, Bool.false_eq_true, if_false]
    rw [ih (fun hm => h (List.mem_cons_of_mem _ hm))]

theorem levelsErase_levelsAppend (cmp : Nat → Nat → Bool) (p : Nat) (oid : Nat)
    (l : Levels) (hnotin : ∀ e ∈ l, oid ∉ e.2) (hne : ∀ e ∈ l, e.2 ≠ []) :
    levelsErase p oid (levelsAppend cmp p oid l) = l := by
  induction l with
  | nil => simp [levelsAppend, levelsErase, List.erase_cons]
  | cons e es ih =>
    obtain ⟨q, os⟩ := e
    by_cases hpq : p = q
    · subst hpq
      have h1 : (os ++ [oid]).erase oid = os :=
        erase_append_self oid os (hnotin (p, os) (List.mem_cons_self _ _))
      have h2 : os ≠ [] := hne (p, os) (List.mem_cons_self _ _)
      simp [levelsAppend, levelsErase, h1, h2]
    · by_cases hcmp : cmp p q = true
      · simp [levelsAppend, hpq, hcmp, levelsErase, List.erase_cons]
      · have hqp : ¬ q = p := fun hh => hpq hh.symm
        simp only [levelsAppend, if_neg hpq, if_neg hcmp, levelsErase, hqp, if_false]
        rw [ih (fun x hx => hnotin x (List.mem_cons_of_mem _ hx))
          (fun x hx => hne x (List.mem_cons_of_mem _ hx))]

theorem wadd_small (a b : Nat) (h : a + b < W) : wadd a b = a + b :=
  Nat.mod_eq_of_lt h

theorem dataLookup_none {d : DataMap} {p : Nat} (h : ∀ e ∈ d, ¬ e.1 = p) :
    List.lookup p d = none := by
  induction d with
  | nil => rfl
  | cons e es ih =>
    obtain ⟨k, v⟩ := e
    rw [List.lookup]
    have hk : ¬ k = p := h (k, v) (List.mem_cons_self _ _)
    have hb : (p == k) = false := beq_eq_false_iff_ne.mpr (fun hh => hk hh.symm)
    rw [hb]
    exact ih (fun x hx => h x (List.mem_cons_of_mem _ hx))

theorem UpdateLevelData_cons_lt (p : Nat) (qt : Nat) (a : LevelAction)
    (k : Nat) (v : LevelData) (d : DataMap) (hlt : k < p) :
    UpdateLevelData p qt a ((k, v) :: d) = (k, v) :: UpdateLevelData p qt a d := by
  have hb : (p == k) = false := beq_eq_false_iff_ne.mpr (by omega)
  have h1 : ¬ k = p := by omega
  have h2 : ¬ p = k := by omega
  have h3 : ¬ p < k := by omega
  simp only [UpdateLevelData, dataLookup, List.lookup, hb]
  split
  · simp only [dataEraseKey, if_neg h1]
  · simp only [dataSet, if_neg h2, if_neg h3]

/-- Adding an order's quantity to the level aggregate and removing the same
quantity restores the aggregate map exactly, provided the stored entries are
within machine range with nonzero counts below 2^64 - 1 (accurate aggregates
always are; the wrap-around counterexamples are reachable only through the
MatchOrders data_.erase slip). -/
theorem dataRestore (p q : Nat) (d : DataMap)
    (hsorted : d.Pairwise (fun x y => x.1 < y.1))
    (hbound : ∀ e ∈ d, e.2.count ≠ 0 ∧ e.2.count + 1 < W ∧ e.2.quantity < W) :
    UpdateLevelData p q .Remove (UpdateLevelData p q .Add d) = d := by
  induction d with
  | nil =>
    have h1 : wadd 0 1 = 1 := by rw [wadd_small]; exact W_gt_one
    have h2 : wsub 1 1 = 0 := by
      have h := wsub_wadd_cancel 0 1 W_pos
      rwa [h1] at h
    simp [UpdateLevelData, dataLookup, dataSet, dataEraseKey, h1, h2]
  | cons e es ih =>
    obtain ⟨k, v⟩ := e
    rcases Nat.lt_trichotomy p k with hpk | hpk | hpk
    · -- p < k: the entry is created in front and erased again
      have hnone : List.lookup p ((k, v) :: es) = none := by
        refine dataLookup_none ?_
        intro x hx
        rcases List.mem_cons.mp hx with h | h
        · subst h; omega
        · have := (List.pairwise_cons.mp hsorted).1 x h
          omega
      have h1 : wadd 0 1 = 1 := by rw [wadd_small]; exact W_gt_one
      have h2 : wsub 1 1 = 0 := by
        have h := wsub_wadd_cancel 0 1 W_pos
        rwa [h1] at h
      have hne1 : ¬ p = k := by omega
      have hAdd : UpdateLevelData p q .Add ((k, v) :: es) =
          (p, { quantity := wadd 0 q, count := 1 }) :: (k, v) :: es := by
        simp only [UpdateLevelData, dataLookup, hnone, Option.getD_none, h1]
        rw [if_neg (by norm_num)]
        simp only [dataSet, if_neg hne1, if_pos hpk, if_true]
      rw [hAdd]
      simp only [UpdateLevelData, dataLookup, List.lookup, beq_self_eq_true,
        Option.getD_some, h2]
      simp [dataEraseKey]
    · -- p = k: the entry is updated and restored
      subst hpk
      have hball := hbound (p, v) (List.mem_cons_self _ _)
      have hc0 : v.count ≠ 0 := hball.1
      have hcW : v.count + 1 < W := hball.2.1
      have hqW : v.quantity < W := hball.2.2
      have hadd : wadd v.count 1 = v.count + 1 := wadd_small _ _ hcW
      have hsub : wsub (wadd v.count 1) 1 = v.count := wsub_wadd_cancel v.count 1 (by omega)
      rw [hadd] at hsub
      have hq : wsub (wadd v.quantity q) q = v.quantity := wsub_wadd_cancel v.quantity q hqW
      have hAdd : UpdateLevelData p q .Add ((p, v) :: es) =
          (p, { quantity := wadd v.quantity q, count := v.count + 1 }) :: es := by
        simp only [UpdateLevelData, dataLookup, List.lookup, beq_self_eq_true,
          Option.getD_some, hadd]
        rw [if_neg (by omega)]
        simp only [dataSet, if_pos rfl, if_true]
      rw [hAdd]
      simp only [UpdateLevelData, dataLookup, List.lookup, beq_self_eq_true,
        Option.getD_some, hsub, hq]
      rw [if_neg hc0]
      simp only [dataSet, if_pos rfl, if_true]
    · -- k < p: both updates commute past the head entry
      rw [UpdateLevelData_cons_lt p q .Add k v es hpk,
        UpdateLevelData_cons_lt p q .Remove k v (UpdateLevelData p q .Add es) hpk,
        ih (List.pairwise_cons.mp hsorted).2
          (fun x hx => hbound x (List.mem_cons_of_mem _ hx))]

theorem levelsAppend_shape (cmp : Nat → Nat → Bool) (p : Nat) (oid : Nat) (l : Levels) :
    ∃ hp hq rest, levelsAppend cmp p oid l = (hp, hq) :: rest ∧
      (hp = p ∨ l.head?.map Prod.fst = some hp) := by
  match l with
  | [] => exact ⟨p, [oid], [], rfl, Or.inl rfl⟩
  | (q, os) :: es =>
    by_cases hpq : p = q
    · exact ⟨p, os ++ [oid], es, by simp [levelsAppend, hpq], Or.inl rfl⟩
    · by_cases hcmp : cmp p q = true
      · exact ⟨p, [oid], (q, os) :: es, by simp [levelsAppend, hpq, hcmp], Or.inl rfl⟩
      · exact ⟨q, os, levelsAppend cmp p oid es, by simp [levelsAppend, hpq, hcmp],
          Or.inr (by simp)⟩

theorem matchLoopF_exit (fuel : Nat) (b : Book) (tr : Trades)
    (h : b.bids = [] ∨ b.asks = [] ∨
      (∃ bp bq br ap aq ar, b.bids = (bp, bq) :: br ∧ b.asks = (ap, aq) :: ar ∧ bp < ap)) :
    matchLoopF fuel b tr = (tr, b) := by
  match fuel with
  | 0 => rfl
  | n + 1 =>
    rcases h with h | h | ⟨bp, bq, br, ap, aq, ar, hB, hA, hlt⟩
    · simp [matchLoopF, h]
    · rcases hbb : b.bids with _ | ⟨e, es⟩ <;> simp [matchLoopF, h, hbb]
    · simp [matchLoopF, hB, hA, hlt]

/-- The FillAndKill post-pass of MatchOrders leaves the book unchanged when no
live order is FillAndKill. -/
theorem MatchOrders_of_exit (b : Book)
    (hexit : b.bids = [] ∨ b.asks = [] ∨
      (∃ bp bq br ap aq ar, b.bids = (bp, bq) :: br ∧ b.asks = (ap, aq) :: ar ∧ bp < ap))
    (hnofak : ∀ oid v, List.lookup oid b.orders = some v →
      v.orderType ≠ OrderType.FillAndKill) :
    MatchOrders b = ([], b) := by
  have hloop : matchLoopF (matchFuel b) b [] = ([], b) := matchLoopF_exit _ _ _ hexit
  have hbids : (match b.bids with
      | (_, oid :: _) :: _ =>
        match storeLookup b.orders oid with
        | some o =>
          if o.orderType = OrderType.FillAndKill then CancelOrderInternal b oid else b
        | none => b
      | _ => b) = b := by
    rcases hbb : b.bids with _ | ⟨⟨bp, bq⟩, br⟩
    · rfl
    · rcases bq with _ | ⟨oid, rest⟩
      · rfl
      · rcases hl : storeLookup b.orders oid with _ | o
        · simp only [hl]
        · simp only [hl]
          rw [if_neg (hnofak oid o hl)]
  have hasks : (match b.asks with
      | (_, oid :: _) :: _ =>
        match storeLookup b.orders oid with
        | some o =>
          if o.orderType = OrderType.FillAndKill then CancelOrderInternal b oid else b
        | none => b
      | _ => b) = b := by
    rcases hbb : b.asks with _ | ⟨⟨bp, bq⟩, br⟩
    · rfl
    · rcases bq with _ | ⟨oid, rest⟩
      · rfl
      · rcases hl : storeLookup b.orders oid with _ | o
        · simp only [hl]
        · simp only [hl]
          rw [if_neg (hnofak oid o hl)]
  simp only [MatchOrders, matchLoop, hloop]
  simp only [hbids, hasks]

/-- C7 (amended): round-trip idempotence.  For a book satisfying the
structural book invariants (sides price-disjoint, queues nonempty, no resting
FillAndKill order, level aggregates sorted with in-range entries — counts
neither 0 nor 2^64 - 1 — as accurate aggregates always are) and an order o
whose id is fresh, whose remaining equals its initial quantity, whose type is
GoodTillCancel or GoodForDay and which rests without crossing (CanMatch is
false, hence the add produces no trades), AddOrder(o) followed by
CancelOrder(o.id) restores bids_, asks_, orders_ and data_ exactly.  Books
whose aggregates were corrupted by the MatchOrders data_.erase slip violate
the count conditions and can break the round trip (see the counterexample). -/
theorem claim_C7_round_trip (b : Book) (o : Order)
    (hfresh : storeLookup b.orders o.id = none)
    (hrem : o.remainingQuantity = o.initialQuantity)
    (htype : o.orderType = OrderType.GoodTillCancel ∨ o.orderType = OrderType.GoodForDay)
    (hnc : CanMatch b o.side o.price = false)
    (hcross : ∀ bp ∈ b.bids.map Prod.fst, ∀ ap ∈ b.asks.map Prod.fst, bp < ap)
    (hne : ∀ e ∈ b.bids ++ b.asks, e.2 ≠ [])
    (hnotin : ∀ e ∈ b.bids ++ b.asks, o.id ∉ e.2)
    (hnofak : ∀ e ∈ b.orders, e.2.orderType ≠ OrderType.FillAndKill)
    (hsorted : b.data.Pairwise (fun x y => x.1 < y.1))
    (hbound : ∀ e ∈ b.data, e.2.count ≠ 0 ∧ e.2.count + 1 < W ∧ e.2.quantity < W) :
    (AddOrder b o).1 = [] ∧ CancelOrder (AddOrder b o).2 o.id = b := by
  have hnotFAK : ¬ o.orderType = OrderType.FillAndKill := by
    rcases htype with h | h <;> simp [h]
  have hnotMKT : ¬ o.orderType = OrderType.Market := by
    rcases htype with h | h <;> simp [h]
  have hnotFOK : ¬ o.orderType = OrderType.FillOrKill := by
    rcases htype with h | h <;> simp [h]
  have hneB : ∀ e ∈ b.bids, e.2 ≠ [] :=
    fun e he => hne e (List.mem_append.mpr (Or.inl he))
  have hneA : ∀ e ∈ b.asks, e.2 ≠ [] :=
    fun e he => hne e (List.mem_append.mpr (Or.inr he))
  have hnotinB : ∀ e ∈ b.bids, o.id ∉ e.2 :=
    fun e he => hnotin e (List.mem_append.mpr (Or.inl he))
  have hnotinA : ∀ e ∈ b.asks, o.id ∉ e.2 :=
    fun e he => hnotin e (List.mem_append.mpr (Or.inr he))
  have hnofak2 : ∀ oid v, List.lookup oid (b.orders ++ [(o.id, o)]) = some v →
      v.orderType ≠ OrderType.FillAndKill := by
    intro oid v hl
    rcases List.mem_append.mp (lookup_mem hl) with hm | hm
    · exact hnofak (oid, v) hm
    · have hp : (oid, v) = (o.id, o) := List.mem_singleton.mp hm
      have hv : v = o := by injection hp with h1 h2
      rw [hv]
      exact hnotFAK
  rcases hside : o.side with _ | _
  · -- Buy: the order is appended to bids_, asks_ is untouched
    have hAdd : AddOrder b o = MatchOrders
        { data := UpdateLevelData o.price o.initialQuantity .Add b.data
          bids := levelsAppend (fun x y => decide (y < x)) o.price o.id b.bids
          asks := b.asks
          orders := b.orders ++ [(o.id, o)] } := by
      simp [AddOrder, hfresh, hnotFAK, hnotMKT, hnotFOK, hside]
    have hexit : levelsAppend (fun x y => decide (y < x)) o.price o.id b.bids = [] ∨
        b.asks = [] ∨
        (∃ bp bq br ap aq ar,
          levelsAppend (fun x y => decide (y < x)) o.price o.id b.bids = (bp, bq) :: br ∧
          b.asks = (ap, aq) :: ar ∧ bp < ap) := by
      rcases hA : b.asks with _ | ⟨⟨ap, aq⟩, ar⟩
      · exact Or.inr (Or.inl rfl)
      · refine Or.inr (Or.inr ?_)
        obtain ⟨hp, hq, rest, hEq, hOr⟩ :=
          levelsAppend_shape (fun x y => decide (y < x)) o.price o.id b.bids
        have hpap : o.price < ap := by
          simp [CanMatch, hside, hA] at hnc
          omega
        have hplt : hp < ap := by
          rcases hOr with h | h
          · omega
          · rcases hBB : b.bids with _ | ⟨e, es⟩
            · rw [hBB] at h
              simp at h
            · rw [hBB] at h
              simp at h
              have := hcross e.1 (by simp [hBB]) ap (by simp [hA])
              omega
        exact ⟨hp, hq, rest, ap, aq, ar, hEq, rfl, hplt⟩
    have hMO := MatchOrders_of_exit
      { data := UpdateLevelData o.price o.initialQuantity .Add b.data
        bids := levelsAppend (fun x y => decide (y < x)) o.price o.id b.bids
        asks := b.asks
        orders := b.orders ++ [(o.id, o)] } hexit hnofak2
    rw [hAdd, hMO]
    refine ⟨rfl, ?_⟩
    have hlook : List.lookup o.id (b.orders ++ [(o.id, o)]) = some o :=
      lookup_append_fresh b.orders o.id o hfresh
    simp only [CancelOrder, CancelOrderInternal, storeLookup, hlook, hside]
    simp only [if_neg (by simp : ¬ Side.Buy = Side.Sell)]
    simp only [storeErase_append_fresh b.orders o.id o hfresh,
      levelsErase_levelsAppend (fun x y => decide (y < x)) o.price o.id b.bids hnotinB hneB,
      hrem, dataRestore o.price o.initialQuantity b.data hsorted hbound]
  · -- Sell: the order is appended to asks_, bids_ is untouched
    have hAdd : AddOrder b o = MatchOrders
        { data := UpdateLevelData o.price o.initialQuantity .Add b.data
          bids := b.bids
          asks := levelsAppend (fun x y => decide (x < y)) o.price o.id b.asks
          orders := b.orders ++ [(o.id, o)] } := by
      simp [AddOrder, hfresh, hnotFAK, hnotMKT, hnotFOK, hside]
    have hexit : b.bids = [] ∨
        levelsAppend (fun x y => decide (x < y)) o.price o.id b.asks = [] ∨
        (∃ bp bq br ap aq ar, b.bids = (bp, bq) :: br ∧
          levelsAppend (fun x y => decide (x < y)) o.price o.id b.asks = (ap, aq) :: ar ∧
          bp < ap) := by
      rcases hB : b.bids with _ | ⟨⟨bp, bq⟩, br⟩
      · exact Or.inl rfl
      · refine Or.inr (Or.inr ?_)
        obtain ⟨hp, hq, rest, hEq, hOr⟩ :=
          levelsAppend_shape (fun x y => decide (x < y)) o.price o.id b.asks
        have hbpp : bp < o.price := by
          simp [CanMatch, hside, hB] at hnc
          omega
        have hplt : bp < hp := by
          rcases hOr with h | h
          · omega
          · rcases hAA : b.asks with _ | ⟨e, es⟩
            · rw [hAA] at h
              simp at h
            · rw [hAA] at h
              simp at h
              have := hcross bp (by simp [hB]) e.1 (by simp [hAA])
              omega
        exact ⟨bp, bq, br, hp, hq, rest, rfl, hEq, hplt⟩
    have hMO := MatchOrders_of_exit
      { data := UpdateLevelData o.price o.initialQuantity .Add b.data
        bids := b.bids
        asks := levelsAppend (fun x y => decide (x < y)) o.price o.id b.asks
        orders := b.orders ++ [(o.id, o)] } hexit hnofak2
    rw [hAdd, hMO]
    refine ⟨rfl, ?_⟩
    have hlook : List.lookup o.id (b.orders ++ [(o.id, o)]) = some o :=
      lookup_append_fresh b.orders o.id o hfresh
    simp only [CancelOrder, CancelOrderInternal, storeLookup, hlook, hside]
    simp only [storeErase_append_fresh b.orders o.id o hfresh,
      levelsErase_levelsAppend (fun x y => decide (x < y)) o.price o.id b.asks hnotinA hneA,
      hrem, dataRestore o.price o.initialQuantity b.data hsorted hbound]
    simp only [if_true, dataRestore o.price o.initialQuantity b.data hsorted hbound]

/-- C7 counterexample: in the reachable state roundTripBugBook, the fresh
order #4 Buy@100 q7 GTC is admitted, produces no trades and rests, yet
AddOrder followed by CancelOrder(4) does not restore the book: the Add wraps
the stale aggregate count 2^64-1 to 0 and erases the entry, and the Cancel
then recreates it as {2^64-7, 2^64-1} instead of {2^64-3, 2^64-1}. -/
theorem claim_C7_counterexample :
    storeLookup roundTripBugBook.orders 4 = none ∧
    (AddOrder roundTripBugBook (mkOrder .GoodTillCancel 4 .Buy 100 7)).1 = [] ∧
    (storeLookup (AddOrder roundTripBugBook
      (mkOrder .GoodTillCancel 4 .Buy 100 7)).2.orders 4).isSome = true ∧
    ¬ CancelOrder (AddOrder roundTripBugBook
      (mkOrder .GoodTillCancel 4 .Buy 100 7)).2 4 = roundTripBugBook := by
  decide

/-- C7 witness: the amended round trip at a well-formed one-order book — add
a non-crossing Buy#4@100 q3 GTC against a resting Sell#1@101 q2 and cancel it
again; the book is restored exactly. -/
theorem claim_C7_witness :
    (AddOrder (runOps [.add .GoodTillCancel 1 .Sell 101 2])
      (mkOrder .GoodTillCancel 4 .Buy 100 3)).1 = [] ∧
    CancelOrder (AddOrder (runOps [.add .GoodTillCancel 1 .Sell 101 2])
      (mkOrder .GoodTillCancel 4 .Buy 100 3)).2 4 =
      runOps [.add .GoodTillCancel 1 .Sell 101 2] :=
  claim_C7_round_trip (runOps [.add .GoodTillCancel 1 .Sell 101 2])
    (mkOrder .GoodTillCancel 4 .Buy 100 3) (by decide) rfl (Or.inl rfl) (by decide)
    (by decide) (by decide) (by decide) (by decide) (by decide) (by decide)

theorem prices_cons (e : Nat × OrderQueue) (l : Levels) :
    prices (e :: l) = e.1 :: prices l := rfl

theorem allIds_cons (e : Nat × OrderQueue) (l : Levels) :
    allIds (e :: l) = e.2 ++ allIds l := rfl

theorem keys_storeSet (k : Nat) (v : Order) (l : OrderStore) :
    (storeSet k v l).map Prod.fst = l.map Prod.fst := by
  induction l with
  | nil => rfl
  | cons e es ih =>
    rw [storeSet]
    by_cases hk : e.1 = k
    · simp [hk]
    · simp [hk, ih]

theorem keys_storeErase (k : Nat) (l : OrderStore) :
    (storeErase k l).map Prod.fst = (l.map Prod.fst).erase k := by
  induction l with
  | nil => rfl
  | cons e es ih =>
    rw [storeErase]
    by_cases hk : e.1 = k
    · simp [hk, List.erase_cons_head]
    · rw [if_neg hk]
      simp only [List.map_cons, List.erase_cons, beq_eq_false_iff_ne.mpr hk,
        Bool.false_eq_true, if_false, ih]

theorem storeErase_sublist (k : Nat) (l : OrderStore) : (storeErase k l).Sublist l := by
  induction l with
  | nil => simp [storeErase]
  | cons e es ih =>
    rw [storeErase]
    by_cases hk : e.1 = k
    · simp [hk]
    · rw [if_neg hk]
      exact ih.cons₂ e

theorem mem_storeSet_elim {k' : Nat} {v' : Order} {l : OrderStore} {x : Nat × Order}
    (h : x ∈ storeSet k' v' l) : x = (k', v') ∨ x ∈ l := by
  induction l with
  | nil => simp [storeSet] at h
  | cons e es ih =>
    rw [storeSet] at h
    by_cases hk : e.1 = k'
    · rw [if_pos hk] at h
      rcases List.mem_cons.mp h with h | h
      · exact Or.inl h
      · exact Or.inr (List.mem_cons_of_mem _ h)
    · rw [if_neg hk] at h
      rcases List.mem_cons.mp h with h | h
      · exact Or.inr (h ▸ List.mem_cons_self _ _)
      · rcases ih h with h | h
        · exact Or.inl h
        · exact Or.inr (List.mem_cons_of_mem _ h)

theorem lookup_storeSet_ne {k k' : Nat} (v' : Order) (l : OrderStore) (h : ¬ k = k') :
    List.lookup k (storeSet k' v' l) = List.lookup k l := by
  induction l with
  | nil => rfl
  | cons e es ih =>
    rw [storeSet]
    by_cases hk : e.1 = k'
    · subst hk
      simp only [if_pos rfl, if_true, List.lookup, beq_eq_false_iff_ne.mpr h]
    · rw [if_neg hk]
      simp only [List.lookup]
      rcases hke : k == e.1 <;> simp only [hke, ih]

theorem lookup_storeSet_self {k' : Nat} (v' : Order) (l : OrderStore)
    (hmem : k' ∈ l.map Prod.fst) :
    List.lookup k' (storeSet k' v' l) = some v' := by
  induction l with
  | nil => simp at hmem
  | cons e es ih =>
    rw [storeSet]
    by_cases hk : e.1 = k'
    · rw [if_pos hk, List.lookup, beq_self_eq_true]
    · rw [if_neg hk, List.lookup, beq_eq_false_iff_ne.mpr (fun hh => hk hh.symm)]
      refine ih ?_
      rcases List.mem_map.mp hmem with ⟨y, hy, hyk⟩
      rcases List.mem_cons.mp hy with h | h
      · exact absurd (h ▸ hyk) hk
      · exact List.mem_map.mpr ⟨y, h, hyk⟩

theorem lookup_storeErase_ne {k k' : Nat} (l : OrderStore) (h : ¬ k = k') :
    List.lookup k (storeErase k' l) = List.lookup k l := by
  induction l with
  | nil => rfl
  | cons e es ih =>
    rw [storeErase]
    by_cases hk : e.1 = k'
    · subst hk
      simp only [if_pos rfl, if_true, List.lookup, beq_eq_false_iff_ne.mpr h]
    · rw [if_neg hk]
      simp only [List.lookup]
      rcases hke : k == e.1 <;> simp only [hke, ih]

theorem not_mem_key_storeErase {k' : Nat} {l : OrderStore}
    (hnd : (l.map Prod.fst).Nodup) (v : Order) : (k', v) ∉ storeErase k' l := by
  induction l with
  | nil => simp [storeErase]
  | cons e es ih =>
    rw [storeErase]
    by_cases hk : e.1 = k'
    · rw [if_pos hk]
      intro hmem
      have : k' ∈ es.map Prod.fst := List.mem_map.mpr ⟨(k', v), hmem, rfl⟩
      rw [List.map_cons, hk] at hnd
      exact (List.nodup_cons.mp hnd).1 this
    · rw [if_neg hk]
      intro hmem
      rcases List.mem_cons.mp hmem with h | h
      · exact hk (congrArg Prod.fst h).symm
      · exact ih (by rw [List.map_cons] at hnd; exact (List.nodup_cons.mp hnd).2) h

theorem storeErase_mem {k' : Nat} {l : OrderStore} {x : Nat × Order}
    (h : x ∈ storeErase k' l) : x ∈ l :=
  (storeErase_sublist k' l).subset h

theorem lookup_of_mem_nodup {l : OrderStore} {k : Nat} {v : Order}
    (hnd : (l.map Prod.fst).Nodup) (h : (k, v) ∈ l) : List.lookup k l = some v := by
  induction l with
  | nil => simp at h
  | cons e es ih =>
    rcases List.mem_cons.mp h with h | h
    · rw [← h, List.lookup, beq_self_eq_true]
    · rw [List.lookup]
      have hk : ¬ k = e.1 := by
        intro hke
        rw [List.map_cons] at hnd
        exact (List.nodup_cons.mp hnd).1
          (hke ▸ List.mem_map.mpr ⟨(k, v), h, rfl⟩)
      rw [beq_eq_false_iff_ne.mpr hk]
      exact ih (by rw [List.map_cons] at hnd; exact (List.nodup_cons.mp hnd).2) h

theorem mem_keys_of_lookup {l : OrderStore} {k : Nat} {v : Order}
    (h : List.lookup k l = some v) : k ∈ l.map Prod.fst :=
  List.mem_map.mpr ⟨(k, v), lookup_mem h, rfl⟩

theorem not_mem_keys_of_lookup_none {l : OrderStore} {k : Nat}
    (h : List.lookup k l = none) : k ∉ l.map Prod.fst := by
  induction l with
  | nil => simp
  | cons e es ih =>
    rw [List.lookup] at h
    rcases hke : k == e.1 <;> rw [hke] at h
    · simp only [List.map_cons, List.mem_cons]
      rintro (h1 | h1)
      · exact beq_eq_false_iff_ne.mp hke h1
      · exact ih h h1
    · exact Option.noConfusion h

theorem lookup_append_left_some {l l2 : OrderStore} {k : Nat} {v : Order}
    (h : List.lookup k l = some v) : List.lookup k (l ++ l2) = some v := by
  induction l with
  | nil => simp [List.lookup] at h
  | cons e es ih =>
    rw [List.lookup] at h
    rw [List.cons_append, List.lookup]
    rcases hke : k == e.1 <;> rw [hke] at h <;> simp only [hke]
    · exact ih h
    · exact h

theorem prices_levelsErase_sublist (p : Nat) (oid : Nat) (l : Levels) :
    (prices (levelsErase p oid l)).Sublist (prices l) := by
  induction l with
  | nil => simp [levelsErase]
  | cons e es ih =>
    rw [levelsErase]
    by_cases hk : e.1 = p
    · rw [if_pos hk]
      by_cases hq : e.2.erase oid = []
      · simp only [hq, if_pos rfl, prices_cons]
        exact (List.Sublist.refl _).cons _
      · simp only [if_neg hq, prices_cons]
        exact (List.Sublist.refl _).cons₂ _
    · rw [if_neg hk]
      simp only [prices_cons]
      exact ih.cons₂ _

theorem ne_levelsErase (p : Nat) (oid : Nat) (l : Levels)
    (hne : ∀ e ∈ l, e.2 ≠ []) : ∀ x ∈ levelsErase p oid l, x.2 ≠ [] := by
  induction l with
  | nil => simp [levelsErase]
  | cons e es ih =>
    intro x hx
    rw [levelsErase] at hx
    by_cases hk : e.1 = p
    · rw [if_pos hk] at hx
      by_cases hq : e.2.erase oid = []
      · exact hne x (List.mem_cons_of_mem _ (by simpa [hq] using hx))
      · rcases List.mem_cons.mp (by simpa [hq] using hx) with h | h
        · rw [h]
          exact hq
        · exact hne x (List.mem_cons_of_mem _ h)
    · rw [if_neg hk] at hx
      rcases List.mem_cons.mp hx with h | h
      · exact h ▸ hne e (List.mem_cons_self _ _)
      · exact ih (fun y hy => hne y (List.mem_cons_of_mem _ hy)) x h

theorem allIds_levelsErase_sublist (p : Nat) (oid : Nat) (l : Levels) :
    (allIds (levelsErase p oid l)).Sublist (allIds l) := by
  induction l with
  | nil => simp [levelsErase]
  | cons e es ih =>
    rw [levelsErase]
    by_cases hk : e.1 = p
    · rw [if_pos hk]
      by_cases hq : e.2.erase oid = []
      · simp only [hq, if_pos rfl, allIds_cons]
        exact List.sublist_append_right _ _
      · simp only [if_neg hq, allIds_cons]
        exact (List.erase_sublist oid e.2).append_right _
    · rw [if_neg hk]
      simp only [allIds_cons]
      exact ih.append_left _

theorem mem_levelsErase (p : Nat) (oid : Nat) (l : Levels) :
    ∀ x ∈ levelsErase p oid l, ∃ q, (x.1, q) ∈ l ∧ (x.2 = q ∨ x.2 = q.erase oid) := by
  induction l with
  | nil => simp [levelsErase]
  | cons e es ih =>
    intro x hx
    rw [levelsErase] at hx
    by_cases hk : e.1 = p
    · rw [if_pos hk] at hx
      by_cases hq : e.2.erase oid = []
      · have hx' : x ∈ es := by simpa [hq] using hx
        exact ⟨x.2, List.mem_cons_of_mem _ hx', Or.inl rfl⟩
      · rcases List.mem_cons.mp (by simpa [hq] using hx) with h | h
        · refine ⟨e.2, ?_, Or.inr (by rw [h])⟩
          have : x.1 = e.1 := by rw [h]
          rw [this]
          exact List.mem_cons_self _ _
        · exact ⟨x.2, List.mem_cons_of_mem _ h, Or.inl rfl⟩
    · rw [if_neg hk] at hx
      rcases List.mem_cons.mp hx with h | h
      · exact ⟨e.2, by rw [h]; exact List.mem_cons_self _ _, Or.inl (by rw [h])⟩
      · rcases ih x h with ⟨q, hq1, hq2⟩
        exact ⟨q, List.mem_cons_of_mem _ hq1, hq2⟩

theorem mem_levelsErase_of_ne {p : Nat} {oid : Nat} {l : Levels} {pp : Nat}
    {qq : OrderQueue} (h : (pp, qq) ∈ l) (hne : ¬ pp = p) :
    (pp, qq) ∈ levelsErase p oid l := by
  induction l with
  | nil => simp at h
  | cons e es ih =>
    rw [levelsErase]
    by_cases hk : e.1 = p
    · rw [if_pos hk]
      have hmem : (pp, qq) ∈ es := by
        rcases List.mem_cons.mp h with h1 | h1
        · exact absurd (by rw [← h1] at hk; exact hk) hne
        · exact h1
      by_cases hq : e.2.erase oid = []
      · rw [if_pos hq]
        exact hmem
      · rw [if_neg hq]
        exact List.mem_cons_of_mem _ hmem
    · rw [if_neg hk]
      rcases List.mem_cons.mp h with h1 | h1
      · exact h1 ▸ List.mem_cons_self _ _
      · exact List.mem_cons_of_mem _ (ih h1)

theorem mem_unique_key {l : Levels} {p : Nat} {q1 q2 : OrderQueue}
    (hnd : (prices l).Pairwise (fun a b => ¬ a = b))
    (h1 : (p, q1) ∈ l) (h2 : (p, q2) ∈ l) : q1 = q2 := by
  induction l with
  | nil => simp at h1
  | cons e es ih =>
    rw [prices_cons, List.pairwise_cons] at hnd
    rcases List.mem_cons.mp h1 with h1' | h1' <;> rcases List.mem_cons.mp h2 with h2' | h2'
    · rw [← h1'] at h2'
      exact (Prod.mk.injEq _ _ _ _ ▸ h2' : _ ∧ _).2.symm
    · exact absurd ((congrArg Prod.fst h1').symm)
        (hnd.1 p (List.mem_map.mpr ⟨(p, q2), h2', rfl⟩))
    · exact absurd ((congrArg Prod.fst h2').symm)
        (hnd.1 p (List.mem_map.mpr ⟨(p, q1), h1', rfl⟩))
    · exact ih hnd.2 h1' h2'

theorem mem_levelsErase_self {p : Nat} {oid : Nat} {l : Levels} {q0 : OrderQueue}
    (hnd : (prices l).Pairwise (fun a b => ¬ a = b))
    (h : (p, q0) ∈ l) (hne : q0.erase oid ≠ []) :
    (p, q0.erase oid) ∈ levelsErase p oid l := by
  induction l with
  | nil => simp at h
  | cons e es ih =>
    rw [prices_cons, List.pairwise_cons] at hnd
    rw [levelsErase]
    by_cases hk : e.1 = p
    · rw [if_pos hk]
      have hq0 : q0 = e.2 := by
        rcases List.mem_cons.mp h with h1 | h1
        · exact ((Prod.mk.injEq _ _ _ _ ▸ h1.symm : _ ∧ _).2).symm
        · exact absurd hk (hnd.1 p (List.mem_map.mpr ⟨(p, q0), h1, rfl⟩))
      rw [hq0] at hne ⊢
      rw [if_neg hne]
      exact hk ▸ List.mem_cons_self _ _
    · rw [if_neg hk]
      have h1 : (p, q0) ∈ es := by
        rcases List.mem_cons.mp h with h1 | h1
        · exact absurd (congrArg Prod.fst h1).symm hk
        · exact h1
      exact List.mem_cons_of_mem _ (ih hnd.2 h1)

theorem mem_levelsErase_strong {p : Nat} {oid : Nat} {l : Levels} {q0 : OrderQueue}
    (hnd : (prices l).Pairwise (fun a b => ¬ a = b)) (h0 : (p, q0) ∈ l) :
    ∀ x ∈ levelsErase p oid l, (x ∈ l ∧ ¬ x.1 = p) ∨ (x.1 = p ∧ x.2 = q0.erase oid) := by
  induction l with
  | nil => simp at h0
  | cons e es ih =>
    rw [prices_cons, List.pairwise_cons] at hnd
    intro x hx
    rw [levelsErase] at hx
    by_cases hk : e.1 = p
    · rw [if_pos hk] at hx
      have hq0 : q0 = e.2 := by
        rcases List.mem_cons.mp h0 with h1 | h1
        · exact ((Prod.mk.injEq _ _ _ _ ▸ h1.symm : _ ∧ _).2).symm
        · exact absurd hk (hnd.1 p (List.mem_map.mpr ⟨(p, q0), h1, rfl⟩))
      by_cases hq : e.2.erase oid = []
      · have hx' : x ∈ es := by simpa [hq] using hx
        refine Or.inl ⟨List.mem_cons_of_mem _ hx', ?_⟩
        intro hxp
        exact (hnd.1 x.1 (List.mem_map.mpr ⟨x, hx', rfl⟩)) (hk.trans hxp.symm)
      · rcases List.mem_cons.mp (by simpa [hq] using hx) with h1 | h1
        · refine Or.inr ⟨by rw [h1, hk], by rw [h1, hq0]⟩
        · refine Or.inl ⟨List.mem_cons_of_mem _ h1, ?_⟩
          intro hxp
          exact (hnd.1 x.1 (List.mem_map.mpr ⟨x, h1, rfl⟩)) (hk.trans hxp.symm)
    · rw [if_neg hk] at hx
      have h0' : (p, q0) ∈ es := by
        rcases List.mem_cons.mp h0 with h1 | h1
        · exact absurd (congrArg Prod.fst h1).symm hk
        · exact h1
      rcases List.mem_cons.mp hx with h1 | h1
      · exact Or.inl ⟨h1 ▸ List.mem_cons_self _ _, by rw [h1]; exact hk⟩
      · rcases ih hnd.2 h0' x h1 with ⟨hm, hne⟩ | hr
        · exact Or.inl ⟨List.mem_cons_of_mem _ hm, hne⟩
        · exact Or.inr hr

theorem allIds_levelsErase_perm {p : Nat} {oid : Nat} {l : Levels} {q0 : OrderQueue}
    (hnd : (prices l).Pairwise (fun a b => ¬ a = b))
    (h0 : (p, q0) ∈ l) (hoid : oid ∈ q0) :
    (oid :: allIds (levelsErase p oid l)).Perm (allIds l) := by
  induction l with
  | nil => simp at h0
  | cons e es ih =>
    rw [prices_cons, List.pairwise_cons] at hnd
    rw [levelsErase]
    by_cases hk : e.1 = p
    · have hq0 : q0 = e.2 := by
        rcases List.mem_cons.mp h0 with h1 | h1
        · exact ((Prod.mk.injEq _ _ _ _ ▸ h1.symm : _ ∧ _).2).symm
        · exact absurd hk (hnd.1 p (List.mem_map.mpr ⟨(p, q0), h1, rfl⟩))
      have hperm : e.2.Perm (oid :: e.2.erase oid) :=
        List.perm_cons_erase (hq0 ▸ hoid)
      rw [if_pos hk]
      by_cases hq : e.2.erase oid = []
      · rw [if_pos hq, allIds_cons]
        exact (List.Perm.append_right (allIds es)
          (show e.2.Perm [oid] by simpa [hq] using hperm)).symm
      · rw [if_neg hq, allIds_cons, allIds_cons]
        exact (List.Perm.append_right (allIds es) hperm).symm
    · have h0' : (p, q0) ∈ es := by
        rcases List.mem_cons.mp h0 with h1 | h1
        · exact absurd (congrArg Prod.fst h1).symm hk
        · exact h1
      rw [if_neg hk, allIds_cons, allIds_cons]
      exact List.Perm.trans List.perm_middle.symm
        (List.Perm.append_left e.2 (ih hnd.2 h0'))

theorem ne_levelsAppend (cmp : Nat → Nat → Bool) (p : Nat) (oid : Nat) (l : Levels)
    (hne : ∀ e ∈ l, e.2 ≠ []) : ∀ x ∈ levelsAppend cmp p oid l, x.2 ≠ [] := by
  induction l with
  | nil =>
    intro x hx
    rcases List.mem_cons.mp hx with h | h
    · rw [h]; simp
    · simp at h
  | cons e es ih =>
    intro x hx
    rw [levelsAppend] at hx
    by_cases hk : p = e.1
    · rw [if_pos hk] at hx
      rcases List.mem_cons.mp hx with h | h
      · rw [h]; simp
      · exact hne x (List.mem_cons_of_mem _ h)
    · rw [if_neg hk] at hx
      by_cases hc : cmp p e.1
      · rw [if_pos hc] at hx
        rcases List.mem_cons.mp hx with h | h
        · rw [h]; simp
        · exact hne x h
      · rw [if_neg hc] at hx
        rcases List.mem_cons.mp hx with h | h
        · exact h ▸ hne e (List.mem_cons_self _ _)
        · exact ih (fun y hy => hne y (List.mem_cons_of_mem _ hy)) x h

theorem mem_levelsAppend {cmp : Nat → Nat → Bool} {p : Nat} {oid : Nat} {l : Levels}
    {x : Nat × OrderQueue} (hx : x ∈ levelsAppend cmp p oid l) :
    (∃ q, x = (p, q ++ [oid]) ∧ (p, q) ∈ l) ∨ x = (p, [oid]) ∨ x ∈ l := by
  induction l with
  | nil =>
    rcases List.mem_cons.mp hx with h | h
    · exact Or.inr (Or.inl h)
    · simp at h
  | cons e es ih =>
    rw [levelsAppend] at hx
    by_cases hk : p = e.1
    · rw [if_pos hk] at hx
      rcases List.mem_cons.mp hx with h | h
      · exact Or.inl ⟨e.2, h, by rw [hk]; exact List.mem_cons_self _ _⟩
      · exact Or.inr (Or.inr (List.mem_cons_of_mem _ h))
    · rw [if_neg hk] at hx
      by_cases hc : cmp p e.1
      · rw [if_pos hc] at hx
        rcases List.mem_cons.mp hx with h | h
        · exact Or.inr (Or.inl h)
        · exact Or.inr (Or.inr h)
      · rw [if_neg hc] at hx
        rcases List.mem_cons.mp hx with h | h
        · exact Or.inr (Or.inr (h ▸ List.mem_cons_self _ _))
        · rcases ih h with ⟨q, hq1, hq2⟩ | h1 | h1
          · exact Or.inl ⟨q, hq1, List.mem_cons_of_mem _ hq2⟩
          · exact Or.inr (Or.inl h1)
          · exact Or.inr (Or.inr (List.mem_cons_of_mem _ h1))

theorem mem_prices_levelsAppend {cmp : Nat → Nat → Bool} {p : Nat} {oid : Nat}
    {l : Levels} {y : Nat} (hy : y ∈ prices (levelsAppend cmp p oid l)) :
    y = p ∨ y ∈ prices l := by
  rcases List.mem_map.mp hy with ⟨x, hx, hxy⟩
  rcases mem_levelsAppend hx with ⟨q, hq1, _⟩ | h1 | h1
  · exact Or.inl (by rw [← hxy, hq1])
  · exact Or.inl (by rw [← hxy, h1])
  · exact Or.inr (hxy ▸ List.mem_map.mpr ⟨x, h1, rfl⟩)

theorem allIds_levelsAppend (cmp : Nat → Nat → Bool) (p : Nat) (oid : Nat) (l : Levels) :
    (allIds (levelsAppend cmp p oid l)).Perm (oid :: allIds l) := by
  induction l with
  | nil => simp [levelsAppend, allIds]
  | cons e es ih =>
    rw [levelsAppend]
    by_cases hk : p = e.1
    · rw [if_pos hk, allIds_cons, allIds_cons, List.append_assoc]
      exact List.Perm.trans (List.Perm.append_left e.2 (by rfl)) List.perm_middle
    · rw [if_neg hk]
      by_cases hc : cmp p e.1
      · rw [if_pos hc]
        rfl
      · rw [if_neg hc, allIds_cons, allIds_cons]
        exact List.Perm.trans (List.Perm.append_left e.2 ih) List.perm_middle

theorem sorted_levelsAppend_desc {p : Nat} {oid : Nat} {l : Levels}
    (hs : (prices l).Pairwise (fun x y => y < x)) :
    (prices (levelsAppend (fun x y => decide (y < x)) p oid l)).Pairwise
      (fun x y => y < x) := by
  induction l with
  | nil => simp [levelsAppend, prices]
  | cons e es ih =>
    rw [prices_cons, List.pairwise_cons] at hs
    rw [levelsAppend]
    by_cases hk : p = e.1
    · rw [if_pos hk, prices_cons, List.pairwise_cons]
      exact ⟨fun y hy => hk ▸ hs.1 y hy, hs.2⟩
    · rw [if_neg hk]
      by_cases hc : e.1 < p
      · rw [if_pos (by simpa using hc), prices_cons, prices_cons, List.pairwise_cons,
          List.pairwise_cons]
        refine ⟨fun y hy => ?_, hs.1, hs.2⟩
        rcases List.mem_cons.mp hy with h | h
        · omega
        · exact lt_trans (hs.1 y h) hc
      · rw [if_neg (by simpa using hc), prices_cons, List.pairwise_cons]
        refine ⟨fun y hy => ?_, ih hs.2⟩
        rcases mem_prices_levelsAppend hy with h | h
        · omega
        · exact hs.1 y h

theorem sorted_levelsAppend_asc {p : Nat} {oid : Nat} {l : Levels}
    (hs : (prices l).Pairwise (fun x y => x < y)) :
    (prices (levelsAppend (fun x y => decide (x < y)) p oid l)).Pairwise
      (fun x y => x < y) := by
  induction l with
  | nil => simp [levelsAppend, prices]
  | cons e es ih =>
    rw [prices_cons, List.pairwise_cons] at hs
    rw [levelsAppend]
    by_cases hk : p = e.1
    · rw [if_pos hk, prices_cons, List.pairwise_cons]
      exact ⟨fun y hy => hk ▸ hs.1 y hy, hs.2⟩
    · rw [if_neg hk]
      by_cases hc : p < e.1
      · rw [if_pos (by simpa using hc), prices_cons, prices_cons, List.pairwise_cons,
          List.pairwise_cons]
        refine ⟨fun y hy => ?_, hs.1, hs.2⟩
        rcases List.mem_cons.mp hy with h | h
        · omega
        · exact lt_trans hc (hs.1 y h)
      · rw [if_neg (by simpa using hc), prices_cons, List.pairwise_cons]
        refine ⟨fun y hy => ?_, ih hs.2⟩
        rcases mem_prices_levelsAppend hy with h | h
        · omega
        · exact hs.1 y h

theorem levelsAppend_front_desc {p : Nat} {oid : Nat} {l : Levels}
    (h : ∀ y ∈ prices l, y < p) :
    levelsAppend (fun x y => decide (y < x)) p oid l = (p, [oid]) :: l := by
  match l with
  | [] => rfl
  | e :: es =>
    have he : e.1 < p := h e.1 (List.mem_map.mpr ⟨e, List.mem_cons_self _ _, rfl⟩)
    rw [levelsAppend, if_neg (by omega), if_pos (by simpa using he)]

theorem levelsAppend_front_asc {p : Nat} {oid : Nat} {l : Levels}
    (h : ∀ y ∈ prices l, p < y) :
    levelsAppend (fun x y => decide (x < y)) p oid l = (p, [oid]) :: l := by
  match l with
  | [] => rfl
  | e :: es =>
    have he : p < e.1 := h e.1 (List.mem_map.mpr ⟨e, List.mem_cons_self _ _, rfl⟩)
    rw [levelsAppend, if_neg (by omega), if_pos (by simpa using he)]

theorem levelsAppend_self_mem (cmp : Nat → Nat → Bool) (p : Nat) (oid : Nat)
    (l : Levels) : ∃ q, (p, q) ∈ levelsAppend cmp p oid l ∧ oid ∈ q := by
  induction l with
  | nil => exact ⟨[oid], List.mem_cons_self _ _, List.mem_cons_self _ _⟩
  | cons e es ih =>
    rw [levelsAppend]
    by_cases hk : p = e.1
    · rw [if_pos hk]
      exact ⟨e.2 ++ [oid], List.mem_cons_self _ _, List.mem_append_right _
        (List.mem_cons_self _ _)⟩
    · rw [if_neg hk]
      by_cases hc : cmp p e.1
      · rw [if_pos hc]
        exact ⟨[oid], List.mem_cons_self _ _, List.mem_cons_self _ _⟩
      · rw [if_neg hc]
        rcases ih with ⟨q, hq1, hq2⟩
        exact ⟨q, List.mem_cons_of_mem _ hq1, hq2⟩

theorem levelsAppend_level_superset {cmp : Nat → Nat → Bool} {p : Nat} {oid : Nat}
    {l : Levels} {pp : Nat} {q : OrderQueue} (h : (pp, q) ∈ l) :
    ∃ q', (pp, q') ∈ levelsAppend cmp p oid l ∧ ∀ x ∈ q, x ∈ q' := by
  induction l with
  | nil => simp at h
  | cons e es ih =>
    rw [levelsAppend]
    by_cases hk : p = e.1
    · rw [if_pos hk]
      rcases List.mem_cons.mp h with h1 | h1
      · have hpp : pp = e.1 := congrArg Prod.fst h1
        have hqq : q = e.2 := congrArg Prod.snd h1
        refine ⟨e.2 ++ [oid], ?_, fun x hx => List.mem_append_left _ (hqq ▸ hx)⟩
        rw [hpp, ← hk]
        exact List.mem_cons_self _ _
      · exact ⟨q, List.mem_cons_of_mem _ h1, fun x hx => hx⟩
    · rw [if_neg hk]
      by_cases hc : cmp p e.1
      · rw [if_pos hc]
        exact ⟨q, List.mem_cons_of_mem _ h, fun x hx => hx⟩
      · rw [if_neg hc]
        rcases List.mem_cons.mp h with h1 | h1
        · exact ⟨q, by rw [h1]; exact List.mem_cons_self _ _, fun x hx => hx⟩
        · rcases ih h1 with ⟨q', hq1, hq2⟩
          exact ⟨q', List.mem_cons_of_mem _ hq1, hq2⟩

theorem mem_allIds {l : Levels} {pp : Nat} {q : OrderQueue} {x : Nat}
    (h : (pp, q) ∈ l) (hx : x ∈ q) : x ∈ allIds l := by
  induction l with
  | nil => simp at h
  | cons e es ih =>
    rw [allIds_cons]
    rcases List.mem_cons.mp h with h1 | h1
    · exact List.mem_append_left _ (by rw [show e.2 = q from congrArg Prod.snd h1.symm]; exact hx)
    · exact List.mem_append_right _ (ih h1)

theorem nodup_chunk {l : Levels} {pp : Nat} {q : OrderQueue}
    (hnd : (allIds l).Nodup) (h : (pp, q) ∈ l) : q.Nodup := by
  induction l with
  | nil => simp at h
  | cons e es ih =>
    rw [allIds_cons, List.nodup_append] at hnd
    rcases List.mem_cons.mp h with h1 | h1
    · exact (show e.2 = q from congrArg Prod.snd h1.symm) ▸ hnd.1
    · exact ih hnd.2.1 h1

theorem le_head_of_pairwise_desc {a : Nat} {L : List Nat} {x : Nat}
    (hs : (a :: L).Pairwise (fun x y => y < x)) (hx : x ∈ a :: L) : x ≤ a := by
  rw [List.pairwise_cons] at hs
  rcases List.mem_cons.mp hx with h | h
  · omega
  · exact le_of_lt (hs.1 x h)

theorem head_le_of_pairwise_asc {a : Nat} {L : List Nat} {x : Nat}
    (hs : (a :: L).Pairwise (fun x y => x < y)) (hx : x ∈ a :: L) : a ≤ x := by
  rw [List.pairwise_cons] at hs
  rcases List.mem_cons.mp hx with h | h
  · omega
  · exact le_of_lt (hs.1 x h)

theorem pairwise_ne_of_desc {L : List Nat} (h : L.Pairwise (fun x y => y < x)) :
    L.Pairwise (fun a b => ¬ a = b) :=
  h.imp (fun hab => by omega)

theorem pairwise_ne_of_asc {L : List Nat} (h : L.Pairwise (fun x y => x < y)) :
    L.Pairwise (fun a b => ¬ a = b) :=
  h.imp (fun hab => by omega)

theorem coreInv_ids_nodup {b : Book} (h : CoreInv b) :
    (allIds b.bids ++ allIds b.asks).Nodup :=
  h.keysPerm.nodup h.keysNodup

theorem CancelOrderInternal_core {b : Book} {oid : Nat} (h : CoreInv b) :
    CoreInv (CancelOrderInternal b oid) := by
  rcases hl : storeLookup b.orders oid with _ | order
  · simp only [CancelOrderInternal, hl]
    exact h
  · have hl' : List.lookup oid b.orders = some order := hl
    have horder : (oid, order) ∈ b.orders := lookup_mem hl'
    have hso := h.storeOwned (oid, order) horder
    have hids := coreInv_ids_nodup h
    rw [List.nodup_append] at hids
    by_cases hside : order.side = Side.Sell
    · rcases hso.2.2 hside with ⟨q0, hq0, hoid0⟩
      have hndA : (prices b.asks).Pairwise (fun a b => ¬ a = b) :=
        pairwise_ne_of_asc h.sortedA
      have hpermA : (oid :: allIds (levelsErase order.price oid b.asks)).Perm
          (allIds b.asks) := allIds_levelsErase_perm hndA hq0 hoid0
      simp only [CancelOrderInternal, hl, if_pos hside]
      refine ⟨h.sortedB, h.sortedA.sublist (prices_levelsErase_sublist _ _ _),
        h.neB, ne_levelsErase _ _ _ h.neA, ?_, ?_, ?_, ?_, ?_⟩
      · rw [keys_storeErase]
        exact h.keysNodup.erase oid
      · rw [keys_storeErase]
        have hperm1 : (b.orders.map Prod.fst).Perm
            (oid :: (allIds b.bids ++ allIds (levelsErase order.price oid b.asks))) :=
          h.keysPerm.trans ((List.Perm.append_left (allIds b.bids) hpermA.symm).trans
            List.perm_middle)
        have hperm2 := hperm1.erase oid
        rw [List.erase_cons_head] at hperm2
        exact hperm2
      · intro e he oid' ho
        rcases h.bidsOwned e he oid' ho with ⟨v, hv, hvid, hvside, hvprice⟩
        have hne' : ¬ oid' = oid := by
          intro heq
          rw [heq, hl'] at hv
          rw [((Option.some.injEq _ _ ▸ hv : order = v)).symm] at hvside
          rw [hvside] at hside
          exact Side.noConfusion hside
        exact ⟨v, by rw [lookup_storeErase_ne _ hne']; exact hv, hvid, hvside, hvprice⟩
      · intro e he oid' ho
        rcases mem_levelsErase_strong hndA hq0 e he with ⟨hmem, hnep⟩ | ⟨hep, heq⟩
        · rcases h.asksOwned e hmem oid' ho with ⟨v, hv, hvid, hvside, hvprice⟩
          have hne' : ¬ oid' = oid := by
            intro heq
            rw [heq, hl'] at hv
            rw [((Option.some.injEq _ _ ▸ hv : order = v)).symm] at hvprice
            exact hnep hvprice.symm
          exact ⟨v, by rw [lookup_storeErase_ne _ hne']; exact hv, hvid, hvside, hvprice⟩
        · have hq0nd : q0.Nodup := nodup_chunk hids.2.1 hq0
          rw [heq] at ho
          rcases (hq0nd.mem_erase_iff).mp ho with ⟨hne', ho'⟩
          rcases h.asksOwned (order.price, q0) hq0 oid' ho' with ⟨v, hv, hvid, hvside, hvprice⟩
          exact ⟨v, by rw [lookup_storeErase_ne _ hne']; exact hv, hvid, hvside,
            by rw [hep]; exact hvprice⟩
      · intro e he
        have hmem : e ∈ b.orders := storeErase_mem he
        have hkey : e.1 ∈ (b.orders.map Prod.fst).erase oid := by
          rw [← keys_storeErase]
          exact List.mem_map.mpr ⟨e, he, rfl⟩
        have hne' : ¬ e.1 = oid :=
          ((h.keysNodup.mem_erase_iff).mp hkey).1
        rcases h.storeOwned e hmem with ⟨hid, hbuy, hsell⟩
        refine ⟨hid, hbuy, ?_⟩
        intro hs
        rcases hsell hs with ⟨q1, hq1, hm1⟩
        by_cases hp : e.2.price = order.price
        · have hq10 : q1 = q0 := mem_unique_key hndA (hp ▸ hq1) hq0
          have hm0 : e.1 ∈ q0.erase oid :=
            (List.mem_erase_of_ne hne').mpr (hq10 ▸ hm1)
          refine ⟨q0.erase oid, ?_, hm0⟩
          rw [hp]
          exact mem_levelsErase_self hndA hq0 (List.ne_nil_of_mem hm0)
        · exact ⟨q1, mem_levelsErase_of_ne hq1 hp, hm1⟩
    · have hbuy : order.side = Side.Buy := by
        rcases hos : order.side
        · rfl
        · exact absurd hos hside
      rcases hso.2.1 hbuy with ⟨q0, hq0, hoid0⟩
      have hndB : (prices b.bids).Pairwise (fun a b => ¬ a = b) :=
        pairwise_ne_of_desc h.sortedB
      have hpermB : (oid :: allIds (levelsErase order.price oid b.bids)).Perm
          (allIds b.bids) := allIds_levelsErase_perm hndB hq0 hoid0
      simp only [CancelOrderInternal, hl, if_neg hside]
      refine ⟨h.sortedB.sublist (prices_levelsErase_sublist _ _ _), h.sortedA,
        ne_levelsErase _ _ _ h.neB, h.neA, ?_, ?_, ?_, ?_, ?_⟩
      · rw [keys_storeErase]
        exact h.keysNodup.erase oid
      · rw [keys_storeErase]
        have hperm1 : (b.orders.map Prod.fst).Perm
            (oid :: (allIds (levelsErase order.price oid b.bids) ++ allIds b.asks)) :=
          h.keysPerm.trans (List.Perm.append_right (allIds b.asks) hpermB.symm)
        have hperm2 := hperm1.erase oid
        rw [List.erase_cons_head] at hperm2
        exact hperm2
      · intro e he oid' ho
        rcases mem_levelsErase_strong hndB hq0 e he with ⟨hmem, hnep⟩ | ⟨hep, heq⟩
        · rcases h.bidsOwned e hmem oid' ho with ⟨v, hv, hvid, hvside, hvprice⟩
          have hne' : ¬ oid' = oid := by
            intro heq
            rw [heq, hl'] at hv
            rw [((Option.some.injEq _ _ ▸ hv : order = v)).symm] at hvprice
            exact hnep hvprice.symm
          exact ⟨v, by rw [lookup_storeErase_ne _ hne']; exact hv, hvid, hvside, hvprice⟩
        · have hq0nd : q0.Nodup := nodup_chunk hids.1 hq0
          rw [heq] at ho
          rcases (hq0nd.mem_erase_iff).mp ho with ⟨hne', ho'⟩
          rcases h.bidsOwned (order.price, q0) hq0 oid' ho' with ⟨v, hv, hvid, hvside, hvprice⟩
          exact ⟨v, by rw [lookup_storeErase_ne _ hne']; exact hv, hvid, hvside,
            by rw [hep]; exact hvprice⟩
      · intro e he oid' ho
        rcases h.asksOwned e he oid' ho with ⟨v, hv, hvid, hvside, hvprice⟩
        have hne' : ¬ oid' = oid := by
          intro heq
          rw [heq, hl'] at hv
          rw [((Option.some.injEq _ _ ▸ hv : order = v)).symm] at hvside
          rw [hvside] at hbuy
          exact Side.noConfusion hbuy
        exact ⟨v, by rw [lookup_storeErase_ne _ hne']; exact hv, hvid, hvside, hvprice⟩
      · intro e he
        have hmem : e ∈ b.orders := storeErase_mem he
        have hkey : e.1 ∈ (b.orders.map Prod.fst).erase oid := by
          rw [← keys_storeErase]
          exact List.mem_map.mpr ⟨e, he, rfl⟩
        have hne' : ¬ e.1 = oid :=
          ((h.keysNodup.mem_erase_iff).mp hkey).1
        rcases h.storeOwned e hmem with ⟨hid, hbuyO, hsell⟩
        refine ⟨hid, ?_, hsell⟩
        intro hs
        rcases hbuyO hs with ⟨q1, hq1, hm1⟩
        by_cases hp : e.2.price = order.price
        · have hq10 : q1 = q0 := mem_unique_key hndB (hp ▸ hq1) hq0
          have hm0 : e.1 ∈ q0.erase oid :=
            (List.mem_erase_of_ne hne').mpr (hq10 ▸ hm1)
          refine ⟨q0.erase oid, ?_, hm0⟩
          rw [hp]
          exact mem_levelsErase_self hndB hq0 (List.ne_nil_of_mem hm0)
        · exact ⟨q1, mem_levelsErase_of_ne hq1 hp, hm1⟩

theorem mem_storeSet_elim_nodup {k' : Nat} {v' : Order} {l : OrderStore}
    (hnd : (l.map Prod.fst).Nodup) {x : Nat × Order} (hx : x ∈ storeSet k' v' l) :
    x = (k', v') ∨ (x ∈ l ∧ ¬ x.1 = k') := by
  induction l with
  | nil => simp [storeSet] at hx
  | cons e es ih =>
    rw [List.map_cons, List.nodup_cons] at hnd
    rw [storeSet] at hx
    by_cases hk : e.1 = k'
    · rw [if_pos hk] at hx
      rcases List.mem_cons.mp hx with h | h
      · exact Or.inl h
      · refine Or.inr ⟨List.mem_cons_of_mem _ h, ?_⟩
        intro hxk
        exact hnd.1 (by rw [hk, ← hxk]; exact List.mem_map.mpr ⟨x, h, rfl⟩)
    · rw [if_neg hk] at hx
      rcases List.mem_cons.mp hx with h | h
      · exact Or.inr ⟨h ▸ List.mem_cons_self _ _, by rw [h]; exact hk⟩
      · rcases ih hnd.2 h with h1 | ⟨h1, h2⟩
        · exact Or.inl h1
        · exact Or.inr ⟨List.mem_cons_of_mem _ h1, h2⟩

/-- One head-to-head fill of the match loop preserves the loop invariant.  The
primed queues, store and side maps are the ones built by the loop body (lines
226-250 plus the emptied-level erasure of lines 253-261); bf and af are the
IsFilled flags of the two head orders; the data map is unconstrained (the loop
invariant does not mention data_). -/
theorem fillStep_loopInv {d0 d' : DataMap} {bidPrice askPrice bidId askId : Nat}
    {bidTail askTail : OrderQueue} {restBids restAsks : Levels} {st : OrderStore}
    {bid ask bid' ask' : Order} {bf af : Bool}
    {bidQ' askQ' : OrderQueue} {bids' asks' : Levels} {st2 : OrderStore}
    (h : LoopInv ⟨d0, (bidPrice, bidId :: bidTail) :: restBids,
      (askPrice, askId :: askTail) :: restAsks, st⟩)
    (hlb : List.lookup bidId st = some bid)
    (hla : List.lookup askId st = some ask)
    (hbid' : bid'.id = bid.id ∧ bid'.side = bid.side ∧ bid'.price = bid.price ∧
      bid'.orderType = bid.orderType)
    (hask' : ask'.id = ask.id ∧ ask'.side = ask.side ∧ ask'.price = ask.price ∧
      ask'.orderType = ask.orderType)
    (hbq : bidQ' = if bf = true then bidTail else bidId :: bidTail)
    (haq : askQ' = if af = true then askTail else askId :: askTail)
    (hst2 : st2 = (if af = true then
        storeErase askId (if bf = true then storeErase bidId
          (storeSet askId ask' (storeSet bidId bid' st)) else
          storeSet askId ask' (storeSet bidId bid' st))
      else (if bf = true then storeErase bidId
          (storeSet askId ask' (storeSet bidId bid' st)) else
          storeSet askId ask' (storeSet bidId bid' st))))
    (hbids : bids' = if bidQ' = [] then restBids else (bidPrice, bidQ') :: restBids)
    (hasks : asks' = if askQ' = [] then restAsks else (askPrice, askQ') :: restAsks) :
    LoopInv ⟨d', bids', asks', st2⟩ := by
  rcases h.bidsOwned (bidPrice, bidId :: bidTail) (List.mem_cons_self _ _) bidId
    (List.mem_cons_self _ _) with ⟨vb, hvb, hvbid, hvbside, hvbprice⟩
  have hvbb : vb = bid := by rw [hvb] at hlb; exact Option.some.injEq _ _ ▸ hlb
  have hbid_id : bid.id = bidId := hvbb ▸ hvbid
  have hbid_side : bid.side = Side.Buy := hvbb ▸ hvbside
  have hbid_price : bid.price = bidPrice := hvbb ▸ hvbprice
  rcases h.asksOwned (askPrice, askId :: askTail) (List.mem_cons_self _ _) askId
    (List.mem_cons_self _ _) with ⟨va, hva, hvaid, hvaside, hvaprice⟩
  have hvaa : va = ask := by rw [hva] at hla; exact Option.some.injEq _ _ ▸ hla
  have hask_id : ask.id = askId := hvaa ▸ hvaid
  have hask_side : ask.side = Side.Sell := hvaa ▸ hvaside
  have hask_price : ask.price = askPrice := hvaa ▸ hvaprice
  have hba : ¬ bidId = askId := by
    intro heq
    rw [heq, hla] at hlb
    have : ask = bid := Option.some.injEq _ _ ▸ hlb
    rw [← this, hask_side] at hbid_side
    exact Side.noConfusion hbid_side
  have hab : ¬ askId = bidId := fun hh => hba hh.symm
  have hids : (((bidId :: bidTail) ++ allIds restBids) ++
      ((askId :: askTail) ++ allIds restAsks)).Nodup := coreInv_ids_nodup h.toCoreInv
  rw [List.nodup_append] at hids
  rcases hids with ⟨hndIB, hndIA, hdisj⟩
  have hndIB' := hndIB
  rw [List.nodup_append, List.nodup_cons] at hndIB'
  rcases hndIB' with ⟨⟨hbid_nt, hndBT⟩, hndRB, hdisjB⟩
  have hndIA' := hndIA
  rw [List.nodup_append, List.nodup_cons] at hndIA'
  rcases hndIA' with ⟨⟨hask_nt, hndAT⟩, hndRA, hdisjA⟩
  have hkp0 : (st.map Prod.fst).Perm (((bidId :: bidTail) ++ allIds restBids) ++
      ((askId :: askTail) ++ allIds restAsks)) := h.keysPerm
  have hsubQb : ∀ x ∈ bidQ', x ∈ bidId :: bidTail := by
    intro x hx
    rw [hbq] at hx
    by_cases hbf : bf = true
    · rw [if_pos hbf] at hx
      exact List.mem_cons_of_mem _ hx
    · rw [if_neg hbf] at hx
      exact hx
  have htailQb : ∀ x ∈ bidTail, x ∈ bidQ' := by
    intro x hx
    rw [hbq]
    by_cases hbf : bf = true
    · rw [if_pos hbf]; exact hx
    · rw [if_neg hbf]; exact List.mem_cons_of_mem _ hx
  have hsubQa : ∀ x ∈ askQ', x ∈ askId :: askTail := by
    intro x hx
    rw [haq] at hx
    by_cases haf : af = true
    · rw [if_pos haf] at hx
      exact List.mem_cons_of_mem _ hx
    · rw [if_neg haf] at hx
      exact hx
  have htailQa : ∀ x ∈ askTail, x ∈ askQ' := by
    intro x hx
    rw [haq]
    by_cases haf : af = true
    · rw [if_pos haf]; exact hx
    · rw [if_neg haf]; exact List.mem_cons_of_mem _ hx
  have hbfq_mem : bidId ∈ bidQ' → bf = false := by
    intro hmem
    rcases hbf2 : bf
    · rfl
    · rw [hbq, hbf2, if_pos rfl] at hmem
      exact absurd hmem hbid_nt
  have hafq_mem : askId ∈ askQ' → af = false := by
    intro hmem
    rcases haf2 : af
    · rfl
    · rw [haq, haf2, if_pos rfl] at hmem
      exact absurd hmem hask_nt
  have hmemB : ∀ e ∈ bids', (e = (bidPrice, bidQ') ∧ bidQ' ≠ []) ∨ e ∈ restBids := by
    intro e he
    rw [hbids] at he
    by_cases hq : bidQ' = []
    · rw [if_pos hq] at he
      exact Or.inr he
    · rw [if_neg hq] at he
      rcases List.mem_cons.mp he with h1 | h1
      · exact Or.inl ⟨h1, hq⟩
      · exact Or.inr h1
  have hmemA : ∀ e ∈ asks', (e = (askPrice, askQ') ∧ askQ' ≠ []) ∨ e ∈ restAsks := by
    intro e he
    rw [hasks] at he
    by_cases hq : askQ' = []
    · rw [if_pos hq] at he
      exact Or.inr he
    · rw [if_neg hq] at he
      rcases List.mem_cons.mp he with h1 | h1
      · exact Or.inl ⟨h1, hq⟩
      · exact Or.inr h1
  have hallB : allIds bids' = bidQ' ++ allIds restBids := by
    rw [hbids]
    by_cases hq : bidQ' = []
    · rw [if_pos hq, hq]
      rfl
    · rw [if_neg hq, allIds_cons]
  have hallA : allIds asks' = askQ' ++ allIds restAsks := by
    rw [hasks]
    by_cases hq : askQ' = []
    · rw [if_pos hq, hq]
      rfl
    · rw [if_neg hq, allIds_cons]
  have hsubB : (prices bids').Sublist
      (prices ((bidPrice, bidId :: bidTail) :: restBids)) := by
    rw [hbids]
    by_cases hq : bidQ' = []
    · rw [if_pos hq, prices_cons]
      exact (List.Sublist.refl _).cons _
    · rw [if_neg hq, prices_cons, prices_cons]
  have hsubA : (prices asks').Sublist
      (prices ((askPrice, askId :: askTail) :: restAsks)) := by
    rw [hasks]
    by_cases hq : askQ' = []
    · rw [if_pos hq, prices_cons]
      exact (List.Sublist.refl _).cons _
    · rw [if_neg hq, prices_cons, prices_cons]
  have hlookpres : ∀ x, ¬ x = bidId → ¬ x = askId →
      List.lookup x st2 = List.lookup x st := by
    intro x hxb hxa
    rw [hst2]
    rcases bf <;> rcases af <;>
      simp only [Bool.false_eq_true, if_false, eq_self_iff_true, if_true]
    · rw [lookup_storeSet_ne _ _ hxa, lookup_storeSet_ne _ _ hxb]
    · rw [lookup_storeErase_ne _ hxa, lookup_storeSet_ne _ _ hxa,
        lookup_storeSet_ne _ _ hxb]
    · rw [lookup_storeErase_ne _ hxb, lookup_storeSet_ne _ _ hxa,
        lookup_storeSet_ne _ _ hxb]
    · rw [lookup_storeErase_ne _ hxa, lookup_storeErase_ne _ hxb,
        lookup_storeSet_ne _ _ hxa, lookup_storeSet_ne _ _ hxb]
  have hlookb2 : bf = false → List.lookup bidId st2 = some bid' := by
    intro hbf
    rw [hst2, hbf]
    simp only [Bool.false_eq_true, if_false]
    have hbase : List.lookup bidId (storeSet askId ask' (storeSet bidId bid' st)) =
        some bid' := by
      rw [lookup_storeSet_ne _ _ hba, lookup_storeSet_self _ _ (mem_keys_of_lookup hlb)]
    by_cases haf : af = true
    · rw [if_pos haf, lookup_storeErase_ne _ hba]
      exact hbase
    · rw [if_neg haf]
      exact hbase
  have hlooka2 : af = false → List.lookup askId st2 = some ask' := by
    intro haf
    rw [hst2, haf]
    simp only [Bool.false_eq_true, if_false]
    have hmemk : askId ∈ (storeSet bidId bid' st).map Prod.fst := by
      rw [keys_storeSet]
      exact mem_keys_of_lookup hla
    have hbase := lookup_storeSet_self ask' (storeSet bidId bid' st) hmemk
    by_cases hbf : bf = true
    · rw [if_pos hbf, lookup_storeErase_ne _ hab]
      exact hbase
    · rw [if_neg hbf]
      exact hbase
  have hnd0 : ((storeSet askId ask' (storeSet bidId bid' st)).map Prod.fst).Nodup := by
    rw [keys_storeSet, keys_storeSet]
    exact h.keysNodup
  have hnotkey_bid : bf = true → ∀ v : Order, (bidId, v) ∉ st2 := by
    intro hbf v hmem
    rw [hst2, hbf] at hmem
    simp only [eq_self_iff_true, if_true] at hmem
    by_cases haf : af = true
    · rw [if_pos haf] at hmem
      exact not_mem_key_storeErase hnd0 v (storeErase_mem hmem)
    · rw [if_neg haf] at hmem
      exact not_mem_key_storeErase hnd0 v hmem
  have hnotkey_ask : af = true → ∀ v : Order, (askId, v) ∉ st2 := by
    intro haf v hmem
    rw [hst2, haf] at hmem
    simp only [eq_self_iff_true, if_true] at hmem
    by_cases hbf : bf = true
    · rw [if_pos hbf] at hmem
      have hnd1 : ((storeErase bidId (storeSet askId ask'
          (storeSet bidId bid' st))).map Prod.fst).Nodup := by
        rw [keys_storeErase]
        exact hnd0.erase _
      exact not_mem_key_storeErase hnd1 v hmem
    · rw [if_neg hbf] at hmem
      exact not_mem_key_storeErase hnd0 v hmem
  have helim : ∀ e ∈ st2, e = (bidId, bid') ∨ e = (askId, ask') ∨
      (e ∈ st ∧ ¬ e.1 = bidId ∧ ¬ e.1 = askId) := by
    intro e he
    have he0 : e ∈ storeSet askId ask' (storeSet bidId bid' st) := by
      rw [hst2] at he
      rcases bf <;> rcases af <;>
        simp only [Bool.false_eq_true, if_false, eq_self_iff_true, if_true] at he
      · exact he
      · exact storeErase_mem he
      · exact storeErase_mem he
      · exact storeErase_mem (storeErase_mem he)
    have hnd1 : ((storeSet bidId bid' st).map Prod.fst).Nodup := by
      rw [keys_storeSet]
      exact h.keysNodup
    rcases mem_storeSet_elim_nodup hnd1 he0 with h1 | ⟨h1, h2⟩
    · exact Or.inr (Or.inl h1)
    · rcases mem_storeSet_elim_nodup h.keysNodup h1 with h3 | ⟨h3, h4⟩
      · exact Or.inl h3
      · exact Or.inr (Or.inr ⟨h3, h4, h2⟩)
  have hnd2 : (st2.map Prod.fst).Nodup := by
    rw [hst2]
    rcases bf <;> rcases af <;>
      simp only [Bool.false_eq_true, if_false, eq_self_iff_true, if_true]
    · rw [keys_storeSet, keys_storeSet]
      exact h.keysNodup
    · rw [keys_storeErase, keys_storeSet, keys_storeSet]
      exact h.keysNodup.erase _
    · rw [keys_storeErase, keys_storeSet, keys_storeSet]
      exact h.keysNodup.erase _
    · rw [keys_storeErase, keys_storeErase, keys_storeSet, keys_storeSet]
      exact (h.keysNodup.erase _).erase _
  have hperm2 : (st2.map Prod.fst).Perm (allIds bids' ++ allIds asks') := by
    rw [hallB, hallA, hst2, hbq, haq]
    rcases bf <;> rcases af <;>
      simp only [Bool.false_eq_true, if_false, eq_self_iff_true, if_true]
    · rw [keys_storeSet, keys_storeSet]
      exact hkp0
    · rw [keys_storeErase, keys_storeSet, keys_storeSet]
      have h1 : (st.map Prod.fst).Perm (askId ::
          (((bidId :: bidTail) ++ allIds restBids) ++ (askTail ++ allIds restAsks))) :=
        hkp0.trans List.perm_middle
      have h2 := h1.erase askId
      rw [List.erase_cons_head] at h2
      exact h2
    · rw [keys_storeErase, keys_storeSet, keys_storeSet]
      have h1 : (st.map Prod.fst).Perm (bidId ::
          ((bidTail ++ allIds restBids) ++ ((askId :: askTail) ++ allIds restAsks))) :=
        hkp0
      have h2 := h1.erase bidId
      rw [List.erase_cons_head] at h2
      exact h2
    · rw [keys_storeErase, keys_storeErase, keys_storeSet, keys_storeSet]
      have h1 : (st.map Prod.fst).Perm (bidId ::
          ((bidTail ++ allIds restBids) ++ (askId :: (askTail ++ allIds restAsks)))) :=
        hkp0
      have h2 := h1.erase bidId
      rw [List.erase_cons_head] at h2
      have h3 := (h2.trans List.perm_middle).erase askId
      rw [List.erase_cons_head] at h3
      exact h3
  have hbids_of_bf : bf = false → bids' = (bidPrice, bidId :: bidTail) :: restBids := by
    intro hbf
    have hq' : bidQ' = bidId :: bidTail := by
      rw [hbq, hbf]
      simp only [Bool.false_eq_true, if_false]
    rw [hbids, hq', if_neg (List.cons_ne_nil _ _)]
  have hasks_of_af : af = false → asks' = (askPrice, askId :: askTail) :: restAsks := by
    intro haf
    have hq' : askQ' = askId :: askTail := by
      rw [haq, haf]
      simp only [Bool.false_eq_true, if_false]
    rw [hasks, hq', if_neg (List.cons_ne_nil _ _)]
  refine ⟨⟨h.sortedB.sublist hsubB, h.sortedA.sublist hsubA, ?_, ?_, hnd2, hperm2,
    ?_, ?_, ?_⟩, ?_⟩
  · intro e he
    rcases hmemB e he with ⟨h1, hq1⟩ | h1
    · rw [h1]
      exact hq1
    · exact h.neB e (List.mem_cons_of_mem _ h1)
  · intro e he
    rcases hmemA e he with ⟨h1, hq1⟩ | h1
    · rw [h1]
      exact hq1
    · exact h.neA e (List.mem_cons_of_mem _ h1)
  · intro e he oid' ho
    rcases hmemB e he with ⟨h1, hq1⟩ | h1
    · rw [h1] at ho ⊢
      have hoQ : oid' ∈ bidId :: bidTail := hsubQb oid' ho
      by_cases hob : oid' = bidId
      · have hbf : bf = false := hbfq_mem (by rw [← hob]; exact ho)
        refine ⟨bid', by rw [hob]; exact hlookb2 hbf, ?_, ?_, ?_⟩
        · rw [hob, hbid'.1]
          exact hbid_id
        · rw [hbid'.2.1]
          exact hbid_side
        · rw [hbid'.2.2.1]
          exact hbid_price
      · have hot : oid' ∈ bidTail := by
          rcases List.mem_cons.mp hoQ with hh | hh
          · exact absurd hh hob
          · exact hh
        rcases h.bidsOwned (bidPrice, bidId :: bidTail) (List.mem_cons_self _ _) oid'
          (List.mem_cons_of_mem _ hot) with ⟨v, hv, hvid, hvside, hvprice⟩
        have hoa : ¬ oid' = askId := by
          intro heq
          exact hdisj (List.mem_append_left _ hoQ)
            (by rw [heq]; exact List.mem_cons_self _ _)
        exact ⟨v, by rw [hlookpres oid' hob hoa]; exact hv, hvid, hvside, hvprice⟩
    · rcases h.bidsOwned e (List.mem_cons_of_mem _ h1) oid' ho
        with ⟨v, hv, hvid, hvside, hvprice⟩
      have hoRB : oid' ∈ allIds restBids := mem_allIds h1 ho
      have hob : ¬ oid' = bidId := by
        intro heq
        exact hdisjB (List.mem_cons_self _ _) (heq ▸ hoRB)
      have hoa : ¬ oid' = askId := by
        intro heq
        exact hdisj (List.mem_append_right _ hoRB)
          (by rw [heq]; exact List.mem_cons_self _ _)
      exact ⟨v, by rw [hlookpres oid' hob hoa]; exact hv, hvid, hvside, hvprice⟩
  · intro e he oid' ho
    rcases hmemA e he with ⟨h1, hq1⟩ | h1
    · rw [h1] at ho ⊢
      have hoQ : oid' ∈ askId :: askTail := hsubQa oid' ho
      by_cases hoa : oid' = askId
      · have haf : af = false := hafq_mem (by rw [← hoa]; exact ho)
        refine ⟨ask', by rw [hoa]; exact hlooka2 haf, ?_, ?_, ?_⟩
        · rw [hoa, hask'.1]
          exact hask_id
        · rw [hask'.2.1]
          exact hask_side
        · rw [hask'.2.2.1]
          exact hask_price
      · have hot : oid' ∈ askTail := by
          rcases List.mem_cons.mp hoQ with hh | hh
          · exact absurd hh hoa
          · exact hh
        rcases h.asksOwned (askPrice, askId :: askTail) (List.mem_cons_self _ _) oid'
          (List.mem_cons_of_mem _ hot) with ⟨v, hv, hvid, hvside, hvprice⟩
        have hob : ¬ oid' = bidId := by
          intro heq
          exact hdisj (by rw [heq]; exact List.mem_cons_self _ _)
            (List.mem_append_left _ hoQ)
        exact ⟨v, by rw [hlookpres oid' hob hoa]; exact hv, hvid, hvside, hvprice⟩
    · rcases h.asksOwned e (List.mem_cons_of_mem _ h1) oid' ho
        with ⟨v, hv, hvid, hvside, hvprice⟩
      have hoRA : oid' ∈ allIds restAsks := mem_allIds h1 ho
      have hoa : ¬ oid' = askId := by
        intro heq
        exact hdisjA (List.mem_cons_self _ _) (heq ▸ hoRA)
      have hob : ¬ oid' = bidId := by
        intro heq
        exact hdisj (by rw [heq]; exact List.mem_cons_self _ _)
          (List.mem_append_right _ hoRA)
      exact ⟨v, by rw [hlookpres oid' hob hoa]; exact hv, hvid, hvside, hvprice⟩
  · intro e he
    rcases helim e he with h1 | h1 | ⟨h1, h2, h3⟩
    · have hbf : bf = false := by
        rcases hbf2 : bf
        · rfl
        · rw [h1] at he
          exact absurd he (hnotkey_bid hbf2 bid')
      have hq' : bidQ' = bidId :: bidTail := by
        rw [hbq, hbf]
        simp only [Bool.false_eq_true, if_false]
      rw [h1]
      refine ⟨?_, ?_, ?_⟩
      · show bid'.id = bidId
        rw [hbid'.1]
        exact hbid_id
      · intro hs
        refine ⟨bidQ', ?_, ?_⟩
        · show ((bid'.price : Nat), bidQ') ∈ bids'
          have hp : bid'.price = bidPrice := by
            rw [hbid'.2.2.1]
            exact hbid_price
          rw [hp, hbids_of_bf hbf, ← hq']
          exact List.mem_cons_self _ _
        · show bidId ∈ bidQ'
          rw [hq']
          exact List.mem_cons_self _ _
      · intro hs
        have hs' : bid'.side = Side.Sell := hs
        have hb' : bid'.side = Side.Buy := by
          rw [hbid'.2.1]
          exact hbid_side
        rw [hb'] at hs'
        exact Side.noConfusion hs'
    · have haf : af = false := by
        rcases haf2 : af
        · rfl
        · rw [h1] at he
          exact absurd he (hnotkey_ask haf2 ask')
      have hq' : askQ' = askId :: askTail := by
        rw [haq, haf]
        simp only [Bool.false_eq_true, if_false]
      rw [h1]
      refine ⟨?_, ?_, ?_⟩
      · show ask'.id = askId
        rw [hask'.1]
        exact hask_id
      · intro hs
        have hs' : ask'.side = Side.Buy := hs
        have ha' : ask'.side = Side.Sell := by
          rw [hask'.2.1]
          exact hask_side
        rw [ha'] at hs'
        exact Side.noConfusion hs'
      · intro hs
        refine ⟨askQ', ?_, ?_⟩
        · show ((ask'.price : Nat), askQ') ∈ asks'
          have hp : ask'.price = askPrice := by
            rw [hask'.2.2.1]
            exact hask_price
          rw [hp, hasks_of_af haf, ← hq']
          exact List.mem_cons_self _ _
        · show askId ∈ askQ'
          rw [hq']
          exact List.mem_cons_self _ _
    · rcases h.storeOwned e h1 with ⟨hid, hbuyL, hsellL⟩
      refine ⟨hid, ?_, ?_⟩
      · intro hs
        rcases hbuyL hs with ⟨q1, hq1, hm1⟩
        rcases List.mem_cons.mp hq1 with hq1h | hq1t
        · have hpp : e.2.price = bidPrice := congrArg Prod.fst hq1h
          have hqq : q1 = bidId :: bidTail := congrArg Prod.snd hq1h
          have hmt : e.1 ∈ bidTail := by
            rw [hqq] at hm1
            rcases List.mem_cons.mp hm1 with hh | hh
            · exact absurd hh h2
            · exact hh
          have hmQ : e.1 ∈ bidQ' := htailQb e.1 hmt
          refine ⟨bidQ', ?_, hmQ⟩
          rw [hbids, if_neg (List.ne_nil_of_mem hmQ), hpp]
          exact List.mem_cons_self _ _
        · refine ⟨q1, ?_, hm1⟩
          rw [hbids]
          by_cases hq : bidQ' = []
          · rw [if_pos hq]
            exact hq1t
          · rw [if_neg hq]
            exact List.mem_cons_of_mem _ hq1t
      · intro hs
        rcases hsellL hs with ⟨q1, hq1, hm1⟩
        rcases List.mem_cons.mp hq1 with hq1h | hq1t
        · have hpp : e.2.price = askPrice := congrArg Prod.fst hq1h
          have hqq : q1 = askId :: askTail := congrArg Prod.snd hq1h
          have hmt : e.1 ∈ askTail := by
            rw [hqq] at hm1
            rcases List.mem_cons.mp hm1 with hh | hh
            · exact absurd hh h3
            · exact hh
          have hmQ : e.1 ∈ askQ' := htailQa e.1 hmt
          refine ⟨askQ', ?_, hmQ⟩
          rw [hasks, if_neg (List.ne_nil_of_mem hmQ), hpp]
          exact List.mem_cons_self _ _
        · refine ⟨q1, ?_, hm1⟩
          rw [hasks]
          by_cases hq : askQ' = []
          · rw [if_pos hq]
            exact hq1t
          · rw [if_neg hq]
            exact List.mem_cons_of_mem _ hq1t
  · intro e he hfak
    rcases helim e he with h1 | h1 | ⟨h1, h2, h3⟩
    · have hbf : bf = false := by
        rcases hbf2 : bf
        · rfl
        · rw [h1] at he
          exact absurd he (hnotkey_bid hbf2 bid')
      left
      refine ⟨bidPrice, bidTail, restBids, ?_⟩
      show bids' = (bidPrice, e.1 :: bidTail) :: restBids
      rw [h1]
      exact hbids_of_bf hbf
    · have haf : af = false := by
        rcases haf2 : af
        · rfl
        · rw [h1] at he
          exact absurd he (hnotkey_ask haf2 ask')
      right
      refine ⟨askPrice, askTail, restAsks, ?_⟩
      show asks' = (askPrice, e.1 :: askTail) :: restAsks
      rw [h1]
      exact hasks_of_af haf
    · rcases h.fakHead e h1 hfak with ⟨p, t, rest, hEq⟩ | ⟨p, t, rest, hEq⟩
      · have hEq' : (bidPrice, bidId :: bidTail) :: restBids = (p, e.1 :: t) :: rest :=
          hEq
        have hhead : (bidPrice, bidId :: bidTail) = (p, e.1 :: t) := by
          injection hEq'
        have hqh : bidId :: bidTail = e.1 :: t := congrArg Prod.snd hhead
        have : bidId = e.1 := by injection hqh
        exact absurd this.symm h2
      · have hEq' : (askPrice, askId :: askTail) :: restAsks = (p, e.1 :: t) :: rest :=
          hEq
        have hhead : (askPrice, askId :: askTail) = (p, e.1 :: t) := by
          injection hEq'
        have hqh : askId :: askTail = e.1 :: t := congrArg Prod.snd hhead
        have : askId = e.1 := by injection hqh
        exact absurd this.symm h3

theorem levelsMeasure_eq_zero {l : Levels} (h : levelsMeasure l = 0) : l = [] := by
  rcases l with _ | ⟨e, rest⟩
  · rfl
  · simp [levelsMeasure] at h

/-- Running the match loop from a loop-invariant state yields a loop-invariant
state in which no crossing remains, provided the fuel exceeds the measure
bound n (matchLoop always supplies such fuel). -/
theorem matchLoopF_inv (n : Nat) : ∀ (fuel : Nat) (b : Book) (trades : Trades),
    levelsMeasure b.bids + levelsMeasure b.asks ≤ n → n < fuel → LoopInv b →
    LoopInv (matchLoopF fuel b trades).2 ∧ ExitShape (matchLoopF fuel b trades).2 := by
  induction n with
  | zero =>
    intro fuel b trades hm hf h
    obtain ⟨d, bs, as, os⟩ := b
    have hm' : levelsMeasure bs + levelsMeasure as ≤ 0 := hm
    have hbs : bs = [] := levelsMeasure_eq_zero (by omega)
    subst hbs
    rcases fuel with _ | f
    · omega
    · exact ⟨h, Or.inl rfl⟩
  | succ n ih =>
    intro fuel b trades hm hf h
    obtain ⟨d, bs, as, os⟩ := b
    rcases fuel with _ | f
    · omega
    rcases bs with _ | ⟨⟨bp, bq⟩, restB⟩
    · exact ⟨h, Or.inl rfl⟩
    rcases as with _ | ⟨⟨ap, aq⟩, restA⟩
    · exact ⟨h, Or.inr (Or.inl rfl)⟩
    by_cases hlt : bp < ap
    · simp only [matchLoopF]
      rw [if_pos hlt]
      exact ⟨h, Or.inr (Or.inr ⟨bp, bq, restB, ap, aq, restA, rfl, rfl, hlt⟩)⟩
    · rcases bq with _ | ⟨bidId, bidTail⟩
      · exact absurd rfl (h.neB (bp, []) (List.mem_cons_self _ _))
      rcases aq with _ | ⟨askId, askTail⟩
      · exact absurd rfl (h.neA (ap, []) (List.mem_cons_self _ _))
      rcases h.bidsOwned (bp, bidId :: bidTail) (List.mem_cons_self _ _) bidId
        (List.mem_cons_self _ _) with ⟨bid, hlb, _, _, _⟩
      rcases h.asksOwned (ap, askId :: askTail) (List.mem_cons_self _ _) askId
        (List.mem_cons_self _ _) with ⟨ask, hla, _, _, _⟩
      have hlb' : storeLookup os bidId = some bid := hlb
      have hla' : storeLookup os askId = some ask := hla
      have hone : (bid.fill (min bid.remainingQuantity ask.remainingQuantity)).isFilled
          = true ∨
          (ask.fill (min bid.remainingQuantity ask.remainingQuantity)).isFilled
          = true := by
        rcases le_total bid.remainingQuantity ask.remainingQuantity with hle | hle
        · left
          show (bid.remainingQuantity -
            min bid.remainingQuantity ask.remainingQuantity == 0) = true
          rw [min_eq_left hle, Nat.sub_self]
          rfl
        · right
          show (ask.remainingQuantity -
            min bid.remainingQuantity ask.remainingQuantity == 0) = true
          rw [min_eq_right hle, Nat.sub_self]
          rfl
      have hmlt := fillStep_measure_lt bp ap bidId askId bidTail askTail restB restA
        (bid.fill (min bid.remainingQuantity ask.remainingQuantity)).isFilled
        (ask.fill (min bid.remainingQuantity ask.remainingQuantity)).isFilled hone
      have hm' : levelsMeasure ((bp, bidId :: bidTail) :: restB) +
          levelsMeasure ((ap, askId :: askTail) :: restA) ≤ n + 1 := hm
      simp only [matchLoopF]
      rw [if_neg hlt]
      simp only [hlb', hla']
      refine ih f _ _ ?_ ?_ ?_
      · exact Nat.lt_succ_iff.mp (lt_of_lt_of_le hmlt hm')
      · omega
      · refine fillStep_loopInv h hlb hla ?_ ?_ rfl rfl rfl rfl rfl
        · exact ⟨rfl, rfl, rfl, rfl⟩
        · exact ⟨rfl, rfl, rfl, rfl⟩

theorem nocross_of_exit {b : Book} (hs : LoopInv b) (he : ExitShape b) :
    ∀ x ∈ prices b.bids, ∀ y ∈ prices b.asks, x < y := by
  intro x hx y hy
  rcases he with h | h | ⟨bp, bq, br, ap, aq, ar, hB, hA, hlt⟩
  · rw [h] at hx
    simp [prices] at hx
  · rw [h] at hy
    simp [prices] at hy
  · have hsB := hs.sortedB
    have hsA := hs.sortedA
    rw [hB] at hsB hx
    rw [hA] at hsA hy
    rw [prices_cons] at hsB hx hsA hy
    have h1 : x ≤ bp := le_head_of_pairwise_desc hsB hx
    have h2 : ap ≤ y := head_le_of_pairwise_asc hsA hy
    omega

theorem key_ne_of_mem_storeErase {oid : Nat} {os : OrderStore}
    (hnd : (os.map Prod.fst).Nodup) {e : Nat × Order} (he : e ∈ storeErase oid os) :
    ¬ e.1 = oid := by
  intro heq
  have hkey : e.1 ∈ (os.map Prod.fst).erase oid := by
    rw [← keys_storeErase]
    exact List.mem_map.mpr ⟨e, he, rfl⟩
  exact ((hnd.mem_erase_iff).mp hkey).1 heq

/-- The FillAndKill post-pass on the bid side (Orderbook.cpp lines 264-269)
keeps the structural core and the no-crossing property, and leaves at most
ask-side head FillAndKill orders in the store. -/
theorem bidPass_inv (b1 B2 : Book)
    (hB2 : B2 = (match b1.bids with
      | (_, oid :: _) :: _ =>
        match storeLookup b1.orders oid with
        | some o =>
          if o.orderType = OrderType.FillAndKill then CancelOrderInternal b1 oid else b1
        | none => b1
      | _ => b1))
    (h1 : LoopInv b1) (hnc : ∀ x ∈ prices b1.bids, ∀ y ∈ prices b1.asks, x < y) :
    CoreInv B2 ∧ (∀ x ∈ prices B2.bids, ∀ y ∈ prices B2.asks, x < y) ∧
      (∀ e ∈ B2.orders, e.2.orderType = OrderType.FillAndKill →
        ∃ p t rest, B2.asks = (p, e.1 :: t) :: rest) := by
  obtain ⟨d1, bs1, as1, os1⟩ := b1
  rcases bs1 with _ | ⟨⟨p0, q0⟩, r0⟩
  · have hB2' : B2 = ⟨d1, [], as1, os1⟩ := hB2
    subst hB2'
    refine ⟨h1.toCoreInv, hnc, ?_⟩
    intro e he hf
    rcases h1.fakHead e he hf with ⟨p, t, rest, hEq⟩ | ⟨p, t, rest, hEq⟩
    · exact absurd hEq (List.noConfusion)
    · exact ⟨p, t, rest, hEq⟩
  rcases q0 with _ | ⟨oid0, t0⟩
  · exact absurd rfl (h1.neB (p0, []) (List.mem_cons_self _ _))
  rcases h1.bidsOwned (p0, oid0 :: t0) (List.mem_cons_self _ _) oid0
    (List.mem_cons_self _ _) with ⟨v, hv, hvid, hvside, hvprice⟩
  have hv' : List.lookup oid0 os1 = some v := hv
  have hB2' : B2 = (match storeLookup os1 oid0 with
      | some o =>
        if o.orderType = OrderType.FillAndKill then
          CancelOrderInternal ⟨d1, (p0, oid0 :: t0) :: r0, as1, os1⟩ oid0
        else ⟨d1, (p0, oid0 :: t0) :: r0, as1, os1⟩
      | none => ⟨d1, (p0, oid0 :: t0) :: r0, as1, os1⟩) := hB2
  rcases hlook : storeLookup os1 oid0 with _ | o0
  · exact absurd (show List.lookup oid0 os1 = none from hlook)
      (by rw [hv']; exact fun hh => Option.noConfusion hh)
  rw [hlook] at hB2'
  have hov : o0 = v := by
    have hl2 : List.lookup oid0 os1 = some o0 := hlook
    rw [hv'] at hl2
    exact (Option.some.injEq _ _ ▸ hl2).symm
  have hB2i : B2 = (if o0.orderType = OrderType.FillAndKill then
      CancelOrderInternal ⟨d1, (p0, oid0 :: t0) :: r0, as1, os1⟩ oid0
    else ⟨d1, (p0, oid0 :: t0) :: r0, as1, os1⟩) := hB2'
  by_cases hfak : o0.orderType = OrderType.FillAndKill
  · rw [if_pos hfak] at hB2i
    have hside : ¬ o0.side = Side.Sell := by
      rw [hov, hvside]
      intro hh
      exact Side.noConfusion hh
    have hshape : CancelOrderInternal ⟨d1, (p0, oid0 :: t0) :: r0, as1, os1⟩ oid0 =
        ⟨UpdateLevelData o0.price o0.remainingQuantity LevelAction.Remove d1,
          levelsErase o0.price oid0 ((p0, oid0 :: t0) :: r0), as1,
          storeErase oid0 os1⟩ := by
      simp only [CancelOrderInternal, hlook, if_neg hside]
    rw [hshape] at hB2i
    subst hB2i
    refine ⟨?_, ?_, ?_⟩
    · have hcc := @CancelOrderInternal_core ⟨d1, (p0, oid0 :: t0) :: r0, as1, os1⟩
        oid0 h1.toCoreInv
      rw [hshape] at hcc
      exact hcc
    · intro x hx y hy
      exact hnc x ((prices_levelsErase_sublist _ _ _).subset hx) y hy
    · intro e he hf
      have hne0 : ¬ e.1 = oid0 := key_ne_of_mem_storeErase h1.keysNodup he
      rcases h1.fakHead e (storeErase_mem he) hf with ⟨p, t, rest, hEq⟩ | ⟨p, t, rest, hEq⟩
      · have hEq' : (p0, oid0 :: t0) :: r0 = (p, e.1 :: t) :: rest := hEq
        have hhead : (p0, oid0 :: t0) = (p, e.1 :: t) := by injection hEq'
        have hqh : oid0 :: t0 = e.1 :: t := congrArg Prod.snd hhead
        have : oid0 = e.1 := by injection hqh
        exact absurd this.symm hne0
      · exact ⟨p, t, rest, hEq⟩
  · rw [if_neg hfak] at hB2i
    subst hB2i
    refine ⟨h1.toCoreInv, hnc, ?_⟩
    intro e he hf
    rcases h1.fakHead e he hf with ⟨p, t, rest, hEq⟩ | ⟨p, t, rest, hEq⟩
    · have hEq' : (p0, oid0 :: t0) :: r0 = (p, e.1 :: t) :: rest := hEq
      have hhead : (p0, oid0 :: t0) = (p, e.1 :: t) := by injection hEq'
      have hqh : oid0 :: t0 = e.1 :: t := congrArg Prod.snd hhead
      have hoe : oid0 = e.1 := by injection hqh
      have hmem : List.lookup e.1 os1 = some e.2 := lookup_of_mem_nodup h1.keysNodup he
      have : e.2 = o0 := by
        rw [← hoe] at hmem
        have hlook' : List.lookup oid0 os1 = some o0 := hlook
        rw [hlook'] at hmem
        exact Option.some.injEq _ _ ▸ hmem.symm
      exact absurd (this ▸ hf) hfak
    · exact ⟨p, t, rest, hEq⟩

/-- The FillAndKill post-pass on the ask side (Orderbook.cpp lines 271-276)
turns the bid-pass state into the full inter-call invariant: after it, no
FillAndKill order rests anywhere in the store. -/
theorem askPass_SInv (b2 b3 : Book)
    (hb3 : b3 = (match b2.asks with
      | (_, oid :: _) :: _ =>
        match storeLookup b2.orders oid with
        | some o =>
          if o.orderType = OrderType.FillAndKill then CancelOrderInternal b2 oid else b2
        | none => b2
      | _ => b2))
    (h2 : CoreInv b2) (hnc : ∀ x ∈ prices b2.bids, ∀ y ∈ prices b2.asks, x < y)
    (hfa : ∀ e ∈ b2.orders, e.2.orderType = OrderType.FillAndKill →
      ∃ p t rest, b2.asks = (p, e.1 :: t) :: rest) :
    SInv b3 := by
  obtain ⟨d2, bs2, as2, os2⟩ := b2
  rcases as2 with _ | ⟨⟨p0, q0⟩, r0⟩
  · have hb3' : b3 = ⟨d2, bs2, [], os2⟩ := hb3
    subst hb3'
    refine ⟨h2, hnc, ?_⟩
    intro e he hf
    rcases hfa e he hf with ⟨p, t, rest, hEq⟩
    exact absurd hEq (List.noConfusion)
  rcases q0 with _ | ⟨oid0, t0⟩
  · exact absurd rfl (h2.neA (p0, []) (List.mem_cons_self _ _))
  rcases h2.asksOwned (p0, oid0 :: t0) (List.mem_cons_self _ _) oid0
    (List.mem_cons_self _ _) with ⟨v, hv, hvid, hvside, hvprice⟩
  have hv' : List.lookup oid0 os2 = some v := hv
  have hb3' : b3 = (match storeLookup os2 oid0 with
      | some o =>
        if o.orderType = OrderType.FillAndKill then
          CancelOrderInternal ⟨d2, bs2, (p0, oid0 :: t0) :: r0, os2⟩ oid0
        else ⟨d2, bs2, (p0, oid0 :: t0) :: r0, os2⟩
      | none => ⟨d2, bs2, (p0, oid0 :: t0) :: r0, os2⟩) := hb3
  rcases hlook : storeLookup os2 oid0 with _ | o0
  · exact absurd (show List.lookup oid0 os2 = none from hlook)
      (by rw [hv']; exact fun hh => Option.noConfusion hh)
  rw [hlook] at hb3'
  have hov : o0 = v := by
    have hl2 : List.lookup oid0 os2 = some o0 := hlook
    rw [hv'] at hl2
    exact (Option.some.injEq _ _ ▸ hl2).symm
  have hb3i : b3 = (if o0.orderType = OrderType.FillAndKill then
      CancelOrderInternal ⟨d2, bs2, (p0, oid0 :: t0) :: r0, os2⟩ oid0
    else ⟨d2, bs2, (p0, oid0 :: t0) :: r0, os2⟩) := hb3'
  by_cases hfak : o0.orderType = OrderType.FillAndKill
  · rw [if_pos hfak] at hb3i
    have hside : o0.side = Side.Sell := by rw [hov, hvside]
    have hshape : CancelOrderInternal ⟨d2, bs2, (p0, oid0 :: t0) :: r0, os2⟩ oid0 =
        ⟨UpdateLevelData o0.price o0.remainingQuantity LevelAction.Remove d2,
          bs2, levelsErase o0.price oid0 ((p0, oid0 :: t0) :: r0),
          storeErase oid0 os2⟩ := by
      simp only [CancelOrderInternal, hlook, if_pos hside]
    rw [hshape] at hb3i
    subst hb3i
    refine ⟨?_, ?_, ?_⟩
    · have hcc := @CancelOrderInternal_core ⟨d2, bs2, (p0, oid0 :: t0) :: r0, os2⟩
        oid0 h2
      rw [hshape] at hcc
      exact hcc
    · intro x hx y hy
      exact hnc x hx y ((prices_levelsErase_sublist _ _ _).subset hy)
    · intro e he hf
      have hne0 : ¬ e.1 = oid0 := key_ne_of_mem_storeErase h2.keysNodup he
      rcases hfa e (storeErase_mem he) hf with ⟨p, t, rest, hEq⟩
      have hEq' : (p0, oid0 :: t0) :: r0 = (p, e.1 :: t) :: rest := hEq
      have hhead : (p0, oid0 :: t0) = (p, e.1 :: t) := by injection hEq'
      have hqh : oid0 :: t0 = e.1 :: t := congrArg Prod.snd hhead
      have : oid0 = e.1 := by injection hqh
      exact absurd this.symm hne0
  · rw [if_neg hfak] at hb3i
    subst hb3i
    refine ⟨h2, hnc, ?_⟩
    intro e he hf
    rcases hfa e he hf with ⟨p, t, rest, hEq⟩
    have hEq' : (p0, oid0 :: t0) :: r0 = (p, e.1 :: t) :: rest := hEq
    have hhead : (p0, oid0 :: t0) = (p, e.1 :: t) := by injection hEq'
    have hqh : oid0 :: t0 = e.1 :: t := congrArg Prod.snd hhead
    have hoe : oid0 = e.1 := by injection hqh
    have hmem : List.lookup e.1 os2 = some e.2 := lookup_of_mem_nodup h2.keysNodup he
    have : e.2 = o0 := by
      rw [← hoe] at hmem
      have hlook' : List.lookup oid0 os2 = some o0 := hlook
      rw [hlook'] at hmem
      exact Option.some.injEq _ _ ▸ hmem.symm
    exact absurd (this ▸ hf) hfak

/-- Orderbook::MatchOrders started in a loop-invariant state ends in the full
inter-call invariant: the loop preserves the core, its exit leaves no
crossing, and the two FillAndKill post-passes remove every resting
FillAndKill order. -/
theorem MatchOrders_SInv {b : Book} (h : LoopInv b) : SInv (MatchOrders b).2 := by
  obtain ⟨h1, hexit⟩ := matchLoopF_inv (levelsMeasure b.bids + levelsMeasure b.asks)
    (matchFuel b) b [] le_rfl (by rw [matchFuel]; omega) h
  have hnc1 := nocross_of_exit h1 hexit
  obtain ⟨hc2, hn2, hf2⟩ := bidPass_inv (matchLoopF (matchFuel b) b []).2 _ rfl h1 hnc1
  exact askPass_SInv _ _ rfl hc2 hn2 hf2

/-- Inserting a fresh buy order into the bid map (Orderbook.cpp lines 315-327)
establishes the loop invariant: the fresh id is appended to its level queue
and to orders_, and a FillAndKill order (which passed the CanMatch guard)
lands at the front of the bid map, above every resting bid. -/
theorem insert_loopInv_buy {b : Book} {d' : DataMap} {o : Order} (h : SInv b)
    (hside : o.side = Side.Buy)
    (hfresh : List.lookup o.id b.orders = none)
    (hfak : o.orderType = OrderType.FillAndKill →
      CanMatch b o.side o.price = true) :
    LoopInv ⟨d', levelsAppend (fun x y => decide (y < x)) o.price o.id b.bids,
      b.asks, b.orders ++ [(o.id, o)]⟩ := by
  have hnotin : o.id ∉ b.orders.map Prod.fst := not_mem_keys_of_lookup_none hfresh
  refine ⟨⟨sorted_levelsAppend_desc h.sortedB, h.sortedA,
    ne_levelsAppend _ _ _ _ h.neB, h.neA, ?_, ?_, ?_, ?_, ?_⟩, ?_⟩
  · simp only [List.map_append, List.map_cons, List.map_nil]
    refine h.keysNodup.append (List.nodup_singleton _) ?_
    intro a ha hb
    rw [List.mem_singleton] at hb
    exact hnotin (hb ▸ ha)
  · simp only [List.map_append, List.map_cons, List.map_nil]
    have h1 : (b.orders.map Prod.fst ++ [o.id]).Perm (o.id :: b.orders.map Prod.fst) :=
      List.perm_append_singleton _ _
    have h2 : (o.id :: b.orders.map Prod.fst).Perm
        (o.id :: (allIds b.bids ++ allIds b.asks)) := h.keysPerm.cons o.id
    have h3 : ((o.id :: allIds b.bids) ++ allIds b.asks).Perm
        (allIds (levelsAppend (fun x y => decide (y < x)) o.price o.id b.bids) ++
          allIds b.asks) :=
      List.Perm.append_right _ (allIds_levelsAppend _ _ _ _).symm
    exact (h1.trans h2).trans h3
  · intro e he oid' ho
    rcases mem_levelsAppend he with ⟨q, hq1, hq2⟩ | h1 | h1
    · rw [hq1] at ho ⊢
      rcases List.mem_append.mp ho with hoq | hoq
      · rcases h.bidsOwned (o.price, q) hq2 oid' hoq with ⟨v, hv, hvid, hvside, hvprice⟩
        exact ⟨v, lookup_append_left_some hv, hvid, hvside, hvprice⟩
      · rw [List.mem_singleton] at hoq
        subst hoq
        exact ⟨o, lookup_append_fresh _ _ _ hfresh, rfl, hside, rfl⟩
    · rw [h1] at ho ⊢
      rw [List.mem_singleton] at ho
      subst ho
      exact ⟨o, lookup_append_fresh _ _ _ hfresh, rfl, hside, rfl⟩
    · rcases h.bidsOwned e h1 oid' ho with ⟨v, hv, hvid, hvside, hvprice⟩
      exact ⟨v, lookup_append_left_some hv, hvid, hvside, hvprice⟩
  · intro e he oid' ho
    rcases h.asksOwned e he oid' ho with ⟨v, hv, hvid, hvside, hvprice⟩
    exact ⟨v, lookup_append_left_some hv, hvid, hvside, hvprice⟩
  · intro e he
    rcases List.mem_append.mp he with h1 | h1
    · rcases h.storeOwned e h1 with ⟨hid, hbuyL, hsellL⟩
      refine ⟨hid, ?_, hsellL⟩
      intro hs
      rcases hbuyL hs with ⟨q, hq, hm⟩
      rcases levelsAppend_level_superset hq with ⟨q', hq', hsup⟩
      exact ⟨q', hq', hsup _ hm⟩
    · rw [List.mem_singleton] at h1
      subst h1
      refine ⟨rfl, ?_, ?_⟩
      · intro hs
        rcases levelsAppend_self_mem (fun x y => decide (y < x)) o.price o.id b.bids
          with ⟨q, hq, hm⟩
        exact ⟨q, hq, hm⟩
      · intro hs
        rw [hside] at hs
        exact absurd hs (fun hh => Side.noConfusion hh)
  · intro e he hf
    rcases List.mem_append.mp he with h1 | h1
    · exact absurd hf (h.noFAKstore e h1)
    · rw [List.mem_singleton] at h1
      subst h1
      have hcm : CanMatch b Side.Buy o.price = true := by
        rw [← hside]
        exact hfak hf
      rcases hasks : b.asks with _ | ⟨⟨ba, qa⟩, ra⟩
      · rw [CanMatch, hasks] at hcm
        exact Bool.noConfusion (show false = true from hcm)
      · rw [CanMatch, hasks] at hcm
        have hba : ba ≤ o.price := of_decide_eq_true hcm
        have hfront : ∀ x ∈ prices b.bids, x < o.price := by
          intro x hx
          refine lt_of_lt_of_le (h.nocross x hx ba ?_) hba
          rw [hasks, prices_cons]
          exact List.mem_cons_self _ _
        left
        refine ⟨o.price, [], b.bids, ?_⟩
        show levelsAppend (fun x y => decide (y < x)) o.price o.id b.bids =
          (o.price, (o.id, o).1 :: []) :: b.bids
        rw [levelsAppend_front_desc hfront]

/-- Inserting a fresh sell order into the ask map: the mirror image of
insert_loopInv_buy. -/
theorem insert_loopInv_sell {b : Book} {d' : DataMap} {o : Order} (h : SInv b)
    (hside : ¬ o.side = Side.Buy)
    (hfresh : List.lookup o.id b.orders = none)
    (hfak : o.orderType = OrderType.FillAndKill →
      CanMatch b o.side o.price = true) :
    LoopInv ⟨d', b.bids,
      levelsAppend (fun x y => decide (x < y)) o.price o.id b.asks,
      b.orders ++ [(o.id, o)]⟩ := by
  have hsell : o.side = Side.Sell := by
    rcases hs : o.side
    · exact absurd hs hside
    · rfl
  have hnotin : o.id ∉ b.orders.map Prod.fst := not_mem_keys_of_lookup_none hfresh
  refine ⟨⟨h.sortedB, sorted_levelsAppend_asc h.sortedA,
    h.neB, ne_levelsAppend _ _ _ _ h.neA, ?_, ?_, ?_, ?_, ?_⟩, ?_⟩
  · simp only [List.map_append, List.map_cons, List.map_nil]
    refine h.keysNodup.append (List.nodup_singleton _) ?_
    intro a ha hb
    rw [List.mem_singleton] at hb
    exact hnotin (hb ▸ ha)
  · simp only [List.map_append, List.map_cons, List.map_nil]
    have h1 : (b.orders.map Prod.fst ++ [o.id]).Perm (o.id :: b.orders.map Prod.fst) :=
      List.perm_append_singleton _ _
    have h2 : (o.id :: b.orders.map Prod.fst).Perm
        (o.id :: (allIds b.bids ++ allIds b.asks)) := h.keysPerm.cons o.id
    have h3 : (o.id :: (allIds b.bids ++ allIds b.asks)).Perm
        (allIds b.bids ++ (o.id :: allIds b.asks)) := List.perm_middle.symm
    have h4 : (allIds b.bids ++ (o.id :: allIds b.asks)).Perm
        (allIds b.bids ++ allIds (levelsAppend (fun x y => decide (x < y))
          o.price o.id b.asks)) :=
      List.Perm.append_left _ (allIds_levelsAppend _ _ _ _).symm
    exact ((h1.trans h2).trans h3).trans h4
  · intro e he oid' ho
    rcases h.bidsOwned e he oid' ho with ⟨v, hv, hvid, hvside, hvprice⟩
    exact ⟨v, lookup_append_left_some hv, hvid, hvside, hvprice⟩
  · intro e he oid' ho
    rcases mem_levelsAppend he with ⟨q, hq1, hq2⟩ | h1 | h1
    · rw [hq1] at ho ⊢
      rcases List.mem_append.mp ho with hoq | hoq
      · rcases h.asksOwned (o.price, q) hq2 oid' hoq with ⟨v, hv, hvid, hvside, hvprice⟩
        exact ⟨v, lookup_append_left_some hv, hvid, hvside, hvprice⟩
      · rw [List.mem_singleton] at hoq
        subst hoq
        exact ⟨o, lookup_append_fresh _ _ _ hfresh, rfl, hsell, rfl⟩
    · rw [h1] at ho ⊢
      rw [List.mem_singleton] at ho
      subst ho
      exact ⟨o, lookup_append_fresh _ _ _ hfresh, rfl, hsell, rfl⟩
    · rcases h.asksOwned e h1 oid' ho with ⟨v, hv, hvid, hvside, hvprice⟩
      exact ⟨v, lookup_append_left_some hv, hvid, hvside, hvprice⟩
  · intro e he
    rcases List.mem_append.mp he with h1 | h1
    · rcases h.storeOwned e h1 with ⟨hid, hbuyL, hsellL⟩
      refine ⟨hid, hbuyL, ?_⟩
      intro hs
      rcases hsellL hs with ⟨q, hq, hm⟩
      rcases levelsAppend_level_superset hq with ⟨q', hq', hsup⟩
      exact ⟨q', hq', hsup _ hm⟩
    · rw [List.mem_singleton] at h1
      subst h1
      refine ⟨rfl, ?_, ?_⟩
      · intro hs
        rw [hsell] at hs
        exact absurd hs (fun hh => Side.noConfusion hh)
      · intro hs
        rcases levelsAppend_self_mem (fun x y => decide (x < y)) o.price o.id b.asks
          with ⟨q, hq, hm⟩
        exact ⟨q, hq, hm⟩
  · intro e he hf
    rcases List.mem_append.mp he with h1 | h1
    · exact absurd hf (h.noFAKstore e h1)
    · rw [List.mem_singleton] at h1
      subst h1
      have hcm : CanMatch b Side.Sell o.price = true := by
        rw [← hsell]
        exact hfak hf
      rcases hbids : b.bids with _ | ⟨⟨bb, qb⟩, rb⟩
      · rw [CanMatch, hbids] at hcm
        exact Bool.noConfusion (show false = true from hcm)
      · rw [CanMatch, hbids] at hcm
        have hbb : o.price ≤ bb := of_decide_eq_true hcm
        have hfront : ∀ y ∈ prices b.asks, o.price < y := by
          intro y hy
          refine lt_of_le_of_lt hbb (h.nocross bb ?_ y hy)
          rw [hbids, prices_cons]
          exact List.mem_cons_self _ _
        right
        refine ⟨o.price, [], b.asks, ?_⟩
        show levelsAppend (fun x y => decide (x < y)) o.price o.id b.asks =
          (o.price, (o.id, o).1 :: []) :: b.asks
        rw [levelsAppend_front_asc hfront]

/-- Orderbook::AddOrder preserves the inter-call invariant: the silent-failure
guards leave the book unchanged, and every admitted order is inserted fresh
(establishing the loop invariant) and then matched, after which the
FillAndKill post-passes restore the full invariant. -/
theorem AddOrder_SInv {b : Book} (h : SInv b) (o : Order) : SInv (AddOrder b o).2 := by
  obtain ⟨ot, oid, osd, opr, oiq, orq⟩ := o
  by_cases hdup : (storeLookup b.orders oid).isSome = true
  · have heq : AddOrder b ⟨ot, oid, osd, opr, oiq, orq⟩ = ([], b) := by
      simp [AddOrder, hdup]
    rw [heq]
    exact h
  · have hdup' : (storeLookup b.orders oid).isSome = false := by
      rcases hx : (storeLookup b.orders oid).isSome
      · rfl
      · exact absurd hx hdup
    have hfresh : List.lookup oid b.orders = none := by
      rcases hx : storeLookup b.orders oid with _ | v
      · exact hx
      · rw [hx] at hdup'
        exact Bool.noConfusion hdup'
    by_cases hfakg : ot = OrderType.FillAndKill ∧ CanMatch b osd opr = false
    · have heq : AddOrder b ⟨ot, oid, osd, opr, oiq, orq⟩ = ([], b) := by
        simp [AddOrder, hfakg.1, hfakg.2]
      rw [heq]
      exact h
    · have hfakImp : ot = OrderType.FillAndKill → CanMatch b osd opr = true := by
        intro hF
        rcases hcm : CanMatch b osd opr
        · exact absurd ⟨hF, hcm⟩ hfakg
        · rfl
      by_cases hmkt : ot = OrderType.Market
      · subst hmkt
        rcases osd
        · rcases hgl : b.asks.getLast? with _ | ⟨⟨wa, wq⟩⟩
          · have heq : AddOrder b ⟨OrderType.Market, oid, Side.Buy, opr, oiq, orq⟩ =
                ([], b) := by
              simp [AddOrder, hdup', hfakg, hgl]
            rw [heq]
            exact h
          · have heq : AddOrder b ⟨OrderType.Market, oid, Side.Buy, opr, oiq, orq⟩ =
                MatchOrders
                  ⟨UpdateLevelData wa oiq LevelAction.Add b.data,
                    levelsAppend (fun x y => decide (y < x)) wa oid b.bids,
                    b.asks,
                    b.orders ++ [(oid, ⟨OrderType.GoodTillCancel, oid, Side.Buy, wa,
                      oiq, orq⟩)]⟩ := by
              simp [AddOrder, hdup', hfakg, hgl, Order.toGoodTillCancel]
            rw [heq]
            exact MatchOrders_SInv (@insert_loopInv_buy b
              (UpdateLevelData wa oiq LevelAction.Add b.data)
              ⟨OrderType.GoodTillCancel, oid, Side.Buy, wa, oiq, orq⟩ h rfl hfresh
              (fun hF => OrderType.noConfusion hF))
        · rcases hgl : b.bids.getLast? with _ | ⟨⟨wb, wq⟩⟩
          · have heq : AddOrder b ⟨OrderType.Market, oid, Side.Sell, opr, oiq, orq⟩ =
                ([], b) := by
              simp [AddOrder, hdup', hfakg, hgl]
            rw [heq]
            exact h
          · have heq : AddOrder b ⟨OrderType.Market, oid, Side.Sell, opr, oiq, orq⟩ =
                MatchOrders
                  ⟨UpdateLevelData wb oiq LevelAction.Add b.data,
                    b.bids,
                    levelsAppend (fun x y => decide (x < y)) wb oid b.asks,
                    b.orders ++ [(oid, ⟨OrderType.GoodTillCancel, oid, Side.Sell, wb,
                      oiq, orq⟩)]⟩ := by
              simp [AddOrder, hdup', hfakg, hgl, Order.toGoodTillCancel]
            rw [heq]
            exact MatchOrders_SInv (@insert_loopInv_sell b
              (UpdateLevelData wb oiq LevelAction.Add b.data)
              ⟨OrderType.GoodTillCancel, oid, Side.Sell, wb, oiq, orq⟩ h
              (fun hh => Side.noConfusion hh) hfresh
              (fun hF => OrderType.noConfusion hF))
      · by_cases hfokc : ot = OrderType.FillOrKill ∧
            CanFullyFill b osd opr oiq = false
        · have heq : AddOrder b ⟨ot, oid, osd, opr, oiq, orq⟩ = ([], b) := by
            simp [AddOrder, hdup', hfakg, hmkt, hfokc.1, hfokc.2]
          rw [heq]
          exact h
        · rcases osd
          · have heq : AddOrder b ⟨ot, oid, Side.Buy, opr, oiq, orq⟩ =
                MatchOrders
                  ⟨UpdateLevelData opr oiq LevelAction.Add b.data,
                    levelsAppend (fun x y => decide (y < x)) opr oid b.bids,
                    b.asks,
                    b.orders ++ [(oid, ⟨ot, oid, Side.Buy, opr, oiq, orq⟩)]⟩ := by
              simp [AddOrder, hdup', hfakg, hmkt, hfokc]
            rw [heq]
            exact MatchOrders_SInv (@insert_loopInv_buy b
              (UpdateLevelData opr oiq LevelAction.Add b.data)
              ⟨ot, oid, Side.Buy, opr, oiq, orq⟩ h rfl hfresh hfakImp)
          · have heq : AddOrder b ⟨ot, oid, Side.Sell, opr, oiq, orq⟩ =
                MatchOrders
                  ⟨UpdateLevelData opr oiq LevelAction.Add b.data,
                    b.bids,
                    levelsAppend (fun x y => decide (x < y)) opr oid b.asks,
                    b.orders ++ [(oid, ⟨ot, oid, Side.Sell, opr, oiq, orq⟩)]⟩ := by
              simp [AddOrder, hdup', hfakg, hmkt, hfokc]
            rw [heq]
            exact MatchOrders_SInv (@insert_loopInv_sell b
              (UpdateLevelData opr oiq LevelAction.Add b.data)
              ⟨ot, oid, Side.Sell, opr, oiq, orq⟩ h
              (fun hh => Side.noConfusion hh) hfresh hfakImp)

/-- Orderbook::CancelOrderInternal preserves the full inter-call invariant:
the core is preserved, the surviving prices are a subset of the old ones (so
no crossing appears), and the surviving store entries are a subset of the old
ones (so no FillAndKill appears). -/
theorem CancelOrderInternal_SInv {b : Book} (h : SInv b) (oid : Nat) :
    SInv (CancelOrderInternal b oid) := by
  rcases hl : storeLookup b.orders oid with _ | order
  · have heq : CancelOrderInternal b oid = b := by simp [CancelOrderInternal, hl]
    rw [heq]
    exact h
  · have hcore := @CancelOrderInternal_core b oid h.toCoreInv
    by_cases hside : order.side = Side.Sell
    · have heq : CancelOrderInternal b oid =
          ⟨UpdateLevelData order.price order.remainingQuantity LevelAction.Remove b.data,
            b.bids, levelsErase order.price oid b.asks, storeErase oid b.orders⟩ := by
        simp [CancelOrderInternal, hl, hside]
      rw [heq] at hcore
      rw [heq]
      refine ⟨hcore, ?_, ?_⟩
      · intro x hx y hy
        exact h.nocross x hx y ((prices_levelsErase_sublist _ _ _).subset hy)
      · intro e he
        exact h.noFAKstore e (storeErase_mem he)
    · have heq : CancelOrderInternal b oid =
          ⟨UpdateLevelData order.price order.remainingQuantity LevelAction.Remove b.data,
            levelsErase order.price oid b.bids, b.asks, storeErase oid b.orders⟩ := by
        simp [CancelOrderInternal, hl, hside]
      rw [heq] at hcore
      rw [heq]
      refine ⟨hcore, ?_, ?_⟩
      · intro x hx y hy
        exact h.nocross x ((prices_levelsErase_sublist _ _ _).subset hx) y hy
      · intro e he
        exact h.noFAKstore e (storeErase_mem he)

theorem ModifyOrder_SInv {b : Book} (h : SInv b) (m : OrderModify) :
    SInv (ModifyOrder b m).2 := by
  rcases hl : storeLookup b.orders m.orderId with _ | existing
  · have heq : ModifyOrder b m = ([], b) := by simp [ModifyOrder, hl]
    rw [heq]
    exact h
  · have heq : ModifyOrder b m =
        AddOrder (CancelOrder b m.orderId) (m.toOrderPointer existing.orderType) := by
      simp [ModifyOrder, hl]
    rw [heq]
    exact AddOrder_SInv (CancelOrderInternal_SInv h m.orderId) _

theorem SInv_emptyBook : SInv emptyBook := by
  refine ⟨⟨?_, ?_, ?_, ?_, ?_, ?_, ?_, ?_, ?_⟩, ?_, ?_⟩ <;>
    simp [emptyBook, prices, allIds]

theorem applyOp_SInv {b : Book} (h : SInv b) (op : BookOp) : SInv (applyOp b op) := by
  rcases op with ⟨t, oid, s, p, q⟩ | oid | m
  · exact AddOrder_SInv h _
  · exact CancelOrderInternal_SInv h oid
  · exact ModifyOrder_SInv h m

theorem foldl_SInv (ops : List BookOp) : ∀ b : Book, SInv b →
    SInv (ops.foldl applyOp b) := by
  induction ops with
  | nil => intro b h; exact h
  | cons op rest ih =>
    intro b h
    exact ih (applyOp b op) (applyOp_SInv h op)

/-- Every reachable book state satisfies the full inter-call invariant. -/
theorem Reachable_SInv {b : Book} (h : Reachable b) : SInv b := by
  rcases h with ⟨ops, hops⟩
  rw [← hops]
  exact foldl_SInv ops emptyBook SInv_emptyBook

/-- C6: FillAndKill never rests.  In every reachable book state no resting
order in orders_ has type FillAndKill (the post-pass of MatchOrders cancels
any head-of-best FillAndKill before AddOrder returns, and a FillAndKill
inserted by AddOrder always sits at the head of the best level of its side
when the loop exits).  Moreover the claim's own scenario holds: with resting
order #1 Sell @101 q2, adding #2 Buy @101 q5 FillAndKill yields exactly one
trade of quantity 2 and leaves orders_, bids_ and asks_ all empty — the
remainder of #2 is cancelled rather than rested.  (The cancellation's
UpdateLevelData leaves a stale wrapped aggregate at price 101 in data_,
an artefact of the separate C1 bug, outside this claim.) -/
theorem claim_C6_fak_never_rests :
    (∀ b, Reachable b → ∀ e ∈ b.orders, e.2.orderType ≠ OrderType.FillAndKill) ∧
    (AddOrder (runOps [.add .GoodTillCancel 1 .Sell 101 2])
        (mkOrder .FillAndKill 2 .Buy 101 5)).1 =
      [⟨⟨2, 101, 2⟩, ⟨1, 101, 2⟩⟩] ∧
    (AddOrder (runOps [.add .GoodTillCancel 1 .Sell 101 2])
        (mkOrder .FillAndKill 2 .Buy 101 5)).2.orders = [] ∧
    (AddOrder (runOps [.add .GoodTillCancel 1 .Sell 101 2])
        (mkOrder .FillAndKill 2 .Buy 101 5)).2.bids = [] ∧
    (AddOrder (runOps [.add .GoodTillCancel 1 .Sell 101 2])
        (mkOrder .FillAndKill 2 .Buy 101 5)).2.asks = [] := by
  refine ⟨?_, by decide, by decide, by decide, by decide⟩
  intro b hr e he
  exact (Reachable_SInv hr).noFAKstore e he

/-- C6 witness: the universally quantified part applied to the concrete
reachable state holding the single resting sell #1 @101 q2 and to its store
entry. -/
theorem claim_C6_witness :
    Reachable (runOps [.add .GoodTillCancel 1 .Sell 101 2]) ∧
    ((1 : Nat), mkOrder .GoodTillCancel 1 .Sell 101 2).2.orderType ≠
      OrderType.FillAndKill :=
  ⟨⟨[.add .GoodTillCancel 1 .Sell 101 2], rfl⟩,
    claim_C6_fak_never_rests.1 (runOps [.add .GoodTillCancel 1 .Sell 101 2])
      ⟨[.add .GoodTillCancel 1 .Sell 101 2], rfl⟩
      ((1 : Nat), mkOrder .GoodTillCancel 1 .Sell 101 2) (by decide)⟩

/-- C8: index consistency.  In every reachable book state, every entry of
orders_ stores the order object under its own id (dereferencing the handle
and the pointer reach the same object), that order's side and price locate it
in a queue of the matching side map, and its id occurs at exactly one
position across all queues of both side maps (count one in the concatenated
queue contents). -/
theorem claim_C8_index_consistency :
    ∀ b, Reachable b → ∀ e ∈ b.orders,
      e.2.id = e.1 ∧
      (e.2.side = Side.Buy → ∃ q, (e.2.price, q) ∈ b.bids ∧ e.1 ∈ q) ∧
      (e.2.side = Side.Sell → ∃ q, (e.2.price, q) ∈ b.asks ∧ e.1 ∈ q) ∧
      (allIds b.bids ++ allIds b.asks).count e.1 = 1 := by
  intro b hr e he
  have hs := Reachable_SInv hr
  rcases hs.storeOwned e he with ⟨hid, hbuy, hsell⟩
  refine ⟨hid, hbuy, hsell, ?_⟩
  have hkey : e.1 ∈ b.orders.map Prod.fst := List.mem_map.mpr ⟨e, he, rfl⟩
  rw [← hs.keysPerm.count_eq]
  exact List.count_eq_one_of_mem hs.keysNodup hkey

/-- C8 witness: the index consistency applied to the concrete reachable
two-sided book {#1 Buy @90 q2, #2 Sell @110 q3} at the entry of order #2. -/
theorem claim_C8_witness :
    Reachable (runOps [.add .GoodTillCancel 1 .Buy 90 2,
      .add .GoodTillCancel 2 .Sell 110 3]) ∧
    (((2 : Nat), mkOrder .GoodTillCancel 2 .Sell 110 3).2.id = 2 ∧
      ((mkOrder .GoodTillCancel 2 .Sell 110 3).side = Side.Buy →
        ∃ q, ((mkOrder .GoodTillCancel 2 .Sell 110 3).price, q) ∈
          (runOps [.add .GoodTillCancel 1 .Buy 90 2,
            .add .GoodTillCancel 2 .Sell 110 3]).bids ∧ (2 : Nat) ∈ q) ∧
      ((mkOrder .GoodTillCancel 2 .Sell 110 3).side = Side.Sell →
        ∃ q, ((mkOrder .GoodTillCancel 2 .Sell 110 3).price, q) ∈
          (runOps [.add .GoodTillCancel 1 .Buy 90 2,
            .add .GoodTillCancel 2 .Sell 110 3]).asks ∧ (2 : Nat) ∈ q) ∧
      (allIds (runOps [.add .GoodTillCancel 1 .Buy 90 2,
          .add .GoodTillCancel 2 .Sell 110 3]).bids ++
        allIds (runOps [.add .GoodTillCancel 1 .Buy 90 2,
          .add .GoodTillCancel 2 .Sell 110 3]).asks).count 2 = 1) :=
  ⟨⟨[.add .GoodTillCancel 1 .Buy 90 2, .add .GoodTillCancel 2 .Sell 110 3], rfl⟩,
    claim_C8_index_consistency
      (runOps [.add .GoodTillCancel 1 .Buy 90 2, .add .GoodTillCancel 2 .Sell 110 3])
      ⟨[.add .GoodTillCancel 1 .Buy 90 2, .add .GoodTillCancel 2 .Sell 110 3], rfl⟩
      ((2 : Nat), mkOrder .GoodTillCancel 2 .Sell 110 3) (by decide)⟩

theorem queueLE_head (x y : Nat) (q : List Nat) : queueLE (x :: q) x y = true := by
  rw [queueLE, if_pos rfl]

theorem queueLE_cons_of_ne {a x y : Nat} (q : List Nat) (hx : ¬ a = x) (hy : ¬ a = y)
    (h : queueLE q x y = true) : queueLE (a :: q) x y = true := by
  rw [queueLE, if_neg hx, if_neg hy]
  exact h

theorem pairwise_imp_mem {α : Type} {R S : α → α → Prop} {l : List α}
    (H : ∀ a ∈ l, ∀ b ∈ l, R a b → S a b) : l.Pairwise R → l.Pairwise S := by
  induction l with
  | nil =>
    intro _
    exact List.Pairwise.nil
  | cons x xs ih =>
    intro hp
    rw [List.pairwise_cons] at hp ⊢
    refine ⟨fun y hy => H x (List.mem_cons_self _ _) y (List.mem_cons_of_mem _ hy)
      (hp.1 y hy), ih (fun a ha b hb hr =>
        H a (List.mem_cons_of_mem _ ha) b (List.mem_cons_of_mem _ hb) hr) hp.2⟩

/-- After one fill of the match loop, the surviving side map shrinks in a
priority-respecting way: every surviving price is the old best price or a
resting one, every surviving id was already queued, and the first-occurrence
priority order between surviving ids is unchanged. -/
theorem sideStep_facts {price oid : Nat} {tail : OrderQueue} {rest : Levels}
    (hnd : (allIds ((price, oid :: tail) :: rest)).Nodup)
    {fl : Bool} {Q2 : OrderQueue} {L2 : Levels}
    (hq : Q2 = if fl = true then tail else oid :: tail)
    (hl : L2 = if Q2 = [] then rest else (price, Q2) :: rest) :
    (∀ p ∈ prices L2, p = price ∨ p ∈ prices rest) ∧
    (∀ x ∈ allIds L2, x ∈ allIds ((price, oid :: tail) :: rest)) ∧
    (∀ x y, x ∈ allIds L2 → y ∈ allIds L2 → queueLE (allIds L2) x y = true →
      queueLE (allIds ((price, oid :: tail) :: rest)) x y = true) := by
  rw [allIds_cons, List.nodup_append, List.nodup_cons] at hnd
  rcases hnd with ⟨⟨hoidt, hndt⟩, hndr, hdisj⟩
  have hoidr : oid ∉ allIds rest := fun hmem => hdisj (List.mem_cons_self _ _) hmem
  subst hq
  subst hl
  rcases fl
  · simp only [Bool.false_eq_true, if_false, if_neg (List.cons_ne_nil oid tail)]
    refine ⟨?_, fun x hx => hx, fun x y _ _ hq2 => hq2⟩
    intro p hp
    rw [prices_cons] at hp
    exact List.mem_cons.mp hp
  · simp only [eq_self_iff_true, if_true]
    have hgen : ∀ L2, allIds L2 = tail ++ allIds rest →
        (∀ p ∈ prices L2, p = price ∨ p ∈ prices rest) →
        (∀ p ∈ prices L2, p = price ∨ p ∈ prices rest) ∧
        (∀ x ∈ allIds L2, x ∈ allIds ((price, oid :: tail) :: rest)) ∧
        (∀ x y, x ∈ allIds L2 → y ∈ allIds L2 → queueLE (allIds L2) x y = true →
          queueLE (allIds ((price, oid :: tail) :: rest)) x y = true) := by
      intro L2 hIds hPr
      have hold : allIds ((price, oid :: tail) :: rest) = oid :: (tail ++ allIds rest) :=
        rfl
      have hnotin : oid ∉ tail ++ allIds rest := by
        intro hmem
        rcases List.mem_append.mp hmem with hmem1 | hmem1
        · exact hoidt hmem1
        · exact hoidr hmem1
      refine ⟨hPr, ?_, ?_⟩
      · intro x hx
        rw [hIds] at hx
        rw [hold]
        exact List.mem_cons_of_mem _ hx
      · intro x y hx hy hq2
        rw [hIds] at hx hy hq2
        rw [hold]
        refine queueLE_cons_of_ne _ ?_ ?_ hq2
        · intro hh
          exact hnotin (hh ▸ hx)
        · intro hh
          exact hnotin (hh ▸ hy)
    by_cases htail : tail = []
    · rw [if_pos htail]
      refine hgen rest (by rw [htail]; rfl) ?_
      intro p hp
      exact Or.inr hp
    · rw [if_neg htail]
      refine hgen ((price, tail) :: rest) rfl ?_
      intro p hp
      rw [prices_cons] at hp
      exact List.mem_cons.mp hp

/-- The match loop emits trades in price-time priority order: relative to the
side maps of the state it starts from, the ask participants' prices are
nondecreasing and the bid participants' prices nonincreasing across the
emitted list, every recorded price/id is a resting one, and the resting ids
respect the first-occurrence priority order of the concatenated queues (best
price first, arrival order within a level). -/
theorem matchLoopF_priceTime (n : Nat) : ∀ (fuel : Nat) (b : Book) (tr : Trades)
    (res : Trades × Book), matchLoopF fuel b tr = res →
    levelsMeasure b.bids + levelsMeasure b.asks ≤ n → n < fuel → LoopInv b →
    ∃ new, res.1 = tr ++ new ∧
      (∀ t ∈ new, t.askTrade.price ∈ prices b.asks ∧ t.bidTrade.price ∈ prices b.bids ∧
        t.askTrade.orderId ∈ allIds b.asks ∧ t.bidTrade.orderId ∈ allIds b.bids) ∧
      List.Pairwise (fun t1 t2 => t1.askTrade.price ≤ t2.askTrade.price) new ∧
      List.Pairwise (fun t1 t2 => t2.bidTrade.price ≤ t1.bidTrade.price) new ∧
      List.Pairwise (fun t1 t2 =>
        queueLE (allIds b.asks) t1.askTrade.orderId t2.askTrade.orderId = true) new ∧
      List.Pairwise (fun t1 t2 =>
        queueLE (allIds b.bids) t1.bidTrade.orderId t2.bidTrade.orderId = true) new := by
  induction n with
  | zero =>
    intro fuel b tr res hres hm hf h
    obtain ⟨d, bs, as, os⟩ := b
    have hm0 : levelsMeasure bs + levelsMeasure as ≤ 0 := hm
    have hbs : bs = [] := levelsMeasure_eq_zero (by omega)
    subst hbs
    rcases fuel with _ | f
    · omega
    · refine ⟨[], ?_, fun t ht => absurd ht (List.not_mem_nil t),
        List.Pairwise.nil, List.Pairwise.nil, List.Pairwise.nil, List.Pairwise.nil⟩
      rw [List.append_nil, ← hres]
      rfl
  | succ n ih =>
    intro fuel b tr res hres hm hf h
    obtain ⟨d, bs, as, os⟩ := b
    rcases fuel with _ | f
    · omega
    rcases bs with _ | ⟨⟨bp, bq⟩, restB⟩
    · refine ⟨[], ?_, fun t ht => absurd ht (List.not_mem_nil t),
        List.Pairwise.nil, List.Pairwise.nil, List.Pairwise.nil, List.Pairwise.nil⟩
      rw [List.append_nil, ← hres]
      rfl
    rcases as with _ | ⟨⟨ap, aq⟩, restA⟩
    · refine ⟨[], ?_, fun t ht => absurd ht (List.not_mem_nil t),
        List.Pairwise.nil, List.Pairwise.nil, List.Pairwise.nil, List.Pairwise.nil⟩
      rw [List.append_nil, ← hres]
      rfl
    by_cases hlt : bp < ap
    · simp only [matchLoopF] at hres
      rw [if_pos hlt] at hres
      refine ⟨[], ?_, fun t ht => absurd ht (List.not_mem_nil t),
        List.Pairwise.nil, List.Pairwise.nil, List.Pairwise.nil, List.Pairwise.nil⟩
      rw [List.append_nil, ← hres]
    · rcases bq with _ | ⟨bidId, bidTail⟩
      · exact absurd rfl (h.neB (bp, []) (List.mem_cons_self _ _))
      rcases aq with _ | ⟨askId, askTail⟩
      · exact absurd rfl (h.neA (ap, []) (List.mem_cons_self _ _))
      rcases h.bidsOwned (bp, bidId :: bidTail) (List.mem_cons_self _ _) bidId
        (List.mem_cons_self _ _) with ⟨bid, hlb, hbid_id0, _, hbid_price0⟩
      rcases h.asksOwned (ap, askId :: askTail) (List.mem_cons_self _ _) askId
        (List.mem_cons_self _ _) with ⟨ask, hla, hask_id0, _, hask_price0⟩
      have hbid_id : bid.id = bidId := hbid_id0
      have hbid_price : bid.price = bp := hbid_price0
      have hask_id : ask.id = askId := hask_id0
      have hask_price : ask.price = ap := hask_price0
      have hlb' : storeLookup os bidId = some bid := hlb
      have hla' : storeLookup os askId = some ask := hla
      have hone : (bid.fill (min bid.remainingQuantity ask.remainingQuantity)).isFilled
          = true ∨
          (ask.fill (min bid.remainingQuantity ask.remainingQuantity)).isFilled
          = true := by
        rcases le_total bid.remainingQuantity ask.remainingQuantity with hle | hle
        · left
          show (bid.remainingQuantity -
            min bid.remainingQuantity ask.remainingQuantity == 0) = true
          rw [min_eq_left hle, Nat.sub_self]
          rfl
        · right
          show (ask.remainingQuantity -
            min bid.remainingQuantity ask.remainingQuantity == 0) = true
          rw [min_eq_right hle, Nat.sub_self]
          rfl
      have hmlt := fillStep_measure_lt bp ap bidId askId bidTail askTail restB restA
        (bid.fill (min bid.remainingQuantity ask.remainingQuantity)).isFilled
        (ask.fill (min bid.remainingQuantity ask.remainingQuantity)).isFilled hone
      have hm' : levelsMeasure ((bp, bidId :: bidTail) :: restB) +
          levelsMeasure ((ap, askId :: askTail) :: restA) ≤ n + 1 := hm
      simp only [matchLoopF] at hres
      rw [if_neg hlt] at hres
      simp only [hlb', hla'] at hres
      obtain ⟨new2, hEq2, hMem2, hPA2, hPB2, hQA2, hQB2⟩ := ih f _ _ res hres
        (Nat.lt_succ_iff.mp (lt_of_lt_of_le hmlt hm')) (by omega)
        (by
          refine fillStep_loopInv h hlb hla ?_ ?_ rfl rfl rfl rfl rfl
          · exact ⟨rfl, rfl, rfl, rfl⟩
          · exact ⟨rfl, rfl, rfl, rfl⟩)
      have hids : (((bidId :: bidTail) ++ allIds restB) ++
          ((askId :: askTail) ++ allIds restA)).Nodup := coreInv_ids_nodup h.toCoreInv
      rw [List.nodup_append] at hids
      obtain ⟨hndB2, hndA2, _⟩ := hids
      obtain ⟨hTB, hIB, hQTB⟩ := @sideStep_facts bp bidId bidTail restB
        (show (allIds ((bp, bidId :: bidTail) :: restB)).Nodup from hndB2)
        ((bid.fill (min bid.remainingQuantity ask.remainingQuantity)).isFilled)
        _ _ rfl rfl
      obtain ⟨hTA, hIA, hQTA⟩ := @sideStep_facts ap askId askTail restA
        (show (allIds ((ap, askId :: askTail) :: restA)).Nodup from hndA2)
        ((ask.fill (min bid.remainingQuantity ask.remainingQuantity)).isFilled)
        _ _ rfl rfl
      have hsA2 : ∀ y ∈ prices restA, ap < y := by
        have hh := h.sortedA
        rw [show prices (Book.asks ⟨d, (bp, bidId :: bidTail) :: restB,
          (ap, askId :: askTail) :: restA, os⟩) = ap :: prices restA from rfl,
          List.pairwise_cons] at hh
        exact hh.1
      have hsB2 : ∀ y ∈ prices restB, y < bp := by
        have hh := h.sortedB
        rw [show prices (Book.bids ⟨d, (bp, bidId :: bidTail) :: restB,
          (ap, askId :: askTail) :: restA, os⟩) = bp :: prices restB from rfl,
          List.pairwise_cons] at hh
        exact hh.1
      have hgeA : ∀ p, p = ap ∨ p ∈ prices restA → ap ≤ p := by
        rintro p (rfl | hp)
        · exact le_rfl
        · exact le_of_lt (hsA2 p hp)
      have hleB : ∀ p, p = bp ∨ p ∈ prices restB → p ≤ bp := by
        rintro p (rfl | hp)
        · exact le_rfl
        · exact le_of_lt (hsB2 p hp)
      have hmemA : ∀ p, p = ap ∨ p ∈ prices restA →
          p ∈ prices ((ap, askId :: askTail) :: restA) := by
        rintro p (rfl | hp)
        · exact List.mem_cons_self _ _
        · exact List.mem_cons_of_mem _ hp
      have hmemB : ∀ p, p = bp ∨ p ∈ prices restB →
          p ∈ prices ((bp, bidId :: bidTail) :: restB) := by
        rintro p (rfl | hp)
        · exact List.mem_cons_self _ _
        · exact List.mem_cons_of_mem _ hp
      refine ⟨(⟨⟨bid.id, bid.price, min bid.remainingQuantity ask.remainingQuantity⟩,
          ⟨ask.id, ask.price, min bid.remainingQuantity ask.remainingQuantity⟩⟩ :
            Trade) :: new2,
        ?_, ?_, ?_, ?_, ?_, ?_⟩
      · rw [hEq2, List.append_assoc]
        rfl
      · intro t ht
        rcases List.mem_cons.mp ht with h1 | h1
        · subst h1
          refine ⟨?_, ?_, ?_, ?_⟩
          · show ask.price ∈ prices ((ap, askId :: askTail) :: restA)
            exact hmemA _ (Or.inl hask_price)
          · show bid.price ∈ prices ((bp, bidId :: bidTail) :: restB)
            exact hmemB _ (Or.inl hbid_price)
          · show ask.id ∈ allIds ((ap, askId :: askTail) :: restA)
            rw [hask_id]
            exact List.mem_append_left _ (List.mem_cons_self _ _)
          · show bid.id ∈ allIds ((bp, bidId :: bidTail) :: restB)
            rw [hbid_id]
            exact List.mem_append_left _ (List.mem_cons_self _ _)
        · obtain ⟨m1, m2, m3, m4⟩ := hMem2 t h1
          exact ⟨hmemA _ (hTA _ m1), hmemB _ (hTB _ m2), hIA _ m3, hIB _ m4⟩
      · refine List.pairwise_cons.mpr ⟨?_, hPA2⟩
        intro t ht
        show ask.price ≤ t.askTrade.price
        rw [hask_price]
        exact hgeA _ (hTA _ (hMem2 t ht).1)
      · refine List.pairwise_cons.mpr ⟨?_, hPB2⟩
        intro t ht
        show t.bidTrade.price ≤ bid.price
        rw [hbid_price]
        exact hleB _ (hTB _ (hMem2 t ht).2.1)
      · refine List.pairwise_cons.mpr ⟨?_, ?_⟩
        · intro t ht
          show queueLE (allIds ((ap, askId :: askTail) :: restA)) ask.id
            t.askTrade.orderId = true
          rw [hask_id]
          exact queueLE_head askId t.askTrade.orderId (askTail ++ allIds restA)
        · refine pairwise_imp_mem ?_ hQA2
          intro a ha c hc hr
          exact hQTA _ _ (hMem2 a ha).2.2.1 (hMem2 c hc).2.2.1 hr
      · refine List.pairwise_cons.mpr ⟨?_, ?_⟩
        · intro t ht
          show queueLE (allIds ((bp, bidId :: bidTail) :: restB)) bid.id
            t.bidTrade.orderId = true
          rw [hbid_id]
          exact queueLE_head bidId t.bidTrade.orderId (bidTail ++ allIds restB)
        · refine pairwise_imp_mem ?_ hQB2
          intro a ha c hc hr
          exact hQTB _ _ (hMem2 a ha).2.2.2 (hMem2 c hc).2.2.2 hr

/-- Orderbook::MatchOrders, started in a loop-invariant state, emits its
trades in price-time priority order relative to that state's side maps (the
FillAndKill post-passes do not touch the returned trade list). -/
theorem MatchOrders_priceTime {B : Book} (h : LoopInv B) :
    List.Pairwise (fun t1 t2 => t1.askTrade.price ≤ t2.askTrade.price)
      (MatchOrders B).1 ∧
    List.Pairwise (fun t1 t2 => t2.bidTrade.price ≤ t1.bidTrade.price)
      (MatchOrders B).1 ∧
    List.Pairwise (fun t1 t2 =>
      queueLE (allIds B.asks) t1.askTrade.orderId t2.askTrade.orderId = true)
      (MatchOrders B).1 ∧
    List.Pairwise (fun t1 t2 =>
      queueLE (allIds B.bids) t1.bidTrade.orderId t2.bidTrade.orderId = true)
      (MatchOrders B).1 := by
  obtain ⟨new, h1, h2, h3, h4, h5, h6⟩ := matchLoopF_priceTime
    (levelsMeasure B.bids + levelsMeasure B.asks) (matchFuel B) B []
    (matchLoopF (matchFuel B) B []) rfl le_rfl (by rw [matchFuel]; omega) h
  have hfst : (MatchOrders B).1 = new := by
    show (matchLoopF (matchFuel B) B []).1 = new
    rw [h1]
    rfl
  rw [hfst]
  exact ⟨h3, h4, h5, h6⟩

/-- C2: price-time priority of emitted trades.  General part: for every
AddOrder call on a reachable book state, the returned trade list is emitted
best price first — the ask participants' prices are nondecreasing and the
bid participants' prices nonincreasing across the list — and the resting
opposite side is consumed in queue priority order: for an incoming buy, the
ask ids of any two trades (in emission order) respect queueLE over the
concatenated ask queues, which are ordered best price first with arrival
(FIFO) order inside each price level, so two resting orders at the same
price match strictly in arrival order; symmetrically for an incoming sell
over the bid queues.  Scenario part (spec test 2): adding Sell#3@100 q7 to
the book holding Buy#1@100 q5 then Buy#2@100 q5 emits exactly (#1, #3, qty 5)
then (#2, #3, qty 2), removes #1 and #3, and leaves #2 with remaining 3. -/
theorem claim_C2_price_time_priority :
    (∀ b, Reachable b → ∀ o : Order,
      List.Pairwise (fun t1 t2 => t1.askTrade.price ≤ t2.askTrade.price)
        (AddOrder b o).1 ∧
      List.Pairwise (fun t1 t2 => t2.bidTrade.price ≤ t1.bidTrade.price)
        (AddOrder b o).1 ∧
      (o.side = Side.Buy → List.Pairwise (fun t1 t2 =>
        queueLE (allIds b.asks) t1.askTrade.orderId t2.askTrade.orderId = true)
        (AddOrder b o).1) ∧
      (o.side = Side.Sell → List.Pairwise (fun t1 t2 =>
        queueLE (allIds b.bids) t1.bidTrade.orderId t2.bidTrade.orderId = true)
        (AddOrder b o).1)) ∧
    (AddOrder priceTimeBook (mkOrder .GoodTillCancel 3 .Sell 100 7)).1 =
      [{ bidTrade := { orderId := 1, price := 100, quantity := 5 }
         askTrade := { orderId := 3, price := 100, quantity := 5 } },
       { bidTrade := { orderId := 2, price := 100, quantity := 2 }
         askTrade := { orderId := 3, price := 100, quantity := 2 } }] ∧
    (AddOrder priceTimeBook (mkOrder .GoodTillCancel 3 .Sell 100 7)).2.bids =
      [(100, [2])] ∧
    (AddOrder priceTimeBook (mkOrder .GoodTillCancel 3 .Sell 100 7)).2.asks = [] ∧
    (AddOrder priceTimeBook (mkOrder .GoodTillCancel 3 .Sell 100 7)).2.orders =
      [(2, { orderType := .GoodTillCancel, id := 2, side := .Buy, price := 100,
             initialQuantity := 5, remainingQuantity := 3 })] := by
  refine ⟨?_, by decide, by decide, by decide, by decide⟩
  intro b hr o
  have h := Reachable_SInv hr
  obtain ⟨ot, oid, osd, opr, oiq, orq⟩ := o
  by_cases hdup : (storeLookup b.orders oid).isSome = true
  · have heq : AddOrder b ⟨ot, oid, osd, opr, oiq, orq⟩ = ([], b) := by
      simp [AddOrder, hdup]
    rw [heq]
    exact ⟨List.Pairwise.nil, List.Pairwise.nil, fun _ => List.Pairwise.nil,
      fun _ => List.Pairwise.nil⟩
  · have hdup' : (storeLookup b.orders oid).isSome = false := by
      rcases hx : (storeLookup b.orders oid).isSome
      · rfl
      · exact absurd hx hdup
    have hfresh : List.lookup oid b.orders = none := by
      rcases hx : storeLookup b.orders oid with _ | v
      · exact hx
      · rw [hx] at hdup'
        exact Bool.noConfusion hdup'
    by_cases hfakg : ot = OrderType.FillAndKill ∧ CanMatch b osd opr = false
    · have heq : AddOrder b ⟨ot, oid, osd, opr, oiq, orq⟩ = ([], b) := by
        simp [AddOrder, hfakg.1, hfakg.2]
      rw [heq]
      exact ⟨List.Pairwise.nil, List.Pairwise.nil, fun _ => List.Pairwise.nil,
        fun _ => List.Pairwise.nil⟩
    · have hfakImp : ot = OrderType.FillAndKill → CanMatch b osd opr = true := by
        intro hF
        rcases hcm : CanMatch b osd opr
        · exact absurd ⟨hF, hcm⟩ hfakg
        · rfl
      by_cases hmkt : ot = OrderType.Market
      · subst hmkt
        rcases osd
        · rcases hgl : b.asks.getLast? with _ | ⟨⟨wa, wq⟩⟩
          · have heq : AddOrder b ⟨OrderType.Market, oid, Side.Buy, opr, oiq, orq⟩ =
                ([], b) := by
              simp [AddOrder, hdup', hfakg, hgl]
            rw [heq]
            exact ⟨List.Pairwise.nil, List.Pairwise.nil, fun _ => List.Pairwise.nil,
              fun _ => List.Pairwise.nil⟩
          · have heq : AddOrder b ⟨OrderType.Market, oid, Side.Buy, opr, oiq, orq⟩ =
                MatchOrders
                  ⟨UpdateLevelData wa oiq LevelAction.Add b.data,
                    levelsAppend (fun x y => decide (y < x)) wa oid b.bids,
                    b.asks,
                    b.orders ++ [(oid, ⟨OrderType.GoodTillCancel, oid, Side.Buy, wa,
                      oiq, orq⟩)]⟩ := by
              simp [AddOrder, hdup', hfakg, hgl, Order.toGoodTillCancel]
            rw [heq]
            obtain ⟨p1, p2, p3, p4⟩ := MatchOrders_priceTime (@insert_loopInv_buy b
              (UpdateLevelData wa oiq LevelAction.Add b.data)
              ⟨OrderType.GoodTillCancel, oid, Side.Buy, wa, oiq, orq⟩ h rfl hfresh
              (fun hF => OrderType.noConfusion hF))
            exact ⟨p1, p2, fun _ => p3, fun hss => absurd hss
              (fun hh => Side.noConfusion hh)⟩
        · rcases hgl : b.bids.getLast? with _ | ⟨⟨wb, wq⟩⟩
          · have heq : AddOrder b ⟨OrderType.Market, oid, Side.Sell, opr, oiq, orq⟩ =
                ([], b) := by
              simp [AddOrder, hdup', hfakg, hgl]
            rw [heq]
            exact ⟨List.Pairwise.nil, List.Pairwise.nil, fun _ => List.Pairwise.nil,
              fun _ => List.Pairwise.nil⟩
          · have heq : AddOrder b ⟨OrderType.Market, oid, Side.Sell, opr, oiq, orq⟩ =
                MatchOrders
                  ⟨UpdateLevelData wb oiq LevelAction.Add b.data,
                    b.bids,
                    levelsAppend (fun x y => decide (x < y)) wb oid b.asks,
                    b.orders ++ [(oid, ⟨OrderType.GoodTillCancel, oid, Side.Sell, wb,
                      oiq, orq⟩)]⟩ := by
              simp [AddOrder, hdup', hfakg, hgl, Order.toGoodTillCancel]
            rw [heq]
            obtain ⟨p1, p2, p3, p4⟩ := MatchOrders_priceTime (@insert_loopInv_sell b
              (UpdateLevelData wb oiq LevelAction.Add b.data)
              ⟨OrderType.GoodTillCancel, oid, Side.Sell, wb, oiq, orq⟩ h
              (fun hh => Side.noConfusion hh) hfresh
              (fun hF => OrderType.noConfusion hF))
            exact ⟨p1, p2, fun hss => absurd hss (fun hh => Side.noConfusion hh),
              fun _ => p4⟩
      · by_cases hfokc : ot = OrderType.FillOrKill ∧
            CanFullyFill b osd opr oiq = false
        · have heq : AddOrder b ⟨ot, oid, osd, opr, oiq, orq⟩ = ([], b) := by
            simp [AddOrder, hdup', hfakg, hmkt, hfokc.1, hfokc.2]
          rw [heq]
          exact ⟨List.Pairwise.nil, List.Pairwise.nil, fun _ => List.Pairwise.nil,
            fun _ => List.Pairwise.nil⟩
        · rcases osd
          · have heq : AddOrder b ⟨ot, oid, Side.Buy, opr, oiq, orq⟩ =
                MatchOrders
                  ⟨UpdateLevelData opr oiq LevelAction.Add b.data,
                    levelsAppend (fun x y => decide (y < x)) opr oid b.bids,
                    b.asks,
                    b.orders ++ [(oid, ⟨ot, oid, Side.Buy, opr, oiq, orq⟩)]⟩ := by
              simp [AddOrder, hdup', hfakg, hmkt, hfokc]
            rw [heq]
            obtain ⟨p1, p2, p3, p4⟩ := MatchOrders_priceTime (@insert_loopInv_buy b
              (UpdateLevelData opr oiq LevelAction.Add b.data)
              ⟨ot, oid, Side.Buy, opr, oiq, orq⟩ h rfl hfresh hfakImp)
            exact ⟨p1, p2, fun _ => p3, fun hss => absurd hss
              (fun hh => Side.noConfusion hh)⟩
          · have heq : AddOrder b ⟨ot, oid, Side.Sell, opr, oiq, orq⟩ =
                MatchOrders
                  ⟨UpdateLevelData opr oiq LevelAction.Add b.data,
                    b.bids,
                    levelsAppend (fun x y => decide (x < y)) opr oid b.asks,
                    b.orders ++ [(oid, ⟨ot, oid, Side.Sell, opr, oiq, orq⟩)]⟩ := by
              simp [AddOrder, hdup', hfakg, hmkt, hfokc]
            rw [heq]
            obtain ⟨p1, p2, p3, p4⟩ := MatchOrders_priceTime (@insert_loopInv_sell b
              (UpdateLevelData opr oiq LevelAction.Add b.data)
              ⟨ot, oid, Side.Sell, opr, oiq, orq⟩ h
              (fun hh => Side.noConfusion hh) hfresh hfakImp)
            exact ⟨p1, p2, fun hss => absurd hss (fun hh => Side.noConfusion hh),
              fun _ => p4⟩

/-- C2 witness: the general part applied to the concrete reachable book
holding Buy#1@100 q5 then Buy#2@100 q5 and to the incoming Sell#3@100 q7 of
the claim's scenario. -/
theorem claim_C2_witness :
    Reachable priceTimeBook ∧
    (List.Pairwise (fun t1 t2 => t1.askTrade.price ≤ t2.askTrade.price)
      (AddOrder priceTimeBook (mkOrder .GoodTillCancel 3 .Sell 100 7)).1 ∧
    List.Pairwise (fun t1 t2 => t2.bidTrade.price ≤ t1.bidTrade.price)
      (AddOrder priceTimeBook (mkOrder .GoodTillCancel 3 .Sell 100 7)).1 ∧
    ((mkOrder .GoodTillCancel 3 .Sell 100 7).side = Side.Buy →
      List.Pairwise (fun t1 t2 =>
        queueLE (allIds priceTimeBook.asks) t1.askTrade.orderId
          t2.askTrade.orderId = true)
        (AddOrder priceTimeBook (mkOrder .GoodTillCancel 3 .Sell 100 7)).1) ∧
    ((mkOrder .GoodTillCancel 3 .Sell 100 7).side = Side.Sell →
      List.Pairwise (fun t1 t2 =>
        queueLE (allIds priceTimeBook.bids) t1.bidTrade.orderId
          t2.bidTrade.orderId = true)
        (AddOrder priceTimeBook (mkOrder .GoodTillCancel 3 .Sell 100 7)).1)) :=
  ⟨⟨[.add .GoodTillCancel 1 .Buy 100 5, .add .GoodTillCancel 2 .Buy 100 5], rfl⟩,
    claim_C2_price_time_priority.1 priceTimeBook
      ⟨[.add .GoodTillCancel 1 .Buy 100 5, .add .GoodTillCancel 2 .Buy 100 5], rfl⟩
      (mkOrder .GoodTillCancel 3 .Sell 100 7)⟩

end OB
